import Mathlib

/-!
# EcalUtils command line parsing and environment variable expansion

A shallow embedding of the command line helpers of
`lib/EcalUtils/include/EcalUtils/EcalUtils.h` (namespace `EcalUtils::CommandLine`):
`GetStartOfNextArgument`, `GetEndOfNextArgument`, `splitCommandLine` and `ToArgv`,
of `ExpandEnvVars` (namespace `EcalUtils::Path`), with the lookup `getenv` and the
compile-time switch `_WIN32` as parameters, of `GetBaseName` and `GetFileName`, and of
`replace` (namespace `EcalUtils::String`). The lookup that the code calls is the C library's
`getenv`; `Path.getenv` is that function over the variables of the process.

A `std::string` is a `List Char`; a `size_t` is a `Nat` below `2 ^ 64`.
Subtractions that can go below zero wrap modulo `2 ^ 64` as in the source.
Additions are not reduced: every position that is incremented is at most the
length of the string plus one, and a string is shorter than `2 ^ 64`.
-/

namespace EcalUtils

/-- The single quote character. -/
def SQUOTE : Char := Char.ofNat 39

/-- The double quote character. -/
def DQUOTE : Char := Char.ofNat 34

/-- The backslash character. -/
def BACKSLASH : Char := Char.ofNat 92

/-- The function `std::isspace` in the default "C" locale: space, `\t`, `\n`, `\v`, `\f`, `\r`. -/
def isspace (c : Char) : Bool :=
  c = ' ' || (9 ≤ c.toNat && c.toNat ≤ 13)

/-- The value `std::string::npos`, the largest `size_t`. -/
def npos : Nat := 2 ^ 64 - 1

/-- Subtraction of `size_t` values, wrapping below zero. -/
def wsub (a b : Nat) : Nat := (a + 2 ^ 64 - b) % 2 ^ 64

/-- The call `s.substr(pos, len)`: `none` stands for the `std::out_of_range` exception. -/
def substr (s : List Char) (pos len : Nat) : Option (List Char) :=
  if pos > s.length then none else some ((s.drop pos).take len)

/-- The call `s.substr(pos)`: `none` stands for the `std::out_of_range` exception. -/
def substrFrom (s : List Char) (pos : Nat) : Option (List Char) :=
  if pos > s.length then none else some (s.drop pos)

namespace Path

/-- The left curly bracket. -/
def LBRACE : Char := Char.ofNat 123

/-- The right curly bracket. -/
def RBRACE : Char := Char.ofNat 125

/-- The function `isalnum` in the default "C" locale: the ASCII digits and letters. -/
def isalnum (c : Char) : Bool :=
  (48 ≤ c.toNat && c.toNat ≤ 57) || (65 ≤ c.toNat && c.toNat ≤ 90)
    || (97 ≤ c.toNat && c.toNat ≤ 122)

/-- The test of the `while` loop of `ExpandEnvVars` that scans a variable name:
`isalnum(input[m]) || input[m] == '_'`. -/
def isNameChar (c : Char) : Bool :=
  isalnum c || c = '_'

/-- The enumeration `eBracket` of `ExpandEnvVars`. `Bracket_Windows` exists under `_WIN32`
only; `Bracket_Max` is never assigned and left out. -/
inductive eBracket where
  | Bracket_None
  | Bracket_Normal
  | Bracket_Curly
  | Bracket_Windows
deriving DecidableEq

/-- The value of a bracket kind as a character, its closing delimiter. -/
def eBracket.toChar : eBracket → Char
  | .Bracket_None => Char.ofNat 0
  | .Bracket_Normal => ')'
  | .Bracket_Curly => RBRACE
  | .Bracket_Windows => '%'

/-- The choice of the bracket kind in `ExpandEnvVars` at a trigger character `c = input[n]`
followed by `rest`. The result is the bracket, the character `input[n]` after the optional
`n++` that skips an opening bracket, and the input behind that character. The flag `win` says
whether the code is compiled with `_WIN32`. -/
def selectBracket (win : Bool) (c : Char) (rest : List Char) : eBracket × Char × List Char :=
  if win = true ∧ c = '%' then (.Bracket_Windows, c, rest)
  else
    match rest with
    | [] => (.Bracket_None, c, rest)
    | d :: rest2 =>
      if d = '(' then (.Bracket_Normal, d, rest2)
      else if d = LBRACE then (.Bracket_Curly, d, rest2)
      else (.Bracket_None, c, rest)

/-- The body of the trigger case of `ExpandEnvVars` behind the choice of the bracket: `prev` is
`input[n - 1]` (read only when an opening bracket was skipped, and then the trigger character),
`cur` is `input[n]` and `tail` the input behind it. The variable name is scanned, looked up with
`getenv`, and the closing bracket is checked. The result is the text appended to `output` and the
input from the final `m` on, where the outer loop goes on. -/
def expandRef (getenv : List Char → Option (List Char)) (prev : Char) (bracket : eBracket)
    (cur : Char) (tail : List Char) : List Char × List Char :=
  let var_name := tail.takeWhile isNameChar
  let after := tail.dropWhile isNameChar
  let expanded : Bool := (getenv var_name).isSome
  let emitted : List Char :=
    match getenv var_name with
    | some tmp => tmp
    | none =>
      (if bracket ≠ .Bracket_Windows ∧ bracket ≠ .Bracket_None then [prev] else [])
        ++ cur :: var_name
  if bracket ≠ .Bracket_None then
    match after with
    | [] => (emitted, after)
    | e :: after2 =>
      if e ≠ bracket.toChar then (emitted, after)
      else (emitted ++ (if expanded = false then [bracket.toChar] else []), after2)
  else (emitted, after)

/-- The `for` loop of `ExpandEnvVars`, run on the input from `n` on; the result is what the loop
appends to `output`. The lookup `getenv` of the C library is a parameter. The first argument
bounds the number of iterations; `none` is returned when that bound is used up. -/
def expandLoop (win : Bool) (getenv : List Char → Option (List Char)) :
    Nat → List Char → Option (List Char)
  | 0, _ => none
  | _ + 1, [] => some []
  | fuel + 1, c :: rest =>
    if c = '$' ∨ (win = true ∧ c = '%') then
      let sel := selectBracket win c rest
      let r := expandRef getenv c sel.1 sel.2.1 sel.2.2
      (expandLoop win getenv fuel r.2).map (fun out => r.1 ++ out)
    else if c = BACKSLASH then
      match rest with
      | [] => (expandLoop win getenv fuel rest).map (fun out => c :: out)
      | d :: rest2 =>
        if d = '%' ∨ d = '$' then (expandLoop win getenv fuel rest2).map (fun out => d :: out)
        else (expandLoop win getenv fuel rest).map (fun out => c :: out)
    else (expandLoop win getenv fuel rest).map (fun out => c :: out)

/-- The function `ExpandEnvVars(input)`, for the code compiled with `_WIN32` (`win = true`) or
without it, and for the environment `getenv`. -/
def ExpandEnvVars (win : Bool) (getenv : List Char → Option (List Char)) (input : List Char) :
    Option (List Char) :=
  expandLoop win getenv (input.length + 1) input

/-- The library call `s.find_last_of(c)`, run from position `pos` on with the last match so far:
the index of the last character equal to `c`. -/
def findLastLoop (c : Char) : List Char → Nat → Nat → Nat
  | [], _, best => best
  | d :: rest, pos, best => findLastLoop c rest (pos + 1) (if d = c then pos else best)

/-- The library call `s.find_last_of(c)`: the index of the last character equal to `c`, or
`npos` when there is none. -/
def find_last_of (s : List Char) (c : Char) : Nat :=
  findLastLoop c s 0 npos

/-- The library call `s.erase(pos)`, which removes the characters from `pos` on: `none` stands
for the `std::out_of_range` exception. -/
def erase (s : List Char) (pos : Nat) : Option (List Char) :=
  if pos > s.length then none else some (s.take pos)

/-- The function `GetBaseName(path)`. -/
def GetBaseName (path : List Char) : Option (List Char) :=
  let idx_base := find_last_of path BACKSLASH
  let idx_base := if idx_base = npos then find_last_of path '/' else idx_base
  if idx_base ≠ npos then
    match substrFrom path (idx_base + 1) with
    | none => none
    | some base =>
      let idx_ext := find_last_of base '.'
      if idx_ext ≠ npos then erase base idx_ext else some base
  else some path

/-- The function `GetFileName(path)`. -/
def GetFileName (path : List Char) : Option (List Char) :=
  let idx_name := find_last_of path BACKSLASH
  let idx_name := if idx_name = npos then find_last_of path '/' else idx_name
  if idx_name ≠ npos then substrFrom path (idx_name + 1) else some path

/-- The environment of the examples: `HOME` is `/home/u`, nothing else is set. -/
def envHome (name : List Char) : Option (List Char) :=
  if name = ['H', 'O', 'M', 'E'] then some ['/', 'h', 'o', 'm', 'e', '/', 'u'] else none

/-- The C library call `getenv(name)` of `ExpandEnvVars`, over the variables `environ` of the
process: `none` stands for `NULL`. The empty name is never found, whatever `environ` holds (the
library returns `NULL` for it, also with an entry `=X` in the environment); every other name is
looked up in `environ`. -/
def getenv (environ : List Char → Option (List Char)) (name : List Char) : Option (List Char) :=
  if name = [] then none else environ name

end Path

namespace String

/-- The library call `str.find(from_, pos)`, run on the characters from `pos` on: the first
position at which `from_` stands. -/
def findLoop (from_ : List Char) : List Char → Nat → Nat
  | [], pos => if from_ = [] then pos else npos
  | c :: rest, pos =>
    if from_.isPrefixOf (c :: rest) = true then pos else findLoop from_ rest (pos + 1)

/-- The library call `str.find(from_, start)`: the first position at or behind `start` at which
`from_` stands in `str`, or `npos`. -/
def find (str from_ : List Char) (start : Nat) : Nat :=
  if start > str.length then npos else findLoop from_ (str.drop start) start

/-- The `do`-`while` loop of `replace`, entered with `start`; the result is what the loop
appends to `result`. The parameters `from` and `to` of the source are called `from_` and `to_`.
The first argument bounds the number of iterations; `none` is returned when that bound is used
up or when an `append` call throws. -/
def replaceLoop (str from_ to_ : List Char) : Nat → Nat → Option (List Char)
  | 0, _ => none
  | fuel + 1, start =>
    if find str from_ start ≠ npos then
      match substr str start (wsub (find str from_ start) start) with
      | none => none
      | some piece =>
        (replaceLoop str from_ to_ fuel (find str from_ start + from_.length)).map
          (fun r => piece ++ (to_ ++ r))
    else substr str start (wsub str.length start)

/-- The function `replace(str, from, to, start)` for `S = std::string`. -/
def replace (str from_ to_ : List Char) (start : Nat) : Option (List Char) :=
  match substr str 0 start with
  | none => none
  | some head => (replaceLoop str from_ to_ (str.length + 1) start).map (fun r => head ++ r)

/-- The words of the doc comment of `replace`, "replace all occurrences of from in str with
to", read as a scan from left to right without overlap: at an occurrence of `from_` the text
`to_` is put and the occurrence is passed (`skip` counts its characters still to pass), any
other character is kept. -/
def replaceAllSpec (from_ to_ : List Char) : List Char → Nat → List Char
  | [], _ => []
  | _ :: rest, skip + 1 => replaceAllSpec from_ to_ rest skip
  | c :: rest, 0 =>
    if from_.isPrefixOf (c :: rest) = true then
      to_ ++ replaceAllSpec from_ to_ rest (from_.length - 1)
    else c :: replaceAllSpec from_ to_ rest 0

end String

namespace CommandLine

/-- The `while` loop of `GetStartOfNextArgument`, run on the characters from `pos` on. -/
def skipSpaces : List Char → Nat → Nat
  | [], pos => pos
  | c :: rest, pos => if isspace c then skipSpaces rest (pos + 1) else pos

/-- The function `GetStartOfNextArgument(arg_string, start_at)`. -/
def GetStartOfNextArgument (arg_string : List Char) (start_at : Nat) : Nat :=
  let pos := skipSpaces (arg_string.drop start_at) start_at
  if pos = arg_string.length then npos else pos

/-- The `while` loop of `GetEndOfNextArgument`, run on the characters from `pos` on,
with the flags `double_quote` and `single_quote`. The result is `pos` when the loop is left. -/
def endLoop : List Char → Nat → Bool → Bool → Nat
  | [], pos, _, _ => pos
  | c :: rest, pos, double_quote, single_quote =>
    if c = BACKSLASH then
      match rest with
      | [] => pos + 2
      | _ :: rest2 => endLoop rest2 (pos + 2) double_quote single_quote
    else if c = ' ' ∧ double_quote = false ∧ single_quote = false then
      wsub pos 1
    else if c = DQUOTE then
      endLoop rest (pos + 1) (if single_quote = false then !double_quote else double_quote)
        single_quote
    else if c = SQUOTE then
      endLoop rest (pos + 1) double_quote
        (if double_quote = false then !single_quote else single_quote)
    else
      endLoop rest (pos + 1) double_quote single_quote

/-- The function `GetEndOfNextArgument(arg_string, start_at)`. -/
def GetEndOfNextArgument (arg_string : List Char) (start_at : Nat) : Nat :=
  let pos := endLoop (arg_string.drop start_at) start_at false false
  if pos > wsub arg_string.length 1 then wsub arg_string.length 1 else pos

/-- The `for` loop of `splitCommandLine`, entered at the loop condition with counter `i` and
`next_part_start`. Every pushed argument is recorded together with the `argument_start` it was
cut at. The first argument bounds the number of iterations; `none` is returned when that bound
is used up or when a `substr` call throws. -/
def splitLoop (input_command_line : List Char) (max_number_of_arguments : Nat) :
    Nat → Nat → Nat → Option (List (Nat × List Char))
  | 0, _, _ => none
  | fuel + 1, i, next_part_start =>
    if max_number_of_arguments = 0 ∨ i < max_number_of_arguments then
      if next_part_start > wsub input_command_line.length 1 then some []
      else
        let argument_start := GetStartOfNextArgument input_command_line next_part_start
        if argument_start ≠ npos then
          let argument_end := GetEndOfNextArgument input_command_line argument_start
          if argument_end ≠ npos then
            if max_number_of_arguments = 0 ∨ i ≠ max_number_of_arguments - 1 then
              match substr input_command_line argument_start
                  ((wsub argument_end argument_start + 1) % 2 ^ 64) with
              | none => none
              | some arg =>
                (splitLoop input_command_line max_number_of_arguments fuel (i + 1)
                  (argument_end + 1)).map (fun l => (argument_start, arg) :: l)
            else
              match substrFrom input_command_line argument_start with
              | none => none
              | some arg =>
                (splitLoop input_command_line max_number_of_arguments fuel (i + 1)
                  next_part_start).map (fun l => (argument_start, arg) :: l)
          else some []
        else some []
    else some []

/-- The run of `splitCommandLine` with the start position recorded next to every argument. -/
def splitSpans (input_command_line : List Char) (max_number_of_arguments : Nat) :
    Option (List (Nat × List Char)) :=
  splitLoop input_command_line max_number_of_arguments (input_command_line.length + 2) 0 0

/-- The function `splitCommandLine(input_command_line, max_number_of_arguments)`. -/
def splitCommandLine (input_command_line : List Char) (max_number_of_arguments : Nat) :
    Option (List (List Char)) :=
  (splitSpans input_command_line max_number_of_arguments).map (fun l => l.map Prod.snd)

/-- The local variables of `ToArgv` that live across loop iterations. -/
structure ArgvState where
  argv : List (List Char)
  quote : Bool
  squote : Bool
  inside_arg : Bool
  current_arg : List Char
deriving DecidableEq

/-- The `while` loop of `ToArgv`, run on the characters from `pos` on. -/
def ToArgvLoop : List Char → ArgvState → ArgvState
  | [], st => st
  | c :: rest, ⟨argv, quote, squote, inside_arg, current_arg⟩ =>
    if inside_arg = true ∧ quote = false ∧ squote = false ∧ isspace c = true then
      ToArgvLoop rest ⟨argv ++ [current_arg], quote, squote, false, []⟩
    else if c = SQUOTE ∧ quote = false then
      ToArgvLoop rest ⟨argv, quote, !squote, true, current_arg⟩
    else if c = DQUOTE ∧ squote = false then
      ToArgvLoop rest ⟨argv, !quote, squote, true, current_arg⟩
    else if c = BACKSLASH then
      match rest with
      | [] => ⟨argv, quote, squote, true, current_arg⟩
      | d :: rest2 => ToArgvLoop rest2 ⟨argv, quote, squote, true, current_arg ++ [d]⟩
    else if quote = true ∨ squote = true then
      ToArgvLoop rest ⟨argv, quote, squote, inside_arg, current_arg ++ [c]⟩
    else if isspace c = false then
      ToArgvLoop rest ⟨argv, quote, squote, true, current_arg ++ [c]⟩
    else
      ToArgvLoop rest ⟨argv, quote, squote, inside_arg, current_arg⟩

/-- The state in which `ToArgv` enters its loop. -/
def argvInit : ArgvState := ⟨[], false, false, false, []⟩

/-- The end of `ToArgv`, after the loop: the last argument is added when one is open. -/
def argvFinish (st : ArgvState) : List (List Char) :=
  if st.inside_arg = true then st.argv ++ [st.current_arg] else st.argv

/-- The function `ToArgv(command_line)`. -/
def ToArgv (command_line : List Char) : List (List Char) :=
  argvFinish (ToArgvLoop command_line argvInit)

/-- What one iteration of the loop of `splitCommandLine` does. -/
inductive SplitStep where
  /-- The loop is left, by its condition or by a `break`. -/
  | done
  /-- A `substr` call throws `std::out_of_range`. -/
  | thrown
  /-- An argument cut at `argument_start` is pushed and the loop goes to its condition again,
  with the given `next_part_start`. -/
  | pushed (argument_start : Nat) (arg : List Char) (next_part_start : Nat)
deriving DecidableEq

/-- One iteration of the loop of `splitCommandLine`, entered at the loop condition with counter
`i` and `next_part_start`. -/
def splitStep (input_command_line : List Char) (max_number_of_arguments i next_part_start : Nat) :
    SplitStep :=
  if max_number_of_arguments = 0 ∨ i < max_number_of_arguments then
    if next_part_start > wsub input_command_line.length 1 then .done
    else if GetStartOfNextArgument input_command_line next_part_start ≠ npos then
      if GetEndOfNextArgument input_command_line
          (GetStartOfNextArgument input_command_line next_part_start) ≠ npos then
        if max_number_of_arguments = 0 ∨ i ≠ max_number_of_arguments - 1 then
          match substr input_command_line
              (GetStartOfNextArgument input_command_line next_part_start)
              ((wsub (GetEndOfNextArgument input_command_line
                  (GetStartOfNextArgument input_command_line next_part_start))
                (GetStartOfNextArgument input_command_line next_part_start) + 1) % 2 ^ 64) with
          | none => .thrown
          | some arg =>
            .pushed (GetStartOfNextArgument input_command_line next_part_start) arg
              (GetEndOfNextArgument input_command_line
                (GetStartOfNextArgument input_command_line next_part_start) + 1)
        else
          match substrFrom input_command_line
              (GetStartOfNextArgument input_command_line next_part_start) with
          | none => .thrown
          | some arg =>
            .pushed (GetStartOfNextArgument input_command_line next_part_start) arg
              next_part_start
      else .done
    else .done
  else .done

/-- One iteration of the loop of `ToArgv` at the character `c` followed by `rest`: the state
after it and the input from the new `pos` on. -/
def ToArgvStep : ArgvState → Char → List Char → ArgvState × List Char
  | ⟨argv, quote, squote, inside_arg, current_arg⟩, c, rest =>
    if inside_arg = true ∧ quote = false ∧ squote = false ∧ isspace c = true then
      (⟨argv ++ [current_arg], quote, squote, false, []⟩, rest)
    else if c = SQUOTE ∧ quote = false then
      (⟨argv, quote, !squote, true, current_arg⟩, rest)
    else if c = DQUOTE ∧ squote = false then
      (⟨argv, !quote, squote, true, current_arg⟩, rest)
    else if c = BACKSLASH then
      match rest with
      | [] => (⟨argv, quote, squote, true, current_arg⟩, [])
      | d :: rest2 => (⟨argv, quote, squote, true, current_arg ++ [d]⟩, rest2)
    else if quote = true ∨ squote = true then
      (⟨argv, quote, squote, inside_arg, current_arg ++ [c]⟩, rest)
    else if isspace c = false then
      (⟨argv, quote, squote, true, current_arg ++ [c]⟩, rest)
    else
      (⟨argv, quote, squote, inside_arg, current_arg⟩, rest)

/-- The state of `ToArgv` and the input left after `n` iterations of its loop, or at the end of
the loop when it is left earlier. -/
def ToArgvRun : Nat → ArgvState × List Char → ArgvState × List Char
  | 0, p => p
  | _ + 1, (st, []) => (st, [])
  | n + 1, (st, c :: rest) => ToArgvRun n (ToArgvStep st c rest)

/-- The local variables of `GetEndOfNextArgument`. -/
structure EndState where
  pos : Nat
  double_quote : Bool
  single_quote : Bool
deriving DecidableEq

/-- One iteration of the loop of `GetEndOfNextArgument` at the character `c` followed by `rest`:
the state after it, and the input from the new `pos` on, or `none` when the loop is left by
`break`. -/
def endStep : EndState → Char → List Char → EndState × Option (List Char)
  | ⟨pos, double_quote, single_quote⟩, c, rest =>
    if c = BACKSLASH then
      (⟨pos + 2, double_quote, single_quote⟩, some rest.tail)
    else if c = ' ' ∧ double_quote = false ∧ single_quote = false then
      (⟨wsub pos 1, double_quote, single_quote⟩, none)
    else if c = DQUOTE then
      (⟨pos + 1, if single_quote = false then !double_quote else double_quote, single_quote⟩,
        some rest)
    else if c = SQUOTE then
      (⟨pos + 1, double_quote, if double_quote = false then !single_quote else single_quote⟩,
        some rest)
    else
      (⟨pos + 1, double_quote, single_quote⟩, some rest)

/-- The state of `GetEndOfNextArgument` and the input left after `n` iterations of its loop, or
at the end of the loop when it is left earlier. -/
def endRun : Nat → EndState × Option (List Char) → EndState × Option (List Char)
  | n + 1, (st, some (c :: rest)) => endRun n (endStep st c rest)
  | _, p => p

/-- A character that is neither whitespace, nor a quote, nor a backslash. -/
def plainChar (c : Char) : Prop :=
  isspace c = false ∧ c ≠ SQUOTE ∧ c ≠ DQUOTE ∧ c ≠ BACKSLASH

instance (c : Char) : Decidable (plainChar c) := by
  unfold plainChar; infer_instance

/-- A token as whitespace splitting produces it: not empty and made of plain characters. -/
def plainToken (t : List Char) : Prop :=
  t ≠ [] ∧ ∀ c ∈ t, plainChar c

/-! ## Characters -/

theorem isspace_SQUOTE : isspace SQUOTE = false := by decide

theorem isspace_DQUOTE : isspace DQUOTE = false := by decide

theorem isspace_BACKSLASH : isspace BACKSLASH = false := by decide

theorem isspace_space : isspace ' ' = true := by decide

theorem SQUOTE_ne_DQUOTE : SQUOTE ≠ DQUOTE := by decide

theorem SQUOTE_ne_BACKSLASH : SQUOTE ≠ BACKSLASH := by decide

theorem DQUOTE_ne_BACKSLASH : DQUOTE ≠ BACKSLASH := by decide

theorem ne_SQUOTE_of_isspace {c : Char} (h : isspace c = true) : c ≠ SQUOTE := by
  rintro rfl; simp [isspace_SQUOTE] at h

theorem ne_DQUOTE_of_isspace {c : Char} (h : isspace c = true) : c ≠ DQUOTE := by
  rintro rfl; simp [isspace_DQUOTE] at h

theorem ne_BACKSLASH_of_isspace {c : Char} (h : isspace c = true) : c ≠ BACKSLASH := by
  rintro rfl; simp [isspace_BACKSLASH] at h

/-! ## The loop of `ToArgv`, one character at a time -/

/-- One iteration of the loop of `ToArgv` at a character other than the backslash. -/
theorem ToArgvLoop_cons_of_ne (c : Char) (rest : List Char) (argv : List (List Char))
    (q s ia : Bool) (cur : List Char) (hc : c ≠ BACKSLASH) :
    ToArgvLoop (c :: rest) ⟨argv, q, s, ia, cur⟩ =
      if ia = true ∧ q = false ∧ s = false ∧ isspace c = true then
        ToArgvLoop rest ⟨argv ++ [cur], q, s, false, []⟩
      else if c = SQUOTE ∧ q = false then ToArgvLoop rest ⟨argv, q, !s, true, cur⟩
      else if c = DQUOTE ∧ s = false then ToArgvLoop rest ⟨argv, !q, s, true, cur⟩
      else if q = true ∨ s = true then ToArgvLoop rest ⟨argv, q, s, ia, cur ++ [c]⟩
      else if isspace c = false then ToArgvLoop rest ⟨argv, q, s, true, cur ++ [c]⟩
      else ToArgvLoop rest ⟨argv, q, s, ia, cur⟩ := by
  cases rest <;> simp [ToArgvLoop, hc]

/-- A backslash with a following character copies that character, in every quote state. -/
theorem ToArgvLoop_backslash_cons (d : Char) (rest : List Char) (argv : List (List Char))
    (q s ia : Bool) (cur : List Char) :
    ToArgvLoop (BACKSLASH :: d :: rest) ⟨argv, q, s, ia, cur⟩
      = ToArgvLoop rest ⟨argv, q, s, true, cur ++ [d]⟩ := by
  simp [ToArgvLoop, isspace_BACKSLASH, Ne.symm SQUOTE_ne_BACKSLASH, Ne.symm DQUOTE_ne_BACKSLASH]

/-- A backslash at the end of the input copies nothing and opens an argument. -/
theorem ToArgvLoop_backslash_nil (argv : List (List Char)) (q s ia : Bool) (cur : List Char) :
    ToArgvLoop [BACKSLASH] ⟨argv, q, s, ia, cur⟩ = ⟨argv, q, s, true, cur⟩ := by
  simp [ToArgvLoop, isspace_BACKSLASH, Ne.symm SQUOTE_ne_BACKSLASH, Ne.symm DQUOTE_ne_BACKSLASH]

/-! ## The loop of `ToArgv` on runs of characters -/

/-- Inside a double-quoted string every character but the backslash and the double quote is
copied. -/
theorem ToArgvLoop_in_dquote (w rest : List Char) (argv : List (List Char)) (ia : Bool)
    (cur : List Char) (hw : ∀ c ∈ w, c ≠ BACKSLASH ∧ c ≠ DQUOTE) :
    ToArgvLoop (w ++ rest) ⟨argv, true, false, ia, cur⟩
      = ToArgvLoop rest ⟨argv, true, false, ia, cur ++ w⟩ := by
  induction w generalizing cur with
  | nil => simp
  | cons c w ih =>
    have hc := hw c (List.mem_cons_self _ _)
    have hw2 : ∀ d ∈ w, d ≠ BACKSLASH ∧ d ≠ DQUOTE := fun d hd => hw d (List.mem_cons_of_mem _ hd)
    rw [List.cons_append, ToArgvLoop_cons_of_ne _ _ _ _ _ _ _ hc.1]
    simp [hc.2, ih _ hw2]

/-- Inside a single-quoted string every character but the backslash and the single quote is
copied. -/
theorem ToArgvLoop_in_squote (w rest : List Char) (argv : List (List Char)) (ia : Bool)
    (cur : List Char) (hw : ∀ c ∈ w, c ≠ BACKSLASH ∧ c ≠ SQUOTE) :
    ToArgvLoop (w ++ rest) ⟨argv, false, true, ia, cur⟩
      = ToArgvLoop rest ⟨argv, false, true, ia, cur ++ w⟩ := by
  induction w generalizing cur with
  | nil => simp
  | cons c w ih =>
    have hc := hw c (List.mem_cons_self _ _)
    have hw2 : ∀ d ∈ w, d ≠ BACKSLASH ∧ d ≠ SQUOTE := fun d hd => hw d (List.mem_cons_of_mem _ hd)
    rw [List.cons_append, ToArgvLoop_cons_of_ne _ _ _ _ _ _ _ hc.1]
    simp [hc.2, ih _ hw2]

/-- Outside quotes a run of plain characters is copied and opens an argument. -/
theorem ToArgvLoop_plain (w rest : List Char) (argv : List (List Char)) (ia : Bool)
    (cur : List Char) (hw : ∀ c ∈ w, plainChar c) :
    ToArgvLoop (w ++ rest) ⟨argv, false, false, ia, cur⟩
      = ToArgvLoop rest ⟨argv, false, false, ia || !w.isEmpty, cur ++ w⟩ := by
  induction w generalizing cur ia with
  | nil => simp
  | cons c w ih =>
    obtain ⟨h1, h2, h3, h4⟩ := hw c (List.mem_cons_self _ _)
    have hw2 : ∀ d ∈ w, plainChar d := fun d hd => hw d (List.mem_cons_of_mem _ hd)
    rw [List.cons_append, ToArgvLoop_cons_of_ne _ _ _ _ _ _ _ h4]
    simp [h1, h2, h3, ih _ _ hw2]

/-- Induction on a list through all shorter lists. -/
theorem length_induction {P : List Char → Prop}
    (h : ∀ l, (∀ l2, l2.length < l.length → P l2) → P l) (l : List Char) : P l := by
  generalize hn : l.length = n
  induction n using Nat.strong_induction_on generalizing l with
  | _ n ih => subst hn; exact h l (fun l2 hl2 => ih _ hl2 l2 rfl)

/-- The arguments already pushed stay in front of the result. -/
theorem ToArgvLoop_argv_append (l : List Char) :
    ∀ (a argv : List (List Char)) (q s ia : Bool) (cur : List Char),
    argvFinish (ToArgvLoop l ⟨a ++ argv, q, s, ia, cur⟩)
      = a ++ argvFinish (ToArgvLoop l ⟨argv, q, s, ia, cur⟩) := by
  induction l using length_induction with
  | _ l ih =>
    intro a argv q s ia cur
    cases l with
    | nil => by_cases h : ia = true <;> simp [ToArgvLoop, argvFinish, h]
    | cons c rest =>
      by_cases hc : c = BACKSLASH
      · subst hc
        cases rest with
        | nil => simp [ToArgvLoop_backslash_nil, argvFinish]
        | cons d rest2 =>
          rw [ToArgvLoop_backslash_cons, ToArgvLoop_backslash_cons]
          exact ih rest2 (by simp; omega) _ _ _ _ _ _
      · rw [ToArgvLoop_cons_of_ne _ _ _ _ _ _ _ hc, ToArgvLoop_cons_of_ne _ _ _ _ _ _ _ hc]
        have hr : rest.length < (c :: rest).length := by simp
        split_ifs
        · rw [List.append_assoc]; exact ih rest hr _ _ _ _ _ _
        all_goals exact ih rest hr _ _ _ _ _ _

/-- After an argument is closed the loop starts afresh behind it. -/
theorem argvFinish_after_close (t : List Char) (w : List Char) :
    argvFinish (ToArgvLoop t ⟨[w], false, false, false, []⟩) = w :: ToArgv t := by
  have h := ToArgvLoop_argv_append t [w] [] false false false []
  simpa [ToArgv, argvInit] using h

/-- A double quote outside quotes opens a double-quoted string and is not copied. -/
theorem ToArgvLoop_open_dquote (rest : List Char) (argv : List (List Char)) (ia : Bool)
    (cur : List Char) :
    ToArgvLoop (DQUOTE :: rest) ⟨argv, false, false, ia, cur⟩
      = ToArgvLoop rest ⟨argv, true, false, true, cur⟩ := by
  rw [ToArgvLoop_cons_of_ne _ _ _ _ _ _ _ DQUOTE_ne_BACKSLASH]
  simp [isspace_DQUOTE, Ne.symm SQUOTE_ne_DQUOTE]

/-- A double quote inside a double-quoted string closes it and is not copied. -/
theorem ToArgvLoop_close_dquote (rest : List Char) (argv : List (List Char)) (ia : Bool)
    (cur : List Char) :
    ToArgvLoop (DQUOTE :: rest) ⟨argv, true, false, ia, cur⟩
      = ToArgvLoop rest ⟨argv, false, false, true, cur⟩ := by
  rw [ToArgvLoop_cons_of_ne _ _ _ _ _ _ _ DQUOTE_ne_BACKSLASH]
  simp

/-- A single quote outside quotes opens a single-quoted string and is not copied. -/
theorem ToArgvLoop_open_squote (rest : List Char) (argv : List (List Char)) (ia : Bool)
    (cur : List Char) :
    ToArgvLoop (SQUOTE :: rest) ⟨argv, false, false, ia, cur⟩
      = ToArgvLoop rest ⟨argv, false, true, true, cur⟩ := by
  rw [ToArgvLoop_cons_of_ne _ _ _ _ _ _ _ SQUOTE_ne_BACKSLASH]
  simp [isspace_SQUOTE]

/-- A single quote inside a single-quoted string closes it and is not copied. -/
theorem ToArgvLoop_close_squote (rest : List Char) (argv : List (List Char)) (ia : Bool)
    (cur : List Char) :
    ToArgvLoop (SQUOTE :: rest) ⟨argv, false, true, ia, cur⟩
      = ToArgvLoop rest ⟨argv, false, false, true, cur⟩ := by
  rw [ToArgvLoop_cons_of_ne _ _ _ _ _ _ _ SQUOTE_ne_BACKSLASH]
  simp

/-- A whitespace character outside quotes closes the open argument. -/
theorem ToArgvLoop_space_close (c : Char) (hc : isspace c = true) (rest : List Char)
    (argv : List (List Char)) (cur : List Char) :
    ToArgvLoop (c :: rest) ⟨argv, false, false, true, cur⟩
      = ToArgvLoop rest ⟨argv ++ [cur], false, false, false, []⟩ := by
  rw [ToArgvLoop_cons_of_ne _ _ _ _ _ _ _ (ne_BACKSLASH_of_isspace hc)]
  simp [hc]

/-! ## Quoting and escaping in `ToArgv` -/

/-- C1: `ToArgv` puts no token boundary inside a quote. A double-quoted string `w` without
backslash and double quote is the one token `w`, and followed by a space and `t` it is the token
`w` before the tokens of `t`; the same holds for a single-quoted string `v` without backslash and
single quote. The enclosing quotes are not copied, everything between them is. -/
theorem ToArgv_quoted (w v t : List Char)
    (hw : ∀ c ∈ w, c ≠ BACKSLASH ∧ c ≠ DQUOTE) (hv : ∀ c ∈ v, c ≠ BACKSLASH ∧ c ≠ SQUOTE) :
    ToArgv (DQUOTE :: w ++ [DQUOTE]) = [w]
      ∧ ToArgv (DQUOTE :: w ++ DQUOTE :: ' ' :: t) = w :: ToArgv t
      ∧ ToArgv (SQUOTE :: v ++ [SQUOTE]) = [v]
      ∧ ToArgv (SQUOTE :: v ++ SQUOTE :: ' ' :: t) = v :: ToArgv t := by
  refine ⟨?_, ?_, ?_, ?_⟩
  · rw [ToArgv, argvInit, List.cons_append, ToArgvLoop_open_dquote, ToArgvLoop_in_dquote _ _ _ _ _ hw,
      ToArgvLoop_close_dquote]
    simp [ToArgvLoop, argvFinish]
  · rw [ToArgv, argvInit, List.cons_append, ToArgvLoop_open_dquote, ToArgvLoop_in_dquote _ _ _ _ _ hw,
      ToArgvLoop_close_dquote, ToArgvLoop_space_close _ isspace_space]
    simpa using argvFinish_after_close t w
  · rw [ToArgv, argvInit, List.cons_append, ToArgvLoop_open_squote, ToArgvLoop_in_squote _ _ _ _ _ hv,
      ToArgvLoop_close_squote]
    simp [ToArgvLoop, argvFinish]
  · rw [ToArgv, argvInit, List.cons_append, ToArgvLoop_open_squote, ToArgvLoop_in_squote _ _ _ _ _ hv,
      ToArgvLoop_close_squote, ToArgvLoop_space_close _ isspace_space]
    simpa using argvFinish_after_close t v

/-- Witness for C1: whitespace and the other kind of quote inside a quoted string. -/
theorem ToArgv_quoted_witness :
    ToArgv (DQUOTE :: ['a', ' ', SQUOTE, 'b'] ++ [DQUOTE]) = [['a', ' ', SQUOTE, 'b']]
      ∧ ToArgv (DQUOTE :: ['a', ' ', SQUOTE, 'b'] ++ DQUOTE :: ' ' :: ['c', ' ', 'd'])
          = ['a', ' ', SQUOTE, 'b'] :: ToArgv ['c', ' ', 'd']
      ∧ ToArgv (SQUOTE :: ['x', '\t', DQUOTE] ++ [SQUOTE]) = [['x', '\t', DQUOTE]]
      ∧ ToArgv (SQUOTE :: ['x', '\t', DQUOTE] ++ SQUOTE :: ' ' :: ['c', ' ', 'd'])
          = ['x', '\t', DQUOTE] :: ToArgv ['c', ' ', 'd'] :=
  ToArgv_quoted ['a', ' ', SQUOTE, 'b'] ['x', '\t', DQUOTE] ['c', ' ', 'd'] (by decide) (by decide)

/-- C2: a backslash followed by a character `c` copies exactly `c`, in every quote state: after a
run `w` of plain characters, unquoted, double-quoted or single-quoted, the token is `w ++ [c]`,
whatever `c` is. -/
theorem ToArgv_escape (c : Char) (w : List Char) (hw : ∀ x ∈ w, plainChar x) :
    ToArgv (w ++ [BACKSLASH, c]) = [w ++ [c]]
      ∧ ToArgv (DQUOTE :: w ++ [BACKSLASH, c, DQUOTE]) = [w ++ [c]]
      ∧ ToArgv (SQUOTE :: w ++ [BACKSLASH, c, SQUOTE]) = [w ++ [c]] := by
  have hd : ∀ x ∈ w, x ≠ BACKSLASH ∧ x ≠ DQUOTE := fun x hx => ⟨(hw x hx).2.2.2, (hw x hx).2.2.1⟩
  have hs : ∀ x ∈ w, x ≠ BACKSLASH ∧ x ≠ SQUOTE := fun x hx => ⟨(hw x hx).2.2.2, (hw x hx).2.1⟩
  refine ⟨?_, ?_, ?_⟩
  · rw [ToArgv, argvInit, ToArgvLoop_plain _ _ _ _ _ hw, ToArgvLoop_backslash_cons]
    simp [ToArgvLoop, argvFinish]
  · rw [ToArgv, argvInit, List.cons_append, ToArgvLoop_open_dquote, ToArgvLoop_in_dquote _ _ _ _ _ hd,
      ToArgvLoop_backslash_cons, ToArgvLoop_close_dquote]
    simp [ToArgvLoop, argvFinish]
  · rw [ToArgv, argvInit, List.cons_append, ToArgvLoop_open_squote, ToArgvLoop_in_squote _ _ _ _ _ hs,
      ToArgvLoop_backslash_cons, ToArgvLoop_close_squote]
    simp [ToArgvLoop, argvFinish]

/-- Witness for C2: an escaped double quote after `ab`. -/
theorem ToArgv_escape_witness :
    ToArgv (['a', 'b'] ++ [BACKSLASH, DQUOTE]) = [['a', 'b'] ++ [DQUOTE]]
      ∧ ToArgv (DQUOTE :: ['a', 'b'] ++ [BACKSLASH, DQUOTE, DQUOTE]) = [['a', 'b'] ++ [DQUOTE]]
      ∧ ToArgv (SQUOTE :: ['a', 'b'] ++ [BACKSLASH, DQUOTE, SQUOTE]) = [['a', 'b'] ++ [DQUOTE]] :=
  ToArgv_escape DQUOTE ['a', 'b'] (by decide)

/-! ## Empty results of `ToArgv` -/

/-- Once an argument is open or has been pushed, the result is not empty. -/
theorem argvFinish_ToArgvLoop_ne_nil (l : List Char) :
    ∀ (argv : List (List Char)) (q s ia : Bool) (cur : List Char),
      ia = true ∨ argv ≠ [] → argvFinish (ToArgvLoop l ⟨argv, q, s, ia, cur⟩) ≠ [] := by
  induction l using length_induction with
  | _ l ih =>
    intro argv q s ia cur h
    cases l with
    | nil =>
      rcases h with h | h
      · simp [ToArgvLoop, argvFinish, h]
      · by_cases hia : ia = true <;> simp [ToArgvLoop, argvFinish, hia, h]
    | cons c rest =>
      by_cases hc : c = BACKSLASH
      · subst hc
        cases rest with
        | nil => simp [ToArgvLoop_backslash_nil, argvFinish]
        | cons d rest2 =>
          rw [ToArgvLoop_backslash_cons]
          exact ih rest2 (by simp; omega) _ _ _ _ _ (Or.inl rfl)
      · rw [ToArgvLoop_cons_of_ne _ _ _ _ _ _ _ hc]
        have hr : rest.length < (c :: rest).length := by simp
        split_ifs
        · exact ih rest hr _ _ _ _ _ (Or.inr (by simp))
        · exact ih rest hr _ _ _ _ _ (Or.inl rfl)
        · exact ih rest hr _ _ _ _ _ (Or.inl rfl)
        · exact ih rest hr _ _ _ _ _ h
        · exact ih rest hr _ _ _ _ _ (Or.inl rfl)
        · exact ih rest hr _ _ _ _ _ h

/-- C3: `ToArgv` returns the empty list exactly for the inputs that consist of whitespace only,
the empty input included. -/
theorem ToArgv_eq_nil_iff (s : List Char) :
    (ToArgv s = [] ↔ ∀ c ∈ s, isspace c = true) ∧ ToArgv [] = [] := by
  refine ⟨?_, by simp [ToArgv, argvInit, ToArgvLoop, argvFinish]⟩
  induction s with
  | nil => simp [ToArgv, argvInit, ToArgvLoop, argvFinish]
  | cons c rest ih =>
    by_cases hsp : isspace c = true
    · have hstep : ToArgv (c :: rest) = ToArgv rest := by
        rw [ToArgv, argvInit, ToArgvLoop_cons_of_ne _ _ _ _ _ _ _ (ne_BACKSLASH_of_isspace hsp)]
        simp [hsp, ne_SQUOTE_of_isspace hsp, ne_DQUOTE_of_isspace hsp, ToArgv, argvInit]
      rw [hstep, ih]
      simp [hsp]
    · have hne : ToArgv (c :: rest) ≠ [] := by
        rw [ToArgv, argvInit]
        by_cases hc : c = BACKSLASH
        · subst hc
          cases rest with
          | nil => simp [ToArgvLoop_backslash_nil, argvFinish]
          | cons d rest2 =>
            rw [ToArgvLoop_backslash_cons]
            exact argvFinish_ToArgvLoop_ne_nil _ _ _ _ _ _ (Or.inl rfl)
        · rw [ToArgvLoop_cons_of_ne _ _ _ _ _ _ _ hc]
          simp only [Bool.not_eq_true] at hsp
          split_ifs
          all_goals first
            | exact argvFinish_ToArgvLoop_ne_nil _ _ _ _ _ _ (Or.inl rfl)
            | simp_all
      constructor
      · intro h; exact absurd h hne
      · intro h; exact absurd (h c (List.mem_cons_self _ _)) hsp

/-! ## Adjacent and unterminated quotes, trailing backslash -/

/-- C5: adjacent single-quoted segments are merged into one token: for `u` and `v` without single
quote and backslash, the input `'u''v'` gives the one token `u ++ v`; the input `'it''s' a`
gives `its` and `a`. -/
theorem ToArgv_adjacent_squotes (u v : List Char)
    (hu : ∀ c ∈ u, c ≠ BACKSLASH ∧ c ≠ SQUOTE) (hv : ∀ c ∈ v, c ≠ BACKSLASH ∧ c ≠ SQUOTE) :
    ToArgv (SQUOTE :: u ++ SQUOTE :: SQUOTE :: v ++ [SQUOTE]) = [u ++ v]
      ∧ ToArgv (SQUOTE :: ['i', 't'] ++ SQUOTE :: SQUOTE :: ['s'] ++ SQUOTE :: [' ', 'a'])
          = [['i', 't', 's'], ['a']] := by
  refine ⟨?_, by decide⟩
  simp only [List.cons_append, List.append_assoc]
  rw [ToArgv, argvInit, ToArgvLoop_open_squote, ToArgvLoop_in_squote _ _ _ _ _ hu,
    ToArgvLoop_close_squote, ToArgvLoop_open_squote, ToArgvLoop_in_squote _ _ _ _ _ hv,
    ToArgvLoop_close_squote]
  simp [ToArgvLoop, argvFinish]

/-- Witness for C5: the segments `it` and `s`. -/
theorem ToArgv_adjacent_squotes_witness :
    ToArgv (SQUOTE :: ['i', 't'] ++ SQUOTE :: SQUOTE :: ['s'] ++ [SQUOTE]) = [['i', 't'] ++ ['s']] :=
  (ToArgv_adjacent_squotes ['i', 't'] ['s'] (by decide) (by decide)).1

/-- C6: an unterminated quote is not an error: after an opening double quote a string `w` without
double quote and backslash is the one token `w`, whitespace included, and likewise a string `v`
without single quote and backslash after an opening single quote. -/
theorem ToArgv_unterminated_quote (w v : List Char)
    (hw : ∀ c ∈ w, c ≠ BACKSLASH ∧ c ≠ DQUOTE) (hv : ∀ c ∈ v, c ≠ BACKSLASH ∧ c ≠ SQUOTE) :
    ToArgv (DQUOTE :: w) = [w] ∧ ToArgv (SQUOTE :: v) = [v] := by
  constructor
  · have h := ToArgvLoop_in_dquote w [] [] true [] hw
    rw [List.append_nil] at h
    rw [ToArgv, argvInit, ToArgvLoop_open_dquote, h]
    simp [ToArgvLoop, argvFinish]
  · have h := ToArgvLoop_in_squote v [] [] true [] hv
    rw [List.append_nil] at h
    rw [ToArgv, argvInit, ToArgvLoop_open_squote, h]
    simp [ToArgvLoop, argvFinish]

/-- Witness for C6: the rest `a b ` with its spaces is one token. -/
theorem ToArgv_unterminated_quote_witness :
    ToArgv (DQUOTE :: ['a', ' ', 'b', ' ']) = [['a', ' ', 'b', ' ']]
      ∧ ToArgv (SQUOTE :: ['a', ' ', DQUOTE, ' ']) = [['a', ' ', DQUOTE, ' ']] :=
  ToArgv_unterminated_quote ['a', ' ', 'b', ' '] ['a', ' ', DQUOTE, ' '] (by decide) (by decide)

/-- C7 as stated fails: for the input `a\` the result is the token `a`, not the token `a\`. -/
theorem ToArgv_backslash_at_end_not_literal :
    (∀ x ∈ ['a'], plainChar x) ∧ ToArgv (['a'] ++ [BACKSLASH]) ≠ [['a'] ++ [BACKSLASH]] := by
  decide

/-- C7, amended: a backslash that is the last character of the input is dropped: after a run `w`
of plain characters the result is the one token `w` (the empty token when `w` is empty); nothing
is appended for the backslash and nothing is read behind the end of the input. -/
theorem ToArgv_trailing_backslash (w : List Char) (hw : ∀ x ∈ w, plainChar x) :
    ToArgv (w ++ [BACKSLASH]) = [w] := by
  rw [ToArgv, argvInit, ToArgvLoop_plain _ _ _ _ _ hw, ToArgvLoop_backslash_nil]
  simp [argvFinish]

/-- Witness for the amended C7: the input `ab\`. -/
theorem ToArgv_trailing_backslash_witness :
    ToArgv (['a', 'b'] ++ [BACKSLASH]) = [['a', 'b']] :=
  ToArgv_trailing_backslash ['a', 'b'] (by decide)

/-! ## Whitespace splitting -/

/-- On an input without quotes and backslashes every token of the result is a plain token. -/
theorem ToArgvLoop_plain_tokens (l : List Char)
    (hl : ∀ c ∈ l, c ≠ SQUOTE ∧ c ≠ DQUOTE ∧ c ≠ BACKSLASH) :
    ∀ (argv : List (List Char)) (ia : Bool) (cur : List Char),
      (∀ t ∈ argv, plainToken t) → (ia = true → cur ≠ []) → (∀ c ∈ cur, plainChar c) →
      ∀ t ∈ argvFinish (ToArgvLoop l ⟨argv, false, false, ia, cur⟩), plainToken t := by
  induction l with
  | nil =>
    intro argv ia cur h1 h2 h3 t ht
    by_cases hia : ia = true
    · simp only [ToArgvLoop, argvFinish, hia, if_true, List.mem_append, List.mem_singleton] at ht
      rcases ht with ht | ht
      · exact h1 t ht
      · subst ht; exact ⟨h2 hia, h3⟩
    · simp only [ToArgvLoop, argvFinish, hia] at ht
      exact h1 t ht
  | cons c rest ih =>
    intro argv ia cur h1 h2 h3
    obtain ⟨hc1, hc2, hc3⟩ := hl c (List.mem_cons_self _ _)
    have hrest : ∀ d ∈ rest, d ≠ SQUOTE ∧ d ≠ DQUOTE ∧ d ≠ BACKSLASH :=
      fun d hd => hl d (List.mem_cons_of_mem _ hd)
    rw [ToArgvLoop_cons_of_ne _ _ _ _ _ _ _ hc3]
    simp only [hc1, hc2, false_and, if_false, true_and, Bool.false_eq_true, or_self]
    split_ifs with ha hb
    · refine ih hrest _ _ _ ?_ (by simp) (by simp)
      intro t ht
      rcases List.mem_append.1 ht with ht | ht
      · exact h1 t ht
      · rw [List.mem_singleton] at ht; subst ht; exact ⟨h2 ha.1, h3⟩
    · refine ih hrest _ _ _ h1 (by simp) ?_
      intro d hd
      rcases List.mem_append.1 hd with hd | hd
      · exact h3 d hd
      · rw [List.mem_singleton] at hd; subst hd; exact ⟨hb, hc1, hc2, hc3⟩
    · exact ih hrest _ _ _ h1 h2 h3

/-- Plain tokens joined with single spaces are split into the same tokens again. -/
theorem ToArgv_intercalate_plain (T : List (List Char)) (hT : ∀ t ∈ T, plainToken t) :
    ToArgv (List.intercalate [' '] T) = T := by
  induction T with
  | nil => simp [List.intercalate, ToArgv, argvInit, ToArgvLoop, argvFinish]
  | cons t T ih =>
    obtain ⟨hne, hpl⟩ := hT t (List.mem_cons_self _ _)
    have hT2 : ∀ u ∈ T, plainToken u := fun u hu => hT u (List.mem_cons_of_mem _ hu)
    have hemp : t.isEmpty = false := by
      cases t with
      | nil => exact absurd rfl hne
      | cons _ _ => rfl
    cases T with
    | nil =>
      have h := ToArgvLoop_plain t [] [] false [] hpl
      rw [List.append_nil] at h
      simp [List.intercalate, ToArgv, argvInit, h, hemp, ToArgvLoop, argvFinish]
    | cons t2 T2 =>
      have hj : List.intercalate [' '] (t :: t2 :: T2)
          = t ++ ' ' :: List.intercalate [' '] (t2 :: T2) := by
        simp [List.intercalate, List.intersperse]
      rw [hj, ToArgv, argvInit, ToArgvLoop_plain _ _ _ _ _ hpl]
      simp only [hemp, Bool.not_false, Bool.or_true, List.nil_append]
      rw [ToArgvLoop_space_close _ isspace_space, List.nil_append, argvFinish_after_close,
        ih hT2]

/-- C4: whitespace splitting round trip: for an input without quotes and backslashes, the tokens
of `ToArgv` joined with single spaces are split by `ToArgv` into the same tokens again, so into
the same number of tokens. -/
theorem ToArgv_join_roundtrip (s : List Char)
    (hs : ∀ c ∈ s, c ≠ SQUOTE ∧ c ≠ DQUOTE ∧ c ≠ BACKSLASH) :
    ToArgv (List.intercalate [' '] (ToArgv s)) = ToArgv s
      ∧ (ToArgv (List.intercalate [' '] (ToArgv s))).length = (ToArgv s).length := by
  have h : ToArgv (List.intercalate [' '] (ToArgv s)) = ToArgv s :=
    ToArgv_intercalate_plain _
      (ToArgvLoop_plain_tokens s hs [] false [] (by simp) (by simp) (by simp))
  exact ⟨h, by rw [h]⟩

/-- Witness for C4: the input ` a  bc\t d ` with runs of whitespace. -/
theorem ToArgv_join_roundtrip_witness :
    ToArgv (List.intercalate [' '] (ToArgv [' ', 'a', ' ', ' ', 'b', 'c', '\t', ' ', 'd', ' ']))
        = ToArgv [' ', 'a', ' ', ' ', 'b', 'c', '\t', ' ', 'd', ' ']
      ∧ (ToArgv (List.intercalate [' ']
          (ToArgv [' ', 'a', ' ', ' ', 'b', 'c', '\t', ' ', 'd', ' ']))).length
        = (ToArgv [' ', 'a', ' ', ' ', 'b', 'c', '\t', ' ', 'd', ' ']).length :=
  ToArgv_join_roundtrip [' ', 'a', ' ', ' ', 'b', 'c', '\t', ' ', 'd', ' '] (by decide)

/-! ## The two primitives of `splitCommandLine` -/

/-- A `size_t` decrement of a positive value does not wrap. -/
theorem wsub_one {n : Nat} (h1 : 1 ≤ n) (h2 : n < 2 ^ 64) : wsub n 1 = n - 1 := by
  unfold wsub; omega

/-- A `size_t` difference of ordered values does not wrap. -/
theorem wsub_of_le {a b : Nat} (h1 : b ≤ a) (h2 : a < 2 ^ 64) : wsub a b = a - b := by
  unfold wsub; omega

theorem skipSpaces_ge (l : List Char) : ∀ pos, pos ≤ skipSpaces l pos := by
  induction l with
  | nil => intro pos; simp [skipSpaces]
  | cons c rest ih =>
    intro pos
    simp only [skipSpaces]
    split_ifs
    · exact Nat.le_trans (Nat.le_succ pos) (ih (pos + 1))
    · exact Nat.le_refl pos

theorem skipSpaces_le (l : List Char) : ∀ pos, skipSpaces l pos ≤ pos + l.length := by
  induction l with
  | nil => intro pos; simp [skipSpaces]
  | cons c rest ih =>
    intro pos
    simp only [skipSpaces, List.length_cons]
    split_ifs
    · have := ih (pos + 1); omega
    · omega

/-- Where the loop of `GetStartOfNextArgument` stops before the end, a character that is not
whitespace stands. -/
theorem skipSpaces_drop (l : List Char) : ∀ pos, skipSpaces l pos < pos + l.length →
    ∃ c rest, l.drop (skipSpaces l pos - pos) = c :: rest ∧ isspace c = false := by
  induction l with
  | nil => intro pos h; simp [skipSpaces] at h
  | cons c rest ih =>
    intro pos h
    simp only [skipSpaces, List.length_cons] at h ⊢
    split_ifs at h ⊢ with hc
    · obtain ⟨d, r, hd, hsp⟩ := ih (pos + 1) (by omega)
      have hge := skipSpaces_ge rest (pos + 1)
      have e : skipSpaces rest (pos + 1) - pos = (skipSpaces rest (pos + 1) - (pos + 1)) + 1 := by
        omega
      exact ⟨d, r, by rw [e, List.drop_succ_cons]; exact hd, hsp⟩
    · exact ⟨c, rest, by simp, by simpa using hc⟩

/-- A result of `GetStartOfNextArgument` other than `npos` is the position, at or behind
`start_at` and inside the string, of a character that is not whitespace. -/
theorem GetStartOfNextArgument_spec (s : List Char) (start_at : Nat) (h : start_at ≤ s.length)
    (hne : GetStartOfNextArgument s start_at ≠ npos) :
    start_at ≤ GetStartOfNextArgument s start_at ∧ GetStartOfNextArgument s start_at < s.length
      ∧ ∃ c rest, s.drop (GetStartOfNextArgument s start_at) = c :: rest ∧ isspace c = false := by
  have hge := skipSpaces_ge (s.drop start_at) start_at
  have hle := skipSpaces_le (s.drop start_at) start_at
  rw [List.length_drop] at hle
  unfold GetStartOfNextArgument at hne ⊢
  simp only at hne ⊢
  split_ifs at hne ⊢ with hp
  · exact absurd rfl hne
  · refine ⟨hge, by omega, ?_⟩
    obtain ⟨c, rest, hd, hsp⟩ := skipSpaces_drop (s.drop start_at) start_at
      (by rw [List.length_drop]; omega)
    refine ⟨c, rest, ?_, hsp⟩
    rw [List.drop_drop] at hd
    rw [← hd]
    congr 1
    omega

/-- One iteration of the loop of `GetEndOfNextArgument` at a character other than the
backslash. -/
theorem endLoop_cons_of_ne (c : Char) (rest : List Char) (pos : Nat) (dq sq : Bool)
    (hc : c ≠ BACKSLASH) :
    endLoop (c :: rest) pos dq sq =
      if c = ' ' ∧ dq = false ∧ sq = false then wsub pos 1
      else if c = DQUOTE then endLoop rest (pos + 1) (if sq = false then !dq else dq) sq
      else if c = SQUOTE then endLoop rest (pos + 1) dq (if dq = false then !sq else sq)
      else endLoop rest (pos + 1) dq sq := by
  cases rest <;> simp [endLoop, hc]

theorem endLoop_backslash_cons (d : Char) (rest : List Char) (pos : Nat) (dq sq : Bool) :
    endLoop (BACKSLASH :: d :: rest) pos dq sq = endLoop rest (pos + 2) dq sq := by
  simp [endLoop]

theorem endLoop_backslash_nil (pos : Nat) (dq sq : Bool) :
    endLoop [BACKSLASH] pos dq sq = pos + 2 := by
  simp [endLoop]

/-- The loop of `GetEndOfNextArgument`, entered at a positive position, is left at most one
position further left and at most one position behind the end of the string. -/
theorem endLoop_bounds (l : List Char) :
    ∀ (pos : Nat) (dq sq : Bool), 1 ≤ pos → pos + l.length < 2 ^ 64 →
      pos ≤ endLoop l pos dq sq + 1 ∧ endLoop l pos dq sq ≤ pos + l.length + 1 := by
  induction l using length_induction with
  | _ l ih =>
    intro pos dq sq h1 h2
    cases l with
    | nil => simp [endLoop]
    | cons c rest =>
      simp only [List.length_cons] at h2 ⊢
      by_cases hc : c = BACKSLASH
      · subst hc
        cases rest with
        | nil => rw [endLoop_backslash_nil]; simp only [List.length_nil]; omega
        | cons d rest2 =>
          rw [endLoop_backslash_cons]
          simp only [List.length_cons] at h2 ⊢
          have := ih rest2 (by simp; omega) (pos + 2) dq sq (by omega) (by omega)
          omega
      · rw [endLoop_cons_of_ne _ _ _ _ _ hc]
        have hr : rest.length < (c :: rest).length := by simp
        have key : ∀ dq2 sq2, pos ≤ endLoop rest (pos + 1) dq2 sq2 + 1
            ∧ endLoop rest (pos + 1) dq2 sq2 ≤ pos + (rest.length + 1) + 1 := by
          intro dq2 sq2
          have := ih rest hr (pos + 1) dq2 sq2 (by omega) (by omega)
          omega
        split_ifs
        · rw [wsub_one h1 (by omega)]; omega
        all_goals exact key _ _

/-- The end that `GetEndOfNextArgument` returns for an argument that starts inside the string at
a character other than the space lies between that start and the last index of the string. -/
theorem GetEndOfNextArgument_bounds (s : List Char) (a : Nat) (hlen : s.length < 2 ^ 64)
    (c : Char) (rest : List Char) (hd : s.drop a = c :: rest) (hc : c ≠ ' ') :
    a ≤ GetEndOfNextArgument s a ∧ GetEndOfNextArgument s a < s.length := by
  have ha : a < s.length := by
    by_contra hcon
    rw [List.drop_of_length_le (by omega)] at hd
    exact absurd hd (by simp)
  have hrl : a + (rest.length + 1) = s.length := by
    have := congrArg List.length hd
    rw [List.length_drop, List.length_cons] at this
    omega
  have hraw : a ≤ endLoop (c :: rest) a false false
      ∧ endLoop (c :: rest) a false false ≤ s.length + 1 := by
    by_cases hb : c = BACKSLASH
    · subst hb
      cases rest with
      | nil => rw [endLoop_backslash_nil]; simp at hrl; omega
      | cons d rest2 =>
        rw [endLoop_backslash_cons]
        simp only [List.length_cons] at hrl
        have := endLoop_bounds rest2 (a + 2) false false (by omega) (by omega)
        omega
    · rw [endLoop_cons_of_ne _ _ _ _ _ hb]
      simp only [hc, false_and, if_false]
      have key : ∀ dq2 sq2, a ≤ endLoop rest (a + 1) dq2 sq2
          ∧ endLoop rest (a + 1) dq2 sq2 ≤ s.length + 1 := by
        intro dq2 sq2
        have := endLoop_bounds rest (a + 1) dq2 sq2 (by omega) (by omega)
        omega
      split_ifs
      all_goals exact key _ _
  unfold GetEndOfNextArgument
  simp only [hd]
  rw [wsub_one (by omega) hlen]
  split_ifs <;> omega

/-! ## The loop of `splitCommandLine` -/

theorem substr_of_le (s : List Char) (pos len : Nat) (h : pos ≤ s.length) :
    substr s pos len = some ((s.drop pos).take len) := by
  unfold substr; rw [if_neg (by omega)]

theorem substrFrom_of_le (s : List Char) (pos : Nat) (h : pos ≤ s.length) :
    substrFrom s pos = some (s.drop pos) := by
  unfold substrFrom; rw [if_neg (by omega)]

/-- Behind the last admitted iteration the loop of a bounded split is left at once. -/
theorem splitLoop_counter_end (s : List Char) (max fuel i nps : Nat) (hmax : max ≠ 0)
    (hi : max ≤ i) : splitLoop s max (fuel + 1) i nps = some [] := by
  rw [splitLoop, if_neg (by omega)]

/-- An iteration that finds an argument: the start is inside the string, the end is not before
the start and inside the string. -/
theorem splitLoop_argument_bounds (s : List Char) (nps : Nat) (hlen : s.length < 2 ^ 64)
    (hnps : nps ≤ s.length) (hne : GetStartOfNextArgument s nps ≠ npos) :
    nps ≤ GetStartOfNextArgument s nps
      ∧ GetStartOfNextArgument s nps ≤ GetEndOfNextArgument s (GetStartOfNextArgument s nps)
      ∧ GetEndOfNextArgument s (GetStartOfNextArgument s nps) < s.length := by
  obtain ⟨h1, _, c, rest, hd, hsp⟩ := GetStartOfNextArgument_spec s nps hnps hne
  have hc : c ≠ ' ' := by
    rintro rfl; simp [isspace_space] at hsp
  have := GetEndOfNextArgument_bounds s _ hlen c rest hd hc
  exact ⟨h1, this.1, this.2⟩

/-- One iteration of the loop of `splitCommandLine`. -/
theorem splitLoop_succ (s : List Char) (max fuel i nps : Nat) :
    splitLoop s max (fuel + 1) i nps =
      if max = 0 ∨ i < max then
        if nps > wsub s.length 1 then some []
        else if GetStartOfNextArgument s nps ≠ npos then
          if GetEndOfNextArgument s (GetStartOfNextArgument s nps) ≠ npos then
            if max = 0 ∨ i ≠ max - 1 then
              (substr s (GetStartOfNextArgument s nps)
                ((wsub (GetEndOfNextArgument s (GetStartOfNextArgument s nps))
                  (GetStartOfNextArgument s nps) + 1) % 2 ^ 64)).bind
                (fun arg => (splitLoop s max fuel (i + 1)
                  (GetEndOfNextArgument s (GetStartOfNextArgument s nps) + 1)).map
                    (fun l => (GetStartOfNextArgument s nps, arg) :: l))
            else
              (substrFrom s (GetStartOfNextArgument s nps)).bind
                (fun arg => (splitLoop s max fuel (i + 1) nps).map
                  (fun l => (GetStartOfNextArgument s nps, arg) :: l))
          else some []
        else some []
      else some [] := by
  rw [splitLoop]
  dsimp only
  split_ifs
  all_goals first
    | rfl
    | (split <;> simp_all)

/-- The loop of `splitCommandLine` returns: with `next_part_start` inside the string, a bound of
the length of the string plus two minus `next_part_start` on the iterations is not used up, and
no `substr` call throws. -/
theorem splitLoop_total (s : List Char) (max : Nat) (hlen : s.length < 2 ^ 64) :
    ∀ (fuel i nps : Nat), nps ≤ s.length → s.length + 2 ≤ fuel + nps →
      ∃ l, splitLoop s max fuel i nps = some l := by
  intro fuel
  induction fuel with
  | zero => intro i nps h1 h2; omega
  | succ fuel ih =>
    intro i nps h1 h2
    rw [splitLoop_succ]
    split_ifs with hg hout hne hend hpush
    · exact ⟨_, rfl⟩
    · obtain ⟨hb1, hb2, hb3⟩ := splitLoop_argument_bounds s nps hlen h1 hne
      rw [substr_of_le _ _ _ (by omega)]
      obtain ⟨l, hl⟩ := ih (i + 1) (GetEndOfNextArgument s (GetStartOfNextArgument s nps) + 1)
        (by omega) (by omega)
      exact ⟨_, by rw [hl]; rfl⟩
    · obtain ⟨hb1, hb2, hb3⟩ := splitLoop_argument_bounds s nps hlen h1 hne
      rw [substrFrom_of_le _ _ (by omega)]
      obtain ⟨f, rfl⟩ : ∃ f, fuel = f + 1 := ⟨fuel - 1, by omega⟩
      rw [splitLoop_counter_end s max f (i + 1) nps (by omega) (by omega)]
      exact ⟨_, rfl⟩
    · exact ⟨_, rfl⟩
    · exact ⟨_, rfl⟩
    · exact ⟨_, rfl⟩

/-- The run of `splitCommandLine` returns a list of arguments for every string and every
maximum. -/
theorem splitSpans_total (s : List Char) (max : Nat) (hlen : s.length < 2 ^ 64) :
    ∃ l, splitSpans s max = some l :=
  splitLoop_total s max hlen _ 0 0 (Nat.zero_le _) (by omega)

theorem le_length_of_substr {s : List Char} {pos len : Nat} {arg : List Char}
    (h : substr s pos len = some arg) : pos ≤ s.length ∧ arg = (s.drop pos).take len := by
  unfold substr at h
  split_ifs at h with hp
  exact ⟨by omega, by simpa using h.symm⟩

/-- What one iteration of the unbounded loop returns: nothing, or one argument cut at a start
inside the string, followed by the arguments of the loop continued behind its end. -/
theorem splitLoop_unbounded_cases (s : List Char) (fuel i nps : Nat) (lu : List (Nat × List Char))
    (h : splitLoop s 0 (fuel + 1) i nps = some lu) :
    (lu = [] ∧ ∀ max, splitLoop s max (fuel + 1) i nps = some []) ∨
    ∃ arg lu2, lu = (GetStartOfNextArgument s nps, arg) :: lu2
      ∧ ¬ nps > wsub s.length 1
      ∧ GetStartOfNextArgument s nps ≠ npos
      ∧ GetEndOfNextArgument s (GetStartOfNextArgument s nps) ≠ npos
      ∧ substr s (GetStartOfNextArgument s nps)
          ((wsub (GetEndOfNextArgument s (GetStartOfNextArgument s nps))
            (GetStartOfNextArgument s nps) + 1) % 2 ^ 64) = some arg
      ∧ splitLoop s 0 fuel (i + 1)
          (GetEndOfNextArgument s (GetStartOfNextArgument s nps) + 1) = some lu2 := by
  rw [splitLoop_succ, if_pos (Or.inl rfl)] at h
  by_cases hout : nps > wsub s.length 1
  · rw [if_pos hout] at h
    left
    refine ⟨by simpa using h.symm, fun max => ?_⟩
    rw [splitLoop_succ, if_pos hout]; simp
  rw [if_neg hout] at h
  by_cases hne : GetStartOfNextArgument s nps ≠ npos
  swap
  · rw [if_neg hne] at h
    left
    refine ⟨by simpa using h.symm, fun max => ?_⟩
    rw [splitLoop_succ, if_neg hout, if_neg hne]; simp
  rw [if_pos hne] at h
  by_cases hend : GetEndOfNextArgument s (GetStartOfNextArgument s nps) ≠ npos
  swap
  · rw [if_neg hend] at h
    left
    refine ⟨by simpa using h.symm, fun max => ?_⟩
    rw [splitLoop_succ, if_neg hout, if_pos hne, if_neg hend]; simp
  rw [if_pos hend, if_pos (Or.inl rfl)] at h
  right
  cases hsub : substr s (GetStartOfNextArgument s nps)
      ((wsub (GetEndOfNextArgument s (GetStartOfNextArgument s nps))
        (GetStartOfNextArgument s nps) + 1) % 2 ^ 64) with
  | none => rw [hsub] at h; simp at h
  | some arg =>
    rw [hsub] at h
    cases hrec : splitLoop s 0 fuel (i + 1)
        (GetEndOfNextArgument s (GetStartOfNextArgument s nps) + 1) with
    | none => rw [hrec] at h; simp at h
    | some lu2 =>
      rw [hrec] at h
      simp only [Option.some_bind, Option.map_some', Option.some.injEq] at h
      exact ⟨arg, lu2, h.symm, hout, hne, hend, rfl, rfl⟩

/-- While fewer arguments remain than the counter admits, the bounded loop returns the arguments
of the unbounded loop. -/
theorem splitLoop_short (s : List Char) (max : Nat) :
    ∀ (fuel i nps : Nat) (lu : List (Nat × List Char)),
      splitLoop s 0 fuel i nps = some lu → i + lu.length < max →
      splitLoop s max fuel i nps = some lu := by
  intro fuel
  induction fuel with
  | zero => intro i nps lu h; simp [splitLoop] at h
  | succ fuel ih =>
    intro i nps lu h hlt
    rcases splitLoop_unbounded_cases s fuel i nps lu h with ⟨rfl, hnil⟩ | ⟨arg, lu2, rfl, hout, hne, hend, hsub, hrec⟩
    · exact hnil max
    · simp only [List.length_cons] at hlt
      rw [splitLoop_succ, if_pos (Or.inr (by omega)), if_neg hout, if_pos hne, if_pos hend,
        if_pos (Or.inr (by omega)), hsub, ih _ _ _ hrec (by omega)]
      rfl

/-- When at least as many arguments remain as the counter admits, the bounded loop returns the
arguments of the unbounded loop up to the last admitted one, and in its place the rest of the
string from the start of that argument on. -/
theorem splitLoop_remainder (s : List Char) (max : Nat) :
    ∀ (fuel i nps : Nat) (lu : List (Nat × List Char)),
      splitLoop s 0 fuel i nps = some lu → i < max → max ≤ i + lu.length →
      ∃ a tok, lu[max - 1 - i]? = some (a, tok)
        ∧ splitLoop s max fuel i nps = some (lu.take (max - 1 - i) ++ [(a, s.drop a)]) := by
  intro fuel
  induction fuel with
  | zero => intro i nps lu h; simp [splitLoop] at h
  | succ fuel ih =>
    intro i nps lu h hi hge
    rcases splitLoop_unbounded_cases s fuel i nps lu h with ⟨rfl, _⟩ | ⟨arg, lu2, rfl, hout, hne, hend, hsub, hrec⟩
    · simp at hge; omega
    · simp only [List.length_cons] at hge
      by_cases hlast : i + 1 = max
      · have h0 : max - 1 - i = 0 := by omega
        refine ⟨GetStartOfNextArgument s nps, arg, by rw [h0]; simp, ?_⟩
        obtain ⟨f, rfl⟩ : ∃ f, fuel = f + 1 := by
          cases fuel with
          | zero => simp [splitLoop] at hrec
          | succ f => exact ⟨f, rfl⟩
        rw [splitLoop_succ, if_pos (Or.inr hi), if_neg hout, if_pos hne, if_pos hend,
          if_neg (by omega), substrFrom_of_le _ _ (le_length_of_substr hsub).1,
          splitLoop_counter_end s max f (i + 1) nps (by omega) (by omega), h0]
        rfl
      · obtain ⟨a, tok, hget, hB⟩ := ih (i + 1) _ lu2 hrec (by omega) (by omega)
        have hk : max - 1 - i = (max - 1 - (i + 1)) + 1 := by omega
        refine ⟨a, tok, by rw [hk, List.getElem?_cons_succ]; exact hget, ?_⟩
        rw [splitLoop_succ, if_pos (Or.inr hi), if_neg hout, if_pos hne, if_pos hend,
          if_pos (Or.inr (by omega)), hsub, hB, hk]
        rfl

/-- Every argument of the unbounded loop stands in the string at the start recorded with it. -/
theorem splitLoop_prefix (s : List Char) :
    ∀ (fuel i nps : Nat) (lu : List (Nat × List Char)),
      splitLoop s 0 fuel i nps = some lu → ∀ p ∈ lu, p.2 <+: s.drop p.1 := by
  intro fuel
  induction fuel with
  | zero => intro i nps lu h; simp [splitLoop] at h
  | succ fuel ih =>
    intro i nps lu h p hp
    rcases splitLoop_unbounded_cases s fuel i nps lu h with ⟨rfl, _⟩ | ⟨arg, lu2, rfl, hout, hne, hend, hsub, hrec⟩
    · simp at hp
    · rcases List.mem_cons.1 hp with rfl | hp
      · rw [(le_length_of_substr hsub).2]
        exact List.take_prefix _ _
      · exact ih _ _ _ hrec p hp

/-! ## The bounded and the unbounded `splitCommandLine` -/

/-- C8: remainder folding. For a string shorter than `2 ^ 64` and a maximum `max ≥ 1`, the
unbounded split returns its arguments, each recorded with its start position; when these are at
least `max`, the bounded split returns exactly `max` arguments, the first `max - 1` of them are
the first `max - 1` arguments of the unbounded split, and the last one is the rest of the string
from the start position of the `max`-th argument of the unbounded split up to the very end, as
it stands in the string. -/
theorem splitCommandLine_remainder (s : List Char) (max : Nat) (hlen : s.length < 2 ^ 64)
    (hmax : 1 ≤ max) :
    ∃ sp0, splitSpans s 0 = some sp0 ∧ splitCommandLine s 0 = some (sp0.map Prod.snd)
      ∧ (max ≤ sp0.length →
          ∃ l a tok, splitCommandLine s max = some l ∧ l.length = max
            ∧ l.take (max - 1) = (sp0.map Prod.snd).take (max - 1)
            ∧ sp0[max - 1]? = some (a, tok) ∧ tok <+: s.drop a
            ∧ l[max - 1]? = some (s.drop a)) := by
  obtain ⟨sp0, h0⟩ := splitSpans_total s 0 hlen
  refine ⟨sp0, h0, by rw [splitCommandLine, h0]; rfl, fun hge => ?_⟩
  obtain ⟨a, tok, hget, hB⟩ := splitLoop_remainder s max _ 0 0 sp0 h0 (by omega) (by omega)
  rw [Nat.sub_zero] at hget hB
  have hlt : (sp0.take (max - 1)).length = max - 1 := by
    rw [List.length_take]; omega
  refine ⟨(sp0.take (max - 1)).map Prod.snd ++ [s.drop a], a, tok, ?_, ?_, ?_, hget, ?_, ?_⟩
  · rw [splitCommandLine, splitSpans, hB]; simp
  · simp only [List.length_append, List.length_map, hlt, List.length_singleton]; omega
  · rw [List.take_append_of_le_length (by rw [List.length_map, hlt]), List.map_take,
      List.take_take, Nat.min_self]
  · exact splitLoop_prefix s _ 0 0 sp0 h0 (a, tok) (List.getElem?_mem hget)
  · rw [List.getElem?_append_right (by rw [List.length_map, hlt]), List.length_map, hlt,
      Nat.sub_self]
    rfl

/-- Witness for C8: the input `a b c d` with a maximum of two gives `a`
and `b c d`, the rest from position 2 on. -/
theorem splitCommandLine_remainder_witness :
    splitCommandLine ['a', ' ', 'b', ' ', 'c', ' ', 'd'] 2
        = some [['a'], ['b', ' ', 'c', ' ', 'd']]
      ∧ ∃ l a tok, splitCommandLine ['a', ' ', 'b', ' ', 'c', ' ', 'd'] 2 = some l ∧ l.length = 2
          ∧ l.take (2 - 1) = ([['a'], ['b'], ['c'], ['d']] : List (List Char)).take (2 - 1)
          ∧ a = 2 ∧ tok = ['b']
          ∧ l[2 - 1]? = some (List.drop a ['a', ' ', 'b', ' ', 'c', ' ', 'd']) := by
  refine ⟨by decide, ?_⟩
  obtain ⟨sp0, h0, _, h⟩ :=
    splitCommandLine_remainder ['a', ' ', 'b', ' ', 'c', ' ', 'd'] 2 (by decide) (by decide)
  have e : splitSpans ['a', ' ', 'b', ' ', 'c', ' ', 'd'] 0
      = some [(0, ['a']), (2, ['b']), (4, ['c']), (6, ['d'])] := by decide
  rw [e] at h0
  cases h0
  obtain ⟨l, a, tok, h1, h2, h3, h4, _, h6⟩ := h (by decide)
  have h7 : (2, ['b']) = (a, tok) := by simpa using h4
  cases h7
  exact ⟨l, 2, ['b'], h1, h2, h3, rfl, rfl, h6⟩

/-- C9: token count. For a string shorter than `2 ^ 64` and a maximum `max ≥ 1`, both the
bounded and the unbounded split (maximum 0) return, and the bounded split has as many arguments
as the smaller of `max` and the number of arguments of the unbounded split. -/
theorem splitCommandLine_length (s : List Char) (max : Nat) (hlen : s.length < 2 ^ 64)
    (hmax : 1 ≤ max) :
    ∃ l l0, splitCommandLine s max = some l ∧ splitCommandLine s 0 = some l0
      ∧ l.length = min max l0.length := by
  obtain ⟨sp0, h0⟩ := splitSpans_total s 0 hlen
  have hU : splitCommandLine s 0 = some (sp0.map Prod.snd) := by
    rw [splitCommandLine, h0]; rfl
  by_cases hge : max ≤ sp0.length
  · obtain ⟨a, tok, _, hB⟩ := splitLoop_remainder s max _ 0 0 sp0 h0 (by omega) (by omega)
    refine ⟨_, _, by rw [splitCommandLine, splitSpans, hB]; rfl, hU, ?_⟩
    simp only [Nat.sub_zero, List.map_append, List.length_append, List.length_map,
      List.length_take, List.map_cons, List.map_nil, List.length_singleton]
    omega
  · have hB := splitLoop_short s max _ 0 0 sp0 h0 (by omega)
    refine ⟨_, _, by rw [splitCommandLine, splitSpans, hB]; rfl, hU, ?_⟩
    simp only [List.length_map]
    omega

/-- Witness for C9: the input `a b c d` with a maximum of two. -/
theorem splitCommandLine_length_witness :
    ∃ l l0, splitCommandLine ['a', ' ', 'b', ' ', 'c', ' ', 'd'] 2 = some l
      ∧ splitCommandLine ['a', ' ', 'b', ' ', 'c', ' ', 'd'] 0 = some l0
      ∧ l.length = min 2 l0.length :=
  splitCommandLine_length ['a', ' ', 'b', ' ', 'c', ' ', 'd'] 2 (by decide) (by decide)

/-- C10: for a string shorter than `2 ^ 64` and every maximum `max`, so every `max ≥ 1`, the
unbounded split returns, and when it has fewer than `max` arguments the bounded split returns the
same list: the bound has no effect. -/
theorem splitCommandLine_short (s : List Char) (max : Nat) (hlen : s.length < 2 ^ 64) :
    ∃ l0, splitCommandLine s 0 = some l0
      ∧ (l0.length < max → splitCommandLine s max = some l0) := by
  obtain ⟨sp0, h0⟩ := splitSpans_total s 0 hlen
  refine ⟨sp0.map Prod.snd, by rw [splitCommandLine, h0]; rfl, fun hlt => ?_⟩
  rw [List.length_map] at hlt
  have hB := splitLoop_short s max _ 0 0 sp0 h0 (by omega)
  rw [splitCommandLine, splitSpans, hB]; rfl

/-- Witness for C10: the input `a b` has two arguments, fewer than five. -/
theorem splitCommandLine_short_witness :
    splitCommandLine ['a', ' ', 'b'] 0 = some [['a'], ['b']]
      ∧ ([['a'], ['b']] : List (List Char)).length < 5
      ∧ splitCommandLine ['a', ' ', 'b'] 5 = some [['a'], ['b']] := by
  obtain ⟨l0, h0, h⟩ := splitCommandLine_short ['a', ' ', 'b'] 5 (by decide)
  have e : splitCommandLine ['a', ' ', 'b'] 0 = some [['a'], ['b']] := by decide
  rw [e] at h0
  cases h0
  exact ⟨e, by decide, h (by decide)⟩

/-! ## The start of the next argument -/

/-- The loop of `GetStartOfNextArgument` passes whitespace only. -/
theorem skipSpaces_take (l : List Char) :
    ∀ pos, ∀ c ∈ l.take (skipSpaces l pos - pos), isspace c = true := by
  induction l with
  | nil => intro pos c hc; simp at hc
  | cons d rest ih =>
    intro pos c hc
    simp only [skipSpaces] at hc
    split_ifs at hc with hd
    · have hge := skipSpaces_ge rest (pos + 1)
      have e : skipSpaces rest (pos + 1) - pos = (skipSpaces rest (pos + 1) - (pos + 1)) + 1 := by
        omega
      rw [e, List.take_succ_cons] at hc
      rcases List.mem_cons.1 hc with rfl | hc
      · exact hd
      · exact ih (pos + 1) c hc
    · simp at hc

/-- The loop of `GetStartOfNextArgument` reaches the end exactly on whitespace only. -/
theorem skipSpaces_eq_end_iff (l : List Char) :
    ∀ pos, skipSpaces l pos = pos + l.length ↔ ∀ c ∈ l, isspace c = true := by
  induction l with
  | nil => intro pos; simp [skipSpaces]
  | cons d rest ih =>
    intro pos
    simp only [skipSpaces, List.length_cons, List.mem_cons, forall_eq_or_imp]
    split_ifs with hd
    · rw [← ih (pos + 1)]
      constructor
      · intro h; exact ⟨hd, by omega⟩
      · intro h; omega
    · constructor
      · intro h; omega
      · intro h; exact absurd h.1 hd

theorem getElem?_of_drop_eq_cons {s : List Char} {p : Nat} {c : Char} {rest : List Char}
    (h : s.drop p = c :: rest) : s[p]? = some c := by
  have h2 : (s.drop p)[0]? = some c := by rw [h]; simp
  rw [List.getElem?_drop] at h2
  simpa using h2

/-- The result of `GetStartOfNextArgument` is `npos` exactly when only whitespace is left. -/
theorem GetStartOfNextArgument_eq_npos_iff (s : List Char) (start_at : Nat)
    (hlen : s.length < 2 ^ 64) (hstart : start_at ≤ s.length) :
    GetStartOfNextArgument s start_at = npos ↔ ∀ c ∈ s.drop start_at, isspace c = true := by
  have hle := skipSpaces_le (s.drop start_at) start_at
  have hiff := skipSpaces_eq_end_iff (s.drop start_at) start_at
  rw [List.length_drop] at hle hiff
  have hsum : start_at + (s.length - start_at) = s.length := by omega
  rw [hsum] at hiff
  unfold GetStartOfNextArgument
  simp only
  split_ifs with hp
  · exact ⟨fun _ => hiff.1 hp, fun _ => rfl⟩
  · constructor
    · intro h; unfold npos at h; omega
    · intro h; exact absurd (hiff.2 h) hp

/-- A result of `GetStartOfNextArgument` other than `npos` is where its loop stopped. -/
theorem GetStartOfNextArgument_eq_skipSpaces (s : List Char) (start_at : Nat)
    (hne : GetStartOfNextArgument s start_at ≠ npos) :
    GetStartOfNextArgument s start_at = skipSpaces (s.drop start_at) start_at := by
  unfold GetStartOfNextArgument at hne ⊢
  simp only at hne ⊢
  split_ifs at hne ⊢ with hp
  · exact absurd rfl hne
  · rfl

/-- C13: for a string shorter than `2 ^ 64` and a start inside it or at its end,
`GetStartOfNextArgument` returns `npos` exactly when every character from the start on is
whitespace; any other result is the least index at or behind the start whose character is not
whitespace: it lies inside the string, its character is not whitespace, and every character
between the start and it is whitespace. -/
theorem GetStartOfNextArgument_least (s : List Char) (start_at : Nat) (hlen : s.length < 2 ^ 64)
    (hstart : start_at ≤ s.length) :
    (GetStartOfNextArgument s start_at = npos ↔ ∀ c ∈ s.drop start_at, isspace c = true)
      ∧ (GetStartOfNextArgument s start_at ≠ npos →
          start_at ≤ GetStartOfNextArgument s start_at
            ∧ GetStartOfNextArgument s start_at < s.length
            ∧ (∃ c, s[GetStartOfNextArgument s start_at]? = some c ∧ isspace c = false)
            ∧ ∀ j, start_at ≤ j → j < GetStartOfNextArgument s start_at →
                ∃ c, s[j]? = some c ∧ isspace c = true) := by
  have htake := skipSpaces_take (s.drop start_at) start_at
  refine ⟨GetStartOfNextArgument_eq_npos_iff s start_at hlen hstart, ?_⟩
  · intro hne
    obtain ⟨h1, h2, c, rest, hd, hsp⟩ := GetStartOfNextArgument_spec s start_at hstart hne
    refine ⟨h1, h2, ⟨c, getElem?_of_drop_eq_cons hd, hsp⟩, ?_⟩
    intro j hj1 hj2
    rw [GetStartOfNextArgument_eq_skipSpaces s start_at hne] at hj2 h2
    have hjl : j < s.length := by omega
    refine ⟨s[j], List.getElem?_eq_getElem hjl, ?_⟩
    apply htake
    rw [List.mem_iff_getElem?]
    refine ⟨j - start_at, ?_⟩
    rw [List.getElem?_take_of_lt (by omega), List.getElem?_drop]
    rw [show start_at + (j - start_at) = j by omega]
    exact List.getElem?_eq_getElem hjl

/-- Witness for C13: in ` \t ab` the next argument from position 1 on starts at position 3. -/
theorem GetStartOfNextArgument_least_witness :
    GetStartOfNextArgument [' ', '\t', ' ', 'a', 'b'] 1 = 3
      ∧ (GetStartOfNextArgument [' ', '\t', ' ', 'a', 'b'] 1 = npos
          ↔ ∀ c ∈ List.drop 1 [' ', '\t', ' ', 'a', 'b'], isspace c = true) := by
  exact ⟨by decide,
    (GetStartOfNextArgument_least [' ', '\t', ' ', 'a', 'b'] 1 (by decide) (by decide)).1⟩

/-! ## The end of the next argument -/

/-- C14, the code at the input `a`, tab, `b`: the tab at index 1 is whitespace, but the argument
that starts at index 0 ends at index 2, the last index, not at index 0 before the tab. -/
theorem GetEndOfNextArgument_passes_tab :
    isspace '\t' = true ∧ isspace 'a' = false
      ∧ GetEndOfNextArgument ['a', '\t', 'b'] 0 = 2
      ∧ GetEndOfNextArgument ['a', ' ', 'b'] 0 = 0 := by
  decide

/-! ## A bounded split with a maximum of one -/

/-- Behind the whitespace that the loop of `GetStartOfNextArgument` passes, the string without
its leading whitespace is left. -/
theorem drop_skipSpaces (l : List Char) :
    ∀ pos, l.drop (skipSpaces l pos - pos) = l.dropWhile (fun c => isspace c) := by
  induction l with
  | nil => intro pos; simp
  | cons d rest ih =>
    intro pos
    simp only [skipSpaces]
    by_cases hd : isspace d = true
    · have hge := skipSpaces_ge rest (pos + 1)
      have e : skipSpaces rest (pos + 1) - pos = (skipSpaces rest (pos + 1) - (pos + 1)) + 1 := by
        omega
      rw [if_pos hd, e, List.drop_succ_cons, ih (pos + 1), List.dropWhile_cons_of_pos hd]
    · rw [if_neg hd, Nat.sub_self, List.drop_zero, List.dropWhile_cons_of_neg hd]

/-- C11 as stated fails: for the empty string and for a string of one space, a bounded split
with a maximum of one returns no argument. -/
theorem splitCommandLine_blank_gives_nothing :
    splitCommandLine [] 1 = some [] ∧ splitCommandLine [' '] 1 = some [] := by
  decide

/-- C11, amended: for a string shorter than `2 ^ 64`, a bounded split with a maximum of one
returns no argument when the string is empty or whitespace only, and otherwise exactly one
argument, the string without its leading whitespace, whatever quotes and backslashes it holds. -/
theorem splitCommandLine_one (s : List Char) (hlen : s.length < 2 ^ 64) :
    splitCommandLine s 1
      = some (if ∀ c ∈ s, isspace c = true then [] else [s.dropWhile (fun c => isspace c)]) := by
  have hiff := GetStartOfNextArgument_eq_npos_iff s 0 hlen (Nat.zero_le _)
  rw [List.drop_zero] at hiff
  rw [splitCommandLine, splitSpans, splitLoop_succ, if_pos (Or.inr Nat.zero_lt_one)]
  by_cases hall : ∀ c ∈ s, isspace c = true
  · rw [if_pos hall]
    by_cases hout : 0 > wsub s.length 1
    · rw [if_pos hout]; rfl
    · rw [if_neg hout, if_neg (fun hn => hn (hiff.2 hall))]; rfl
  · rw [if_neg hall]
    have hne : GetStartOfNextArgument s 0 ≠ npos := fun h => hall (hiff.1 h)
    obtain ⟨_, hb2, hb3⟩ := splitLoop_argument_bounds s 0 hlen (Nat.zero_le _) hne
    have hpos : 1 ≤ s.length := by omega
    have hend : GetEndOfNextArgument s (GetStartOfNextArgument s 0) ≠ npos := by
      unfold npos; omega
    have hdrop : s.drop (GetStartOfNextArgument s 0) = s.dropWhile (fun c => isspace c) := by
      rw [GetStartOfNextArgument_eq_skipSpaces s 0 hne, List.drop_zero]
      have := drop_skipSpaces s 0
      rwa [Nat.sub_zero] at this
    rw [if_neg (by rw [wsub_one hpos hlen]; omega), if_pos hne, if_pos hend, if_neg (by omega),
      substrFrom_of_le _ _ (by omega),
      splitLoop_counter_end s 1 s.length 1 0 (by omega) (by omega), hdrop]
    rfl

/-- Witness for the amended C11: the input ` "a b` with a leading space and an open quote. -/
theorem splitCommandLine_one_witness :
    splitCommandLine [' ', DQUOTE, 'a', ' ', 'b'] 1
      = some (if ∀ c ∈ [' ', DQUOTE, 'a', ' ', 'b'], isspace c = true then []
          else [List.dropWhile (fun c => isspace c) [' ', DQUOTE, 'a', ' ', 'b']]) :=
  splitCommandLine_one [' ', DQUOTE, 'a', ' ', 'b'] (by decide)

/-! ## The unbounded split loses whitespace only -/

/-- When the unbounded loop pushes nothing more, only whitespace is left. -/
theorem splitLoop_unbounded_nil (s : List Char) (fuel i nps : Nat) (hlen : s.length < 2 ^ 64)
    (hnps : nps ≤ s.length) (h : splitLoop s 0 (fuel + 1) i nps = some []) :
    ∀ c ∈ s.drop nps, isspace c = true := by
  rw [splitLoop_succ, if_pos (Or.inl rfl)] at h
  by_cases hout : nps > wsub s.length 1
  · by_cases h0 : s.length = 0
    · rw [List.drop_of_length_le (by omega)]; simp
    · rw [wsub_one (by omega) hlen] at hout
      rw [List.drop_of_length_le (by omega)]; simp
  rw [if_neg hout] at h
  by_cases hne : GetStartOfNextArgument s nps ≠ npos
  · obtain ⟨_, hb2, hb3⟩ := splitLoop_argument_bounds s nps hlen hnps hne
    have hend : GetEndOfNextArgument s (GetStartOfNextArgument s nps) ≠ npos := by
      unfold npos; omega
    rw [if_pos hne, if_pos hend, if_pos (Or.inl rfl), substr_of_le _ _ _ (by omega)] at h
    cases hrec : splitLoop s 0 fuel (i + 1)
        (GetEndOfNextArgument s (GetStartOfNextArgument s nps) + 1) with
    | none => rw [hrec] at h; simp at h
    | some lu2 => rw [hrec] at h; simp at h
  · exact (GetStartOfNextArgument_eq_npos_iff s nps hlen hnps).1 (not_not.1 hne)

/-- From every `next_part_start` on, the rest of the string is whitespace, then the arguments of
the unbounded loop in their order, each followed by whitespace. -/
theorem splitLoop_lossless (s : List Char) (hlen : s.length < 2 ^ 64) :
    ∀ (fuel i nps : Nat) (lu : List (Nat × List Char)),
      splitLoop s 0 fuel i nps = some lu → nps ≤ s.length →
      ∃ (w0 : List Char) (gaps : List (List Char)), gaps.length = lu.length
        ∧ (∀ c ∈ w0, isspace c = true) ∧ (∀ g ∈ gaps, ∀ c ∈ g, isspace c = true)
        ∧ s.drop nps = w0 ++ (List.zipWith (fun t w => t ++ w) (lu.map Prod.snd) gaps).flatten := by
  intro fuel
  induction fuel with
  | zero => intro i nps lu h; simp [splitLoop] at h
  | succ fuel ih =>
    intro i nps lu h hnps
    rcases splitLoop_unbounded_cases s fuel i nps lu h with ⟨rfl, _⟩ | ⟨arg, lu2, rfl, hout, hne, hend, hsub, hrec⟩
    · exact ⟨s.drop nps, [], rfl, splitLoop_unbounded_nil s fuel i nps hlen hnps h,
        by simp, by simp⟩
    · obtain ⟨hb1, hb2, hb3⟩ := splitLoop_argument_bounds s nps hlen hnps hne
      obtain ⟨w1, gaps, hg1, hg2, hg3, hg4⟩ := ih (i + 1) _ lu2 hrec (by omega)
      have harg := (le_length_of_substr hsub).2
      have hn : (wsub (GetEndOfNextArgument s (GetStartOfNextArgument s nps))
          (GetStartOfNextArgument s nps) + 1) % 2 ^ 64
          = GetEndOfNextArgument s (GetStartOfNextArgument s nps)
            - GetStartOfNextArgument s nps + 1 := by
        rw [wsub_of_le hb2 (by omega), Nat.mod_eq_of_lt (by omega)]
      rw [hn] at harg
      have hsk := GetStartOfNextArgument_eq_skipSpaces s nps hne
      have hws := skipSpaces_take (s.drop nps) nps
      rw [← hsk] at hws
      have e1 : s.drop nps = (s.drop nps).take (GetStartOfNextArgument s nps - nps)
          ++ s.drop (GetStartOfNextArgument s nps) := by
        conv_lhs => rw [← List.take_append_drop (GetStartOfNextArgument s nps - nps) (s.drop nps)]
        rw [List.drop_drop]
        congr 2
        omega
      have e2 : s.drop (GetStartOfNextArgument s nps) = arg
          ++ s.drop (GetEndOfNextArgument s (GetStartOfNextArgument s nps) + 1) := by
        conv_lhs => rw [← List.take_append_drop
          (GetEndOfNextArgument s (GetStartOfNextArgument s nps)
            - GetStartOfNextArgument s nps + 1) (s.drop (GetStartOfNextArgument s nps))]
        rw [← harg, List.drop_drop]
        congr 2
        omega
      refine ⟨_, w1 :: gaps, by simp [hg1], hws, ?_, ?_⟩
      · intro g hg
        rcases List.mem_cons.1 hg with rfl | hg
        · exact hg2
        · exact hg3 g hg
      · conv_lhs => rw [e1, e2, hg4]
        simp [List.append_assoc]

/-- C12: the unbounded split returns raw, lossless spans. For a string `s` shorter than `2 ^ 64`
the unbounded split returns arguments `t1, ..., tk`, and there are strings `w0` and
`w1, ..., wk` of whitespace only with `s = w0 ++ t1 ++ w1 ++ ... ++ tk ++ wk`: the arguments
stand in the string in their order, with their quotes and backslashes, and only whitespace is
left out. -/
theorem splitCommandLine_lossless (s : List Char) (hlen : s.length < 2 ^ 64) :
    ∃ (toks : List (List Char)) (w0 : List Char) (gaps : List (List Char)),
      splitCommandLine s 0 = some toks ∧ gaps.length = toks.length
        ∧ (∀ c ∈ w0, isspace c = true) ∧ (∀ g ∈ gaps, ∀ c ∈ g, isspace c = true)
        ∧ s = w0 ++ (List.zipWith (fun t w => t ++ w) toks gaps).flatten := by
  obtain ⟨sp0, h0⟩ := splitSpans_total s 0 hlen
  obtain ⟨w0, gaps, h1, h2, h3, h4⟩ := splitLoop_lossless s hlen _ 0 0 sp0 h0 (Nat.zero_le _)
  refine ⟨sp0.map Prod.snd, w0, gaps, by rw [splitCommandLine, h0]; rfl, by simp [h1], h2, h3, ?_⟩
  rw [List.drop_zero] at h4
  exact h4

/-- Witness for C12: the input ` "a b"  c\ d ` with quotes, an escaped space and whitespace at
both ends. -/
theorem splitCommandLine_lossless_witness :
    splitCommandLine [' ', DQUOTE, 'a', ' ', 'b', DQUOTE, ' ', ' ', 'c', BACKSLASH, ' ', 'd', ' '] 0
        = some [[DQUOTE, 'a', ' ', 'b', DQUOTE], ['c', BACKSLASH, ' ', 'd']]
      ∧ ∃ (toks : List (List Char)) (w0 : List Char) (gaps : List (List Char)),
        splitCommandLine
            [' ', DQUOTE, 'a', ' ', 'b', DQUOTE, ' ', ' ', 'c', BACKSLASH, ' ', 'd', ' '] 0
          = some toks ∧ gaps.length = toks.length
          ∧ (∀ c ∈ w0, isspace c = true) ∧ (∀ g ∈ gaps, ∀ c ∈ g, isspace c = true)
          ∧ [' ', DQUOTE, 'a', ' ', 'b', DQUOTE, ' ', ' ', 'c', BACKSLASH, ' ', 'd', ' ']
            = w0 ++ (List.zipWith (fun t w => t ++ w) toks gaps).flatten :=
  ⟨by decide, splitCommandLine_lossless _ (by decide)⟩

end CommandLine

namespace Path

/-! ## The loop of `ExpandEnvVars`, one iteration at a time -/

theorem isNameChar_LPAREN : isNameChar '(' = false := by decide

theorem isNameChar_RPAREN : isNameChar ')' = false := by decide

theorem isNameChar_LBRACE : isNameChar LBRACE = false := by decide

theorem isNameChar_RBRACE : isNameChar RBRACE = false := by decide

theorem isNameChar_PERCENT : isNameChar '%' = false := by decide

theorem LBRACE_ne_LPAREN : LBRACE ≠ '(' := by decide

theorem BACKSLASH_ne_DOLLAR : BACKSLASH ≠ '$' := by decide

theorem BACKSLASH_ne_PERCENT : BACKSLASH ≠ '%' := by decide

theorem expandLoop_nil (win : Bool) (getenv : List Char → Option (List Char)) (fuel : Nat) :
    expandLoop win getenv (fuel + 1) [] = some [] := by
  simp [expandLoop]

/-- One iteration at a trigger character. -/
theorem expandLoop_trigger (win : Bool) (getenv : List Char → Option (List Char)) (fuel : Nat)
    (c : Char) (rest : List Char) (hc : c = '$' ∨ (win = true ∧ c = '%')) :
    expandLoop win getenv (fuel + 1) (c :: rest) =
      (expandLoop win getenv fuel
        (expandRef getenv c (selectBracket win c rest).1 (selectBracket win c rest).2.1
          (selectBracket win c rest).2.2).2).map
        (fun out => (expandRef getenv c (selectBracket win c rest).1 (selectBracket win c rest).2.1
          (selectBracket win c rest).2.2).1 ++ out) := by
  cases rest <;> simp only [expandLoop, if_pos hc]

/-- One iteration at a backslash followed by `%` or `$`. -/
theorem expandLoop_escape (win : Bool) (getenv : List Char → Option (List Char)) (fuel : Nat)
    (d : Char) (rest2 : List Char) (hd : d = '%' ∨ d = '$') :
    expandLoop win getenv (fuel + 1) (BACKSLASH :: d :: rest2) =
      (expandLoop win getenv fuel rest2).map (fun out => d :: out) := by
  simp only [expandLoop, if_pos hd]
  simp [BACKSLASH_ne_DOLLAR, BACKSLASH_ne_PERCENT]

/-- One iteration at any other character, and at a backslash not followed by `%` or `$`: the
character is copied. -/
theorem expandLoop_copy (win : Bool) (getenv : List Char → Option (List Char)) (fuel : Nat)
    (c : Char) (rest : List Char) (hc : ¬ (c = '$' ∨ (win = true ∧ c = '%')))
    (hb : c = BACKSLASH → ∀ d ∈ rest.head?, ¬ (d = '%' ∨ d = '$')) :
    expandLoop win getenv (fuel + 1) (c :: rest) =
      (expandLoop win getenv fuel rest).map (fun out => c :: out) := by
  cases rest with
  | nil => simp only [expandLoop, if_neg hc]; split_ifs <;> rfl
  | cons d rest2 =>
    simp only [expandLoop, if_neg hc]
    by_cases hbs : c = BACKSLASH
    · rw [if_pos hbs, if_neg (hb hbs d (by simp))]
    · rw [if_neg hbs]

/-! ## The input left behind a reference -/

theorem selectBracket_length (win : Bool) (c : Char) (rest : List Char) :
    (selectBracket win c rest).2.2.length ≤ rest.length := by
  unfold selectBracket
  split_ifs
  · exact Nat.le_refl _
  · cases rest with
    | nil => exact Nat.le_refl _
    | cons d rest2 =>
      simp only
      split_ifs <;> simp

/-- The input that `expandRef` leaves: the input behind the variable name, without the closing
bracket when the bracket is matched. -/
theorem expandRef_snd (getenv : List Char → Option (List Char)) (prev : Char)
    (bracket : eBracket) (cur : Char) (tail : List Char) :
    (expandRef getenv prev bracket cur tail).2 =
      if bracket ≠ .Bracket_None ∧ (tail.dropWhile isNameChar).head? = some bracket.toChar then
        (tail.dropWhile isNameChar).tail
      else tail.dropWhile isNameChar := by
  unfold expandRef
  simp only
  by_cases hb : bracket = .Bracket_None
  · simp [hb]
  · cases hafter : tail.dropWhile isNameChar with
    | nil => simp [hb]
    | cons e after2 =>
      by_cases he : e = bracket.toChar
      · simp [hb, he]
      · simp [hb, he]

theorem expandRef_length (getenv : List Char → Option (List Char)) (prev : Char)
    (bracket : eBracket) (cur : Char) (tail : List Char) :
    (expandRef getenv prev bracket cur tail).2.length ≤ tail.length := by
  have h1 : (tail.dropWhile isNameChar).length ≤ tail.length :=
    (List.dropWhile_sublist _).length_le
  rw [expandRef_snd]
  split_ifs
  · rw [List.length_tail]; omega
  · exact h1

/-- Behind a trigger character the outer loop goes on with a shorter input. -/
theorem expandRef_selectBracket_length (win : Bool) (getenv : List Char → Option (List Char))
    (c : Char) (rest : List Char) :
    (expandRef getenv c (selectBracket win c rest).1 (selectBracket win c rest).2.1
      (selectBracket win c rest).2.2).2.length ≤ rest.length :=
  Nat.le_trans (expandRef_length _ _ _ _ _) (selectBracket_length _ _ _)

/-- The text that `expandRef` appends when the variable is set: its value. -/
theorem expandRef_fst_of_some (getenv : List Char → Option (List Char)) (prev : Char)
    (bracket : eBracket) (cur : Char) (tail tmp : List Char)
    (h : getenv (tail.takeWhile isNameChar) = some tmp) :
    (expandRef getenv prev bracket cur tail).1 = tmp := by
  unfold expandRef
  simp only [h]
  by_cases hb : bracket = .Bracket_None
  · simp [hb]
  · cases hafter : tail.dropWhile isNameChar with
    | nil => simp [hb]
    | cons e after2 =>
      by_cases he : e = bracket.toChar
      · simp [hb, he]
      · simp [hb, he]

/-- The text that `expandRef` appends when the variable is not set: the text of the reference,
with the closing bracket when the bracket is matched. -/
theorem expandRef_fst_of_none (getenv : List Char → Option (List Char)) (prev : Char)
    (bracket : eBracket) (cur : Char) (tail : List Char)
    (h : getenv (tail.takeWhile isNameChar) = none) :
    (expandRef getenv prev bracket cur tail).1 =
      (if bracket ≠ .Bracket_Windows ∧ bracket ≠ .Bracket_None then [prev] else [])
        ++ cur :: tail.takeWhile isNameChar
        ++ (if bracket ≠ .Bracket_None
              ∧ (tail.dropWhile isNameChar).head? = some bracket.toChar
            then [bracket.toChar] else []) := by
  unfold expandRef
  simp only [h]
  by_cases hb : bracket = .Bracket_None
  · simp [hb]
  · cases hafter : tail.dropWhile isNameChar with
    | nil => simp [hb]
    | cons e after2 =>
      by_cases he : e = bracket.toChar
      · simp [hb, he]
      · simp [hb, he]

/-! ## The bound on the iterations of `ExpandEnvVars` -/

/-- With more iterations admitted than the input has characters, the result of the loop does not
depend on the bound. -/
theorem expandLoop_fuel (win : Bool) (getenv : List Char → Option (List Char)) (l : List Char) :
    ∀ f1 f2, l.length < f1 → l.length < f2 →
      expandLoop win getenv f1 l = expandLoop win getenv f2 l := by
  induction l using CommandLine.length_induction with
  | _ l ih =>
    intro f1 f2 h1 h2
    obtain ⟨g1, rfl⟩ : ∃ g, f1 = g + 1 := ⟨f1 - 1, by omega⟩
    obtain ⟨g2, rfl⟩ : ∃ g, f2 = g + 1 := ⟨f2 - 1, by omega⟩
    cases l with
    | nil => rw [expandLoop_nil, expandLoop_nil]
    | cons c rest =>
      simp only [List.length_cons] at h1 h2
      by_cases hc : c = '$' ∨ (win = true ∧ c = '%')
      · have hlen := expandRef_selectBracket_length win getenv c rest
        rw [expandLoop_trigger _ _ _ _ _ hc, expandLoop_trigger _ _ _ _ _ hc,
          ih _ (by simp only [List.length_cons]; omega) g1 g2 (by omega) (by omega)]
      · by_cases hesc : c = BACKSLASH ∧ ∃ d rest2, rest = d :: rest2 ∧ (d = '%' ∨ d = '$')
        · obtain ⟨rfl, d, rest2, rfl, hd⟩ := hesc
          simp only [List.length_cons] at h1 h2
          rw [expandLoop_escape _ _ _ _ _ hd, expandLoop_escape _ _ _ _ _ hd,
            ih rest2 (by simp only [List.length_cons]; omega) g1 g2 (by omega) (by omega)]
        · have hb : c = BACKSLASH → ∀ d ∈ rest.head?, ¬ (d = '%' ∨ d = '$') := by
            intro hbs d hd hdd
            apply hesc
            cases rest with
            | nil => simp at hd
            | cons e rest2 =>
              simp only [List.head?_cons, Option.mem_def, Option.some.injEq] at hd
              subst hd
              exact ⟨hbs, e, rest2, rfl, hdd⟩
          rw [expandLoop_copy _ _ _ _ _ hc hb, expandLoop_copy _ _ _ _ _ hc hb,
            ih rest (by simp) g1 g2 (by omega) (by omega)]

theorem ExpandEnvVars_nil (win : Bool) (getenv : List Char → Option (List Char)) :
    ExpandEnvVars win getenv [] = some [] := by
  simp [ExpandEnvVars, expandLoop]

/-- At a trigger character `ExpandEnvVars` appends the text of `expandRef` and goes on behind
the reference. -/
theorem ExpandEnvVars_trigger (win : Bool) (getenv : List Char → Option (List Char))
    (c : Char) (rest : List Char) (hc : c = '$' ∨ (win = true ∧ c = '%')) :
    ExpandEnvVars win getenv (c :: rest) =
      (ExpandEnvVars win getenv
        (expandRef getenv c (selectBracket win c rest).1 (selectBracket win c rest).2.1
          (selectBracket win c rest).2.2).2).map
        (fun out => (expandRef getenv c (selectBracket win c rest).1 (selectBracket win c rest).2.1
          (selectBracket win c rest).2.2).1 ++ out) := by
  have hlen := expandRef_selectBracket_length win getenv c rest
  unfold ExpandEnvVars
  rw [List.length_cons, expandLoop_trigger _ _ _ _ _ hc,
    expandLoop_fuel win getenv _ (rest.length + 1) _ (by omega) (Nat.lt_succ_self _)]

/-- At a backslash followed by `%` or `$` that character is copied and the backslash is not. -/
theorem ExpandEnvVars_escape (win : Bool) (getenv : List Char → Option (List Char))
    (d : Char) (rest2 : List Char) (hd : d = '%' ∨ d = '$') :
    ExpandEnvVars win getenv (BACKSLASH :: d :: rest2) =
      (ExpandEnvVars win getenv rest2).map (fun out => d :: out) := by
  unfold ExpandEnvVars
  rw [List.length_cons, expandLoop_escape _ _ _ _ _ hd,
    expandLoop_fuel win getenv rest2 _ (rest2.length + 1)
      (by simp only [List.length_cons]; omega) (Nat.lt_succ_self _)]

/-- Any other character, and a backslash not followed by `%` or `$`, is copied. -/
theorem ExpandEnvVars_copy (win : Bool) (getenv : List Char → Option (List Char))
    (c : Char) (rest : List Char) (hc : ¬ (c = '$' ∨ (win = true ∧ c = '%')))
    (hb : c = BACKSLASH → ∀ d ∈ rest.head?, ¬ (d = '%' ∨ d = '$')) :
    ExpandEnvVars win getenv (c :: rest) =
      (ExpandEnvVars win getenv rest).map (fun out => c :: out) := by
  unfold ExpandEnvVars
  rw [List.length_cons, expandLoop_copy _ _ _ _ _ hc hb]

/-- The loop of `ExpandEnvVars` returns for every input: the bound of the length of the input
plus one on its iterations is not used up. -/
theorem ExpandEnvVars_total (win : Bool) (getenv : List Char → Option (List Char))
    (l : List Char) : ∃ out, ExpandEnvVars win getenv l = some out := by
  induction l using CommandLine.length_induction with
  | _ l ih =>
    cases l with
    | nil => exact ⟨[], ExpandEnvVars_nil win getenv⟩
    | cons c rest =>
      by_cases hc : c = '$' ∨ (win = true ∧ c = '%')
      · have hlen := expandRef_selectBracket_length win getenv c rest
        obtain ⟨out, hout⟩ := ih
          (expandRef getenv c (selectBracket win c rest).1 (selectBracket win c rest).2.1
            (selectBracket win c rest).2.2).2
          (by simp only [List.length_cons]; omega)
        rw [ExpandEnvVars_trigger _ _ _ _ hc, hout]
        exact ⟨_, rfl⟩
      · by_cases hesc : c = BACKSLASH ∧ ∃ d rest2, rest = d :: rest2 ∧ (d = '%' ∨ d = '$')
        · obtain ⟨rfl, d, rest2, rfl, hd⟩ := hesc
          obtain ⟨out, hout⟩ := ih rest2 (by simp only [List.length_cons]; omega)
          rw [ExpandEnvVars_escape _ _ _ _ hd, hout]
          exact ⟨_, rfl⟩
        · have hb : c = BACKSLASH → ∀ d ∈ rest.head?, ¬ (d = '%' ∨ d = '$') := by
            intro hbs d hd hdd
            apply hesc
            cases rest with
            | nil => simp at hd
            | cons e rest2 =>
              simp only [List.head?_cons, Option.mem_def, Option.some.injEq] at hd
              subst hd
              exact ⟨hbs, e, rest2, rfl, hdd⟩
          obtain ⟨out, hout⟩ := ih rest (by simp)
          rw [ExpandEnvVars_copy _ _ _ _ hc hb, hout]
          exact ⟨_, rfl⟩

/-! ## References to variables -/

/-- The scan of a variable name stops behind a run of name characters that is followed by no
name character. -/
theorem takeWhile_dropWhile_name (name rest : List Char)
    (hname : ∀ c ∈ name, isNameChar c = true) (hrest : ∀ d ∈ rest.head?, isNameChar d = false) :
    (name ++ rest).takeWhile isNameChar = name ∧ (name ++ rest).dropWhile isNameChar = rest := by
  induction name with
  | nil =>
    cases rest with
    | nil => simp
    | cons d rest2 =>
      have hd : isNameChar d = false := hrest d (by simp)
      simp [List.takeWhile, List.dropWhile, hd]
  | cons c name ih =>
    have hc : isNameChar c = true := hname c (List.mem_cons_self _ _)
    have ih2 := ih (fun d hd => hname d (List.mem_cons_of_mem _ hd))
    simp [List.takeWhile, List.dropWhile, hc, ih2.1, ih2.2]

/-- A reference without bracket: the value of the variable when it is set, else the trigger
character and the name, and the loop goes on behind the name. -/
theorem expandRef_open (getenv : List Char → Option (List Char)) (prev cur : Char)
    (name rest : List Char) (hname : ∀ c ∈ name, isNameChar c = true)
    (hrest : ∀ d ∈ rest.head?, isNameChar d = false) :
    expandRef getenv prev .Bracket_None cur (name ++ rest) =
      (match getenv name with
        | some tmp => tmp
        | none => cur :: name, rest) := by
  obtain ⟨ht, hd⟩ := takeWhile_dropWhile_name name rest hname hrest
  apply Prod.ext
  · cases hg : getenv name with
    | some tmp => rw [expandRef_fst_of_some _ _ _ _ _ tmp (by rw [ht]; exact hg)]
    | none => rw [expandRef_fst_of_none _ _ _ _ _ (by rw [ht]; exact hg), ht]; simp
  · rw [expandRef_snd, hd]; simp

/-- A reference with a matched bracket: the value of the variable when it is set, else the text
of the reference with both brackets, and the loop goes on behind the closing bracket. -/
theorem expandRef_closed (getenv : List Char → Option (List Char)) (prev : Char)
    (bracket : eBracket) (cur : Char) (name rest : List Char)
    (hb : bracket ≠ .Bracket_None) (hclose : isNameChar bracket.toChar = false)
    (hname : ∀ c ∈ name, isNameChar c = true) :
    expandRef getenv prev bracket cur (name ++ bracket.toChar :: rest) =
      (match getenv name with
        | some tmp => tmp
        | none => (if bracket ≠ .Bracket_Windows then [prev] else [])
            ++ cur :: name ++ [bracket.toChar], rest) := by
  obtain ⟨ht, hd⟩ := takeWhile_dropWhile_name name (bracket.toChar :: rest) hname
    (by intro d hd; simp only [List.head?_cons, Option.mem_def, Option.some.injEq] at hd
        subst hd; exact hclose)
  apply Prod.ext
  · cases hg : getenv name with
    | some tmp => rw [expandRef_fst_of_some _ _ _ _ _ tmp (by rw [ht]; exact hg)]
    | none =>
      rw [expandRef_fst_of_none _ _ _ _ _ (by rw [ht]; exact hg), ht, hd]
      simp [hb]
  · rw [expandRef_snd, hd]; simp [hb]

theorem selectBracket_dollar_name (win : Bool) (c : Char) (rest : List Char)
    (hc : isNameChar c = true) :
    selectBracket win '$' (c :: rest) = (.Bracket_None, '$', c :: rest) := by
  have h1 : c ≠ '(' := by rintro rfl; simp [isNameChar_LPAREN] at hc
  have h2 : c ≠ LBRACE := by rintro rfl; simp [isNameChar_LBRACE] at hc
  simp [selectBracket, h1, h2]

theorem selectBracket_dollar_paren (win : Bool) (rest : List Char) :
    selectBracket win '$' ('(' :: rest) = (.Bracket_Normal, '(', rest) := by
  simp [selectBracket]

theorem selectBracket_dollar_curly (win : Bool) (rest : List Char) :
    selectBracket win '$' (LBRACE :: rest) = (.Bracket_Curly, LBRACE, rest) := by
  simp [selectBracket, LBRACE_ne_LPAREN]

/-- `ExpandEnvVars` at `$name`, the name not empty and not followed by a name character. -/
theorem ExpandEnvVars_dollar_name (win : Bool) (getenv : List Char → Option (List Char))
    (name rest : List Char) (hne : name ≠ []) (hname : ∀ c ∈ name, isNameChar c = true)
    (hrest : ∀ d ∈ rest.head?, isNameChar d = false) :
    ExpandEnvVars win getenv ('$' :: (name ++ rest)) =
      (ExpandEnvVars win getenv rest).map (fun out =>
        (match getenv name with
          | some tmp => tmp
          | none => '$' :: name) ++ out) := by
  rw [ExpandEnvVars_trigger _ _ _ _ (Or.inl rfl)]
  cases name with
  | nil => exact absurd rfl hne
  | cons c name2 =>
    rw [List.cons_append, selectBracket_dollar_name win c _ (hname c (List.mem_cons_self _ _)),
      ← List.cons_append, expandRef_open getenv _ _ _ _ hname hrest]

/-- `ExpandEnvVars` at `$(name)`. -/
theorem ExpandEnvVars_dollar_paren (win : Bool) (getenv : List Char → Option (List Char))
    (name rest : List Char) (hname : ∀ c ∈ name, isNameChar c = true) :
    ExpandEnvVars win getenv ('$' :: '(' :: (name ++ ')' :: rest)) =
      (ExpandEnvVars win getenv rest).map (fun out =>
        (match getenv name with
          | some tmp => tmp
          | none => '$' :: '(' :: name ++ [')']) ++ out) := by
  rw [ExpandEnvVars_trigger _ _ _ _ (Or.inl rfl), selectBracket_dollar_paren]
  have h := expandRef_closed getenv '$' .Bracket_Normal '(' name rest (by decide)
    isNameChar_RPAREN hname
  simp only [eBracket.toChar] at h
  rw [h]
  cases getenv name <;> simp

/-- `ExpandEnvVars` at `$name` in curly brackets. -/
theorem ExpandEnvVars_dollar_curly (win : Bool) (getenv : List Char → Option (List Char))
    (name rest : List Char) (hname : ∀ c ∈ name, isNameChar c = true) :
    ExpandEnvVars win getenv ('$' :: LBRACE :: (name ++ RBRACE :: rest)) =
      (ExpandEnvVars win getenv rest).map (fun out =>
        (match getenv name with
          | some tmp => tmp
          | none => '$' :: LBRACE :: name ++ [RBRACE]) ++ out) := by
  rw [ExpandEnvVars_trigger _ _ _ _ (Or.inl rfl), selectBracket_dollar_curly]
  have h := expandRef_closed getenv '$' .Bracket_Curly LBRACE name rest (by decide)
    isNameChar_RBRACE hname
  simp only [eBracket.toChar] at h
  rw [h]
  cases getenv name <;> simp

/-! ## Variables that are set, variables that are not, and the escape -/

/-- C15: a reference without bracket to a variable that is set is replaced by the value,
verbatim. For either platform, a non-empty `name` of name characters with `getenv name = v` and
a `rest` that is empty or does not begin with a name character, `ExpandEnvVars` returns on
`rest`, and on `$name` followed by `rest` it returns `v` followed by the result on `rest`;
`v` is arbitrary and is not scanned again. -/
theorem ExpandEnvVars_set_plain (win : Bool) (getenv : List Char → Option (List Char))
    (name v rest : List Char) (hne : name ≠ []) (hname : ∀ c ∈ name, isNameChar c = true)
    (hv : getenv name = some v) (hrest : ∀ d ∈ rest.head?, isNameChar d = false) :
    ∃ out, ExpandEnvVars win getenv rest = some out
      ∧ ExpandEnvVars win getenv ('$' :: (name ++ rest)) = some (v ++ out) := by
  obtain ⟨out, hout⟩ := ExpandEnvVars_total win getenv rest
  refine ⟨out, hout, ?_⟩
  rw [ExpandEnvVars_dollar_name win getenv name rest hne hname hrest, hout, hv]
  rfl

/-- Witness for C15: `$HOME/bin` with `HOME` set to `/home/u` gives `/home/u/bin`, on either
platform. -/
theorem ExpandEnvVars_set_plain_witness :
    ExpandEnvVars false envHome ['$', 'H', 'O', 'M', 'E', '/', 'b', 'i', 'n']
        = some ['/', 'h', 'o', 'm', 'e', '/', 'u', '/', 'b', 'i', 'n']
      ∧ ∃ out, ExpandEnvVars true envHome ['/', 'b', 'i', 'n'] = some out
        ∧ ExpandEnvVars true envHome ('$' :: (['H', 'O', 'M', 'E'] ++ ['/', 'b', 'i', 'n']))
          = some (['/', 'h', 'o', 'm', 'e', '/', 'u'] ++ out) :=
  ⟨by decide,
    ExpandEnvVars_set_plain true envHome ['H', 'O', 'M', 'E'] ['/', 'h', 'o', 'm', 'e', '/', 'u']
      ['/', 'b', 'i', 'n'] (by decide) (by decide) (by decide) (by decide)⟩

/-- C16: a reference with matched brackets to a variable that is set is replaced, brackets
included, by the value. For either platform, a `name` of name characters (non-empty or not) with
`getenv name = v` and every `rest`, `ExpandEnvVars` returns on `rest`, and on `$name` in curly
brackets or in parentheses followed by `rest` it returns `v` followed by the result on `rest`. -/
theorem ExpandEnvVars_set_bracket (win : Bool) (getenv : List Char → Option (List Char))
    (name v rest : List Char) (hname : ∀ c ∈ name, isNameChar c = true)
    (hv : getenv name = some v) :
    ∃ out, ExpandEnvVars win getenv rest = some out
      ∧ ExpandEnvVars win getenv ('$' :: LBRACE :: (name ++ RBRACE :: rest)) = some (v ++ out)
      ∧ ExpandEnvVars win getenv ('$' :: '(' :: (name ++ ')' :: rest)) = some (v ++ out) := by
  obtain ⟨out, hout⟩ := ExpandEnvVars_total win getenv rest
  refine ⟨out, hout, ?_, ?_⟩
  · rw [ExpandEnvVars_dollar_curly win getenv name rest hname, hout, hv]
    rfl
  · rw [ExpandEnvVars_dollar_paren win getenv name rest hname, hout, hv]
    rfl

/-- Witness for C16: `$HOME` in curly brackets followed by `/bin`, with `HOME` set to `/home/u`,
gives `/home/u/bin`. -/
theorem ExpandEnvVars_set_bracket_witness :
    ExpandEnvVars false envHome ['$', LBRACE, 'H', 'O', 'M', 'E', RBRACE, '/', 'b', 'i', 'n']
        = some ['/', 'h', 'o', 'm', 'e', '/', 'u', '/', 'b', 'i', 'n']
      ∧ ∃ out, ExpandEnvVars false envHome ['/', 'b', 'i', 'n'] = some out
        ∧ ExpandEnvVars false envHome
            ('$' :: LBRACE :: (['H', 'O', 'M', 'E'] ++ RBRACE :: ['/', 'b', 'i', 'n']))
          = some (['/', 'h', 'o', 'm', 'e', '/', 'u'] ++ out)
        ∧ ExpandEnvVars false envHome
            ('$' :: '(' :: (['H', 'O', 'M', 'E'] ++ ')' :: ['/', 'b', 'i', 'n']))
          = some (['/', 'h', 'o', 'm', 'e', '/', 'u'] ++ out) :=
  ⟨by decide,
    ExpandEnvVars_set_bracket false envHome ['H', 'O', 'M', 'E']
      ['/', 'h', 'o', 'm', 'e', '/', 'u'] ['/', 'b', 'i', 'n'] (by decide) (by decide)⟩

/-- C17: a reference to a variable that is not set is left unchanged, whatever else is set. For
either platform, a non-empty `name` of name characters with `getenv name` absent and every
`rest`, `ExpandEnvVars` returns on `rest`, and on `$name` in curly brackets or in parentheses
followed by `rest` it returns that reference, brackets included, followed by the result on
`rest`; when `rest` is empty or does not begin with a name character, the same holds for `$name`
without brackets. -/
theorem ExpandEnvVars_unset (win : Bool) (getenv : List Char → Option (List Char))
    (name rest : List Char) (hne : name ≠ []) (hname : ∀ c ∈ name, isNameChar c = true)
    (hv : getenv name = none) :
    ∃ out, ExpandEnvVars win getenv rest = some out
      ∧ ExpandEnvVars win getenv ('$' :: LBRACE :: (name ++ RBRACE :: rest))
          = some ('$' :: LBRACE :: (name ++ RBRACE :: out))
      ∧ ExpandEnvVars win getenv ('$' :: '(' :: (name ++ ')' :: rest))
          = some ('$' :: '(' :: (name ++ ')' :: out))
      ∧ ((∀ d ∈ rest.head?, isNameChar d = false) →
          ExpandEnvVars win getenv ('$' :: (name ++ rest)) = some ('$' :: (name ++ out))) := by
  obtain ⟨out, hout⟩ := ExpandEnvVars_total win getenv rest
  refine ⟨out, hout, ?_, ?_, fun hrest => ?_⟩
  · rw [ExpandEnvVars_dollar_curly win getenv name rest hname, hout, hv]
    simp
  · rw [ExpandEnvVars_dollar_paren win getenv name rest hname, hout, hv]
    simp
  · rw [ExpandEnvVars_dollar_name win getenv name rest hne hname hrest, hout, hv]
    simp

/-- Witness for C17: with only `HOME` set, `$UNSET/bin` stays `$UNSET/bin`. -/
theorem ExpandEnvVars_unset_witness :
    ExpandEnvVars false envHome ['$', 'U', 'N', 'S', 'E', 'T', '/', 'b', 'i', 'n']
        = some ['$', 'U', 'N', 'S', 'E', 'T', '/', 'b', 'i', 'n']
      ∧ ∃ out, ExpandEnvVars false envHome ['/', 'b', 'i', 'n'] = some out
        ∧ ExpandEnvVars false envHome ('$' :: (['U', 'N', 'S', 'E', 'T'] ++ ['/', 'b', 'i', 'n']))
          = some ('$' :: (['U', 'N', 'S', 'E', 'T'] ++ out)) := by
  refine ⟨by decide, ?_⟩
  obtain ⟨out, h1, _, _, h4⟩ := ExpandEnvVars_unset false envHome ['U', 'N', 'S', 'E', 'T']
    ['/', 'b', 'i', 'n'] (by decide) (by decide) (by decide)
  exact ⟨out, h1, h4 (by decide)⟩

/-- C19: a backslash escapes the trigger character `$`. For either platform, every environment
and every `rest`, `ExpandEnvVars` returns on `rest`, and on a backslash, `$` and `rest` it
returns `$` followed by the result on `rest`: the backslash is dropped and no variable is looked
up; backslash, `$HOME` gives `$HOME` also when `HOME` is set. -/
theorem ExpandEnvVars_escaped_dollar (win : Bool) (getenv : List Char → Option (List Char))
    (rest : List Char) :
    (∃ out, ExpandEnvVars win getenv rest = some out
        ∧ ExpandEnvVars win getenv (BACKSLASH :: '$' :: rest) = some ('$' :: out))
      ∧ ExpandEnvVars win envHome [BACKSLASH, '$', 'H', 'O', 'M', 'E']
        = some ['$', 'H', 'O', 'M', 'E'] := by
  constructor
  · obtain ⟨out, hout⟩ := ExpandEnvVars_total win getenv rest
    refine ⟨out, hout, ?_⟩
    rw [ExpandEnvVars_escape win getenv '$' rest (Or.inr rfl), hout]
    rfl
  · cases win <;> decide

/-! ## Inputs that `ExpandEnvVars` leaves unchanged -/

/-- The characters that the choice of the bracket passes are the trigger character and the rest
of the input. -/
theorem selectBracket_text (win : Bool) (c : Char) (rest : List Char) :
    (if (selectBracket win c rest).1 ≠ .Bracket_Windows
          ∧ (selectBracket win c rest).1 ≠ .Bracket_None then [c] else [])
        ++ (selectBracket win c rest).2.1 :: (selectBracket win c rest).2.2 = c :: rest := by
  unfold selectBracket
  by_cases hw : win = true ∧ c = '%'
  · simp [hw]
  · rw [if_neg hw]
    cases rest with
    | nil => simp
    | cons d rest2 =>
      by_cases h1 : d = '('
      · simp [h1]
      · by_cases h2 : d = LBRACE
        · subst h2; simp [LBRACE_ne_LPAREN]
        · simp [h1, h2]

/-- For a variable that is not set, what `expandRef` appends and what it leaves is the text it
has read. -/
theorem expandRef_unset_text (getenv : List Char → Option (List Char)) (prev : Char)
    (bracket : eBracket) (cur : Char) (tail : List Char)
    (h : getenv (tail.takeWhile isNameChar) = none) :
    (expandRef getenv prev bracket cur tail).1 ++ (expandRef getenv prev bracket cur tail).2
      = (if bracket ≠ .Bracket_Windows ∧ bracket ≠ .Bracket_None then [prev] else [])
        ++ cur :: tail := by
  have htd := List.takeWhile_append_dropWhile isNameChar tail
  rw [expandRef_fst_of_none _ _ _ _ _ h, expandRef_snd]
  cases hafter : tail.dropWhile isNameChar with
  | nil =>
    rw [hafter] at htd
    simp only [List.append_nil] at htd
    simp [htd]
  | cons e after2 =>
    rw [hafter] at htd
    by_cases hcl : bracket ≠ .Bracket_None ∧ e = bracket.toChar
    · have hcl2 : bracket ≠ .Bracket_None
          ∧ (e :: after2).head? = some bracket.toChar := ⟨hcl.1, by simp [hcl.2]⟩
      rw [if_pos hcl2, if_pos hcl2, ← hcl.2]
      conv_rhs => rw [← htd]
      simp
    · have hcl2 : ¬ (bracket ≠ .Bracket_None
          ∧ (e :: after2).head? = some bracket.toChar) := by
        intro hx
        exact hcl ⟨hx.1, by simpa using hx.2⟩
      rw [if_neg hcl2, if_neg hcl2]
      conv_rhs => rw [← htd]
      simp

/-- C18: when no variable is set, `ExpandEnvVars` returns its input unchanged, on either
platform, for every input in which no backslash is immediately followed by `$` or `%`; inputs
with an unmatched bracket are included, no closing bracket is made up. -/
theorem ExpandEnvVars_nothing_set (win : Bool) (getenv : List Char → Option (List Char))
    (s : List Char) (hget : ∀ name, getenv name = none)
    (h1 : ¬ [BACKSLASH, '$'] <:+: s) (h2 : ¬ [BACKSLASH, '%'] <:+: s) :
    ExpandEnvVars win getenv s = some s := by
  induction s using CommandLine.length_induction with
  | _ s ih =>
    cases s with
    | nil => exact ExpandEnvVars_nil win getenv
    | cons c rest =>
      by_cases hc : c = '$' ∨ (win = true ∧ c = '%')
      · have hlen := expandRef_selectBracket_length win getenv c rest
        have htext := expandRef_unset_text getenv c (selectBracket win c rest).1
          (selectBracket win c rest).2.1 (selectBracket win c rest).2.2 (hget _)
        rw [selectBracket_text] at htext
        have hsuf : (expandRef getenv c (selectBracket win c rest).1
            (selectBracket win c rest).2.1 (selectBracket win c rest).2.2).2 <:+ c :: rest :=
          ⟨_, htext⟩
        rw [ExpandEnvVars_trigger _ _ _ _ hc,
          ih _ (by simp only [List.length_cons]; omega)
            (fun h => h1 (h.trans hsuf.isInfix)) (fun h => h2 (h.trans hsuf.isInfix))]
        simp only [Option.map_some', htext]
      · have hsuf : rest <:+ c :: rest := List.suffix_cons c rest
        have hb : c = BACKSLASH → ∀ d ∈ rest.head?, ¬ (d = '%' ∨ d = '$') := by
          intro hbs d hd hdd
          cases rest with
          | nil => simp at hd
          | cons e rest2 =>
            simp only [List.head?_cons, Option.mem_def, Option.some.injEq] at hd
            subst hd hbs
            rcases hdd with rfl | rfl
            · exact h2 (List.IsPrefix.isInfix ⟨rest2, rfl⟩)
            · exact h1 (List.IsPrefix.isInfix ⟨rest2, rfl⟩)
        rw [ExpandEnvVars_copy _ _ _ _ hc hb,
          ih rest (by simp) (fun h => h1 (h.trans hsuf.isInfix))
            (fun h => h2 (h.trans hsuf.isInfix))]
        rfl

/-- Witness for C18: `$` and a curly bracket before `NAME` without closing bracket, on Windows,
and `$(NAME %x` on Posix. -/
theorem ExpandEnvVars_nothing_set_witness :
    ExpandEnvVars true (fun _ => none) ['$', LBRACE, 'N', 'A', 'M', 'E']
        = some ['$', LBRACE, 'N', 'A', 'M', 'E']
      ∧ ExpandEnvVars false (fun _ => none) ['$', '(', 'N', 'A', 'M', 'E', ' ', '%', 'x']
        = some ['$', '(', 'N', 'A', 'M', 'E', ' ', '%', 'x'] :=
  ⟨ExpandEnvVars_nothing_set true (fun _ => none) ['$', LBRACE, 'N', 'A', 'M', 'E']
      (fun _ => rfl) (by decide) (by decide),
    ExpandEnvVars_nothing_set false (fun _ => none) ['$', '(', 'N', 'A', 'M', 'E', ' ', '%', 'x']
      (fun _ => rfl) (by decide) (by decide)⟩

/-- C20 as stated fails: without `_WIN32` the input of a backslash and `%` holds no trigger
character, and the result is `%` alone. -/
theorem ExpandEnvVars_escaped_percent_posix :
    '$' ∉ [BACKSLASH, '%']
      ∧ ExpandEnvVars false envHome [BACKSLASH, '%'] = some ['%']
      ∧ ExpandEnvVars false envHome [BACKSLASH, '%'] ≠ some [BACKSLASH, '%'] := by
  decide

/-- C20, amended: `ExpandEnvVars` is the identity on inputs without trigger characters in which no
backslash is immediately followed by `%`. For every platform, every environment and every input
without `$`, without `%` when the platform is Windows, and without a backslash immediately before
a `%`, the result is the input. -/
theorem ExpandEnvVars_no_trigger (win : Bool) (getenv : List Char → Option (List Char))
    (s : List Char) (hd : '$' ∉ s) (hp : win = true → '%' ∉ s)
    (hesc : ¬ [BACKSLASH, '%'] <:+: s) :
    ExpandEnvVars win getenv s = some s := by
  induction s with
  | nil => exact ExpandEnvVars_nil win getenv
  | cons c rest ih =>
    have hc : ¬ (c = '$' ∨ (win = true ∧ c = '%')) := by
      rintro (rfl | ⟨hw, rfl⟩)
      · exact hd (List.mem_cons_self _ _)
      · exact hp hw (List.mem_cons_self _ _)
    have hb : c = BACKSLASH → ∀ d ∈ rest.head?, ¬ (d = '%' ∨ d = '$') := by
      intro hbs d hdm hdd
      cases rest with
      | nil => simp at hdm
      | cons e rest2 =>
        simp only [List.head?_cons, Option.mem_def, Option.some.injEq] at hdm
        subst hdm hbs
        rcases hdd with rfl | rfl
        · exact hesc (List.IsPrefix.isInfix ⟨rest2, rfl⟩)
        · exact hd (List.mem_cons_of_mem _ (List.mem_cons_self _ _))
    rw [ExpandEnvVars_copy _ _ _ _ hc hb,
      ih (fun h => hd (List.mem_cons_of_mem _ h)) (fun hw h => hp hw (List.mem_cons_of_mem _ h))
        (fun h => hesc (h.trans (List.suffix_cons c rest).isInfix))]
    rfl

/-- Witness for the amended C20: without `_WIN32` the input `a%b`, backslash, `c` is returned
as it is. -/
theorem ExpandEnvVars_no_trigger_witness :
    ExpandEnvVars false envHome ['a', '%', 'b', BACKSLASH, 'c']
      = some ['a', '%', 'b', BACKSLASH, 'c'] :=
  ExpandEnvVars_no_trigger false envHome ['a', '%', 'b', BACKSLASH, 'c'] (by decide) (by decide)
    (by decide)

/-! ## Missing closing brackets, empty names and the percent sign -/

/-- `ExpandEnvVars` at `$name` behind an opening curly bracket or parenthesis whose closing
bracket is missing, for a variable that is set: the value is appended, the `$` and the opening
bracket are not, and the loop goes on behind the name. -/
theorem ExpandEnvVars_unclosed_set (win : Bool) (getenv : List Char → Option (List Char))
    (name v rest : List Char) (hname : ∀ c ∈ name, isNameChar c = true)
    (hv : getenv name = some v)
    (hrest : ∀ d ∈ rest.head?, isNameChar d = false ∧ d ≠ RBRACE ∧ d ≠ ')') :
    ExpandEnvVars win getenv ('$' :: LBRACE :: (name ++ rest))
        = (ExpandEnvVars win getenv rest).map (fun out => v ++ out)
      ∧ ExpandEnvVars win getenv ('$' :: '(' :: (name ++ rest))
        = (ExpandEnvVars win getenv rest).map (fun out => v ++ out) := by
  obtain ⟨ht, hd⟩ := takeWhile_dropWhile_name name rest hname (fun d hd => (hrest d hd).1)
  have hhead : ∀ b : eBracket, (b = .Bracket_Curly ∨ b = .Bracket_Normal) →
      ¬ (b ≠ .Bracket_None ∧ rest.head? = some b.toChar) := by
    intro b hb hx
    have := hrest b.toChar (by simp [hx.2])
    rcases hb with rfl | rfl
    · exact this.2.1 rfl
    · exact this.2.2 rfl
  constructor
  · rw [ExpandEnvVars_trigger _ _ _ _ (Or.inl rfl), selectBracket_dollar_curly,
      expandRef_fst_of_some _ _ _ _ _ v (by rw [ht]; exact hv), expandRef_snd, hd,
      if_neg (hhead _ (Or.inl rfl))]
  · rw [ExpandEnvVars_trigger _ _ _ _ (Or.inl rfl), selectBracket_dollar_paren,
      expandRef_fst_of_some _ _ _ _ _ v (by rw [ht]; exact hv), expandRef_snd, hd,
      if_neg (hhead _ (Or.inr rfl))]

/-- C21, the code at the input `$`, opening curly bracket, `HOME` with `HOME` set to `/home/u`:
the result is `/home/u`, not the input; the same with an opening parenthesis, with more text
behind the name, and on either platform. -/
theorem ExpandEnvVars_unclosed_HOME :
    ExpandEnvVars false envHome ['$', LBRACE, 'H', 'O', 'M', 'E']
        = some ['/', 'h', 'o', 'm', 'e', '/', 'u']
      ∧ ExpandEnvVars true envHome ['$', LBRACE, 'H', 'O', 'M', 'E']
        = some ['/', 'h', 'o', 'm', 'e', '/', 'u']
      ∧ ExpandEnvVars false envHome ['$', '(', 'H', 'O', 'M', 'E', '/', 'x']
        = some ['/', 'h', 'o', 'm', 'e', '/', 'u', '/', 'x']
      ∧ ExpandEnvVars false envHome ['$', LBRACE, 'U', 'N', 'S', 'E', 'T']
        = some ['$', LBRACE, 'U', 'N', 'S', 'E', 'T'] := by
  decide

/-- The empty name is not tested by `ExpandEnvVars` itself: with a lookup that answered the
empty name, here with `X`, the input `$` would give `X`. The code's lookup, `getenv`, never
answers it. -/
theorem ExpandEnvVars_dollar_empty_name_set :
    ExpandEnvVars false (fun _ => some ['X']) ['$'] = some ['X']
      ∧ ExpandEnvVars false (fun _ => some ['X']) ['$'] ≠ some ['$']
      ∧ ExpandEnvVars true (fun name => if name = [] then some ['X'] else none) ['$', ' ', 'a']
        = some ['X', ' ', 'a'] := by
  decide

/-- Every name but the empty one is looked up in the environment. -/
theorem getenv_of_ne_nil (environ : List Char → Option (List Char)) (name : List Char)
    (hname : name ≠ []) : getenv environ name = environ name := by
  simp [getenv, hname]

/-- A run of characters that are neither trigger characters nor backslashes is copied. -/
theorem ExpandEnvVars_copy_run (win : Bool) (getenv : List Char → Option (List Char))
    (w rest : List Char)
    (hw : ∀ c ∈ w, ¬ (c = '$' ∨ (win = true ∧ c = '%')) ∧ c ≠ BACKSLASH) :
    ExpandEnvVars win getenv (w ++ rest)
      = (ExpandEnvVars win getenv rest).map (fun out => w ++ out) := by
  induction w with
  | nil => simp
  | cons c w ih =>
    obtain ⟨h1, h2⟩ := hw c (List.mem_cons_self _ _)
    rw [List.cons_append, ExpandEnvVars_copy _ _ _ _ h1 (fun h => absurd h h2),
      ih (fun d hd => hw d (List.mem_cons_of_mem _ hd))]
    cases ExpandEnvVars win getenv rest <;> rfl

theorem ne_of_isNameChar {c : Char} (h : isNameChar c = true) :
    c ≠ '$' ∧ c ≠ '%' ∧ c ≠ BACKSLASH := by
  refine ⟨?_, ?_, ?_⟩ <;> rintro rfl <;> revert h <;> decide

/-- C23: `%` is a trigger character with `_WIN32` only. For a `name` of name characters (non-empty
or not) with `getenv name = v` and every `rest`, `ExpandEnvVars` returns on `rest` on both platforms; on
`%name%` followed by `rest` it returns, with `_WIN32`, `v` followed by the result on `rest`, and
without `_WIN32` the text `%name%` itself followed by the result on `rest`. -/
theorem ExpandEnvVars_percent (getenv : List Char → Option (List Char))
    (name v rest : List Char) (hname : ∀ c ∈ name, isNameChar c = true)
    (hv : getenv name = some v) :
    (∃ out, ExpandEnvVars true getenv rest = some out
        ∧ ExpandEnvVars true getenv ('%' :: (name ++ '%' :: rest)) = some (v ++ out))
      ∧ (∃ out, ExpandEnvVars false getenv rest = some out
        ∧ ExpandEnvVars false getenv ('%' :: (name ++ '%' :: rest))
          = some ('%' :: (name ++ '%' :: out))) := by
  refine ⟨?_, ?_⟩
  · obtain ⟨out, hout⟩ := ExpandEnvVars_total true getenv rest
    refine ⟨out, hout, ?_⟩
    have hsel : selectBracket true '%' (name ++ '%' :: rest)
        = (.Bracket_Windows, '%', name ++ '%' :: rest) := by
      simp [selectBracket]
    have h := expandRef_closed getenv '%' .Bracket_Windows '%' name rest (by decide)
      isNameChar_PERCENT hname
    simp only [eBracket.toChar] at h
    rw [ExpandEnvVars_trigger _ _ _ _ (Or.inr ⟨rfl, rfl⟩), hsel, h, hout, hv]
    rfl
  · obtain ⟨out, hout⟩ := ExpandEnvVars_total false getenv rest
    refine ⟨out, hout, ?_⟩
    have hrun := ExpandEnvVars_copy_run false getenv ('%' :: (name ++ ['%'])) rest (by
      intro c hc
      rcases List.mem_cons.1 hc with rfl | hc
      · decide
      · rcases List.mem_append.1 hc with hc | hc
        · have := ne_of_isNameChar (hname c hc)
          exact ⟨by simp [this.1], this.2.2⟩
        · rw [List.mem_singleton] at hc; subst hc; decide)
    simp only [List.cons_append, List.append_assoc, List.singleton_append, List.nil_append] at hrun
    rw [hrun, hout]
    rfl

/-- Witness for C23: `%HOME%/x` with `HOME` set to `/home/u`. -/
theorem ExpandEnvVars_percent_witness :
    ExpandEnvVars true envHome ['%', 'H', 'O', 'M', 'E', '%', '/', 'x']
        = some ['/', 'h', 'o', 'm', 'e', '/', 'u', '/', 'x']
      ∧ ExpandEnvVars false envHome ['%', 'H', 'O', 'M', 'E', '%', '/', 'x']
        = some ['%', 'H', 'O', 'M', 'E', '%', '/', 'x']
      ∧ ∃ out, ExpandEnvVars true envHome ['/', 'x'] = some out
        ∧ ExpandEnvVars true envHome ('%' :: (['H', 'O', 'M', 'E'] ++ '%' :: ['/', 'x']))
          = some (['/', 'h', 'o', 'm', 'e', '/', 'u'] ++ out) :=
  ⟨by decide, by decide,
    (ExpandEnvVars_percent envHome ['H', 'O', 'M', 'E'] ['/', 'h', 'o', 'm', 'e', '/', 'u']
      ['/', 'x'] (by decide) (by decide)).1⟩

/-! ## The names that `ExpandEnvVars` looks up -/

/-- The text and the input left by `expandRef` depend on the environment through the scanned
name only. -/
theorem expandRef_congr (l1 l2 : List Char → Option (List Char)) (prev : Char)
    (bracket : eBracket) (cur : Char) (tail : List Char)
    (h : l1 (tail.takeWhile isNameChar) = l2 (tail.takeWhile isNameChar)) :
    expandRef l1 prev bracket cur tail = expandRef l2 prev bracket cur tail := by
  unfold expandRef
  simp only [h]

theorem selectBracket_suffix (win : Bool) (c : Char) (rest : List Char) :
    (selectBracket win c rest).2.2 <:+ rest := by
  unfold selectBracket
  split_ifs
  · exact List.suffix_refl _
  · cases rest with
    | nil => exact List.suffix_refl _
    | cons d rest2 =>
      simp only
      split_ifs
      · exact List.suffix_cons _ _
      · exact List.suffix_cons _ _
      · exact List.suffix_refl _

theorem expandRef_suffix (getenv : List Char → Option (List Char)) (prev : Char)
    (bracket : eBracket) (cur : Char) (tail : List Char) :
    (expandRef getenv prev bracket cur tail).2 <:+ tail := by
  rw [expandRef_snd]
  split_ifs
  · exact (List.tail_suffix _).trans (List.dropWhile_suffix _)
  · exact List.dropWhile_suffix _

/-- C29: expansion is single-pass and consults only names written in the input. For either
platform, every input `s` and two environments that agree on every contiguous substring of `s`,
`ExpandEnvVars` returns the same on `s` for both; a name that stands only in a value is not
looked up: with `A` set to `$B` and `B` set to `x`, the input `$A` gives `$B`. -/
theorem ExpandEnvVars_agree (win : Bool) (l1 l2 : List Char → Option (List Char))
    (s : List Char) (h : ∀ n, n <:+: s → l1 n = l2 n) :
    ExpandEnvVars win l1 s = ExpandEnvVars win l2 s
      ∧ ExpandEnvVars win
          (fun n => if n = ['A'] then some ['$', 'B'] else if n = ['B'] then some ['x'] else none)
          ['$', 'A'] = some ['$', 'B'] := by
  refine ⟨?_, by cases win <;> decide⟩
  induction s using CommandLine.length_induction with
  | _ s ih =>
    cases s with
    | nil => rw [ExpandEnvVars_nil, ExpandEnvVars_nil]
    | cons c rest =>
      by_cases hc : c = '$' ∨ (win = true ∧ c = '%')
      · have hsel := selectBracket_suffix win c rest
        have hname : l1 ((selectBracket win c rest).2.2.takeWhile isNameChar)
            = l2 ((selectBracket win c rest).2.2.takeWhile isNameChar) :=
          h _ (((List.takeWhile_prefix _).isInfix.trans hsel.isInfix).trans
            (List.suffix_cons c rest).isInfix)
        have hlen := expandRef_selectBracket_length win l2 c rest
        have hsuf := (expandRef_suffix l2 c (selectBracket win c rest).1
          (selectBracket win c rest).2.1 (selectBracket win c rest).2.2).trans
          (hsel.trans (List.suffix_cons c rest))
        rw [ExpandEnvVars_trigger _ _ _ _ hc, ExpandEnvVars_trigger _ _ _ _ hc,
          expandRef_congr l1 l2 _ _ _ _ hname,
          ih _ (by simp only [List.length_cons]; omega) (fun n hn => h n (hn.trans hsuf.isInfix))]
      · by_cases hesc : c = BACKSLASH ∧ ∃ d rest2, rest = d :: rest2 ∧ (d = '%' ∨ d = '$')
        · obtain ⟨rfl, d, rest2, rfl, hd⟩ := hesc
          have hsuf : rest2 <:+ BACKSLASH :: d :: rest2 :=
            (List.suffix_cons d rest2).trans (List.suffix_cons _ _)
          rw [ExpandEnvVars_escape _ _ _ _ hd, ExpandEnvVars_escape _ _ _ _ hd,
            ih rest2 (by simp only [List.length_cons]; omega)
              (fun n hn => h n (hn.trans hsuf.isInfix))]
        · have hb : c = BACKSLASH → ∀ d ∈ rest.head?, ¬ (d = '%' ∨ d = '$') := by
            intro hbs d hd hdd
            apply hesc
            cases rest with
            | nil => simp at hd
            | cons e rest2 =>
              simp only [List.head?_cons, Option.mem_def, Option.some.injEq] at hd
              subst hd
              exact ⟨hbs, e, rest2, rfl, hdd⟩
          rw [ExpandEnvVars_copy _ _ _ _ hc hb, ExpandEnvVars_copy _ _ _ _ hc hb,
            ih rest (by simp) (fun n hn => h n (hn.trans (List.suffix_cons c rest).isInfix))]

/-- Witness for C29: on `$HOME/$X` the environment of the examples and one that also sets `Y`,
a name that is not written in the input, give the same. -/
theorem ExpandEnvVars_agree_witness :
    ExpandEnvVars false envHome ['$', 'H', 'O', 'M', 'E', '/', '$', 'X']
        = ExpandEnvVars false (fun n => if n = ['Y'] then some ['y'] else envHome n)
            ['$', 'H', 'O', 'M', 'E', '/', '$', 'X'] :=
  (ExpandEnvVars_agree false envHome (fun n => if n = ['Y'] then some ['y'] else envHome n)
    ['$', 'H', 'O', 'M', 'E', '/', '$', 'X'] (by
      intro n hn
      have hY : n ≠ ['Y'] := by
        rintro rfl
        revert hn
        decide
      simp [hY])).1

end Path

namespace CommandLine

/-! ## Results inside and outside the string -/

/-- C26: `GetEndOfNextArgument` returns an inclusive end index inside the string. For a string
`s` shorter than `2 ^ 64` and an index `start_at` inside it whose character is not the space,
the result lies between `start_at` and `s.length - 1`; this holds also when a backslash is the
last character and the scan runs over the end: for `a` and a backslash the result is 1. -/
theorem GetEndOfNextArgument_inside (s : List Char) (start_at : Nat) (hlen : s.length < 2 ^ 64)
    (c : Char) (hc : s[start_at]? = some c) (hsp : c ≠ ' ') :
    start_at ≤ GetEndOfNextArgument s start_at
      ∧ GetEndOfNextArgument s start_at ≤ s.length - 1
      ∧ GetEndOfNextArgument ['a', BACKSLASH] 0 = 1 := by
  obtain ⟨hlt, hget⟩ := List.getElem?_eq_some.1 hc
  have hd : s.drop start_at = c :: s.drop (start_at + 1) := by
    rw [List.drop_eq_getElem_cons hlt, hget]
  have h := GetEndOfNextArgument_bounds s start_at hlen c _ hd hsp
  exact ⟨h.1, by omega, by decide⟩

/-- Witness for C26: in `ab\` the argument from index 1 on ends at index 2, the last index. -/
theorem GetEndOfNextArgument_inside_witness :
    GetEndOfNextArgument ['a', 'b', BACKSLASH] 1 = 2
      ∧ 1 ≤ GetEndOfNextArgument ['a', 'b', BACKSLASH] 1
      ∧ GetEndOfNextArgument ['a', 'b', BACKSLASH] 1 ≤ ['a', 'b', BACKSLASH].length - 1 :=
  ⟨by decide,
    (GetEndOfNextArgument_inside ['a', 'b', BACKSLASH] 1 (by decide) 'b' (by decide)
      (by decide)).1,
    (GetEndOfNextArgument_inside ['a', 'b', BACKSLASH] 1 (by decide) 'b' (by decide)
      (by decide)).2.1⟩

/-- C27, the code at the string `ab` and the start 5 behind its end: the result is 5, which is
neither `npos` nor an index inside the string; at the end itself, start 2, the result is
`npos`. -/
theorem GetStartOfNextArgument_behind_end :
    GetStartOfNextArgument ['a', 'b'] 5 = 5
      ∧ (5 : Nat) ≠ npos ∧ ¬ 5 < ['a', 'b'].length
      ∧ GetStartOfNextArgument ['a', 'b'] 2 = npos := by
  decide

end CommandLine

namespace Path

/-! ## File names -/

/-- C24, the code at the path `file.txt` without directory separator: `GetBaseName` returns the
path with its extension, while `GetFileName` returns `file.txt` too, so that the extension is
not removed; behind a separator it is removed. -/
theorem GetBaseName_keeps_extension :
    GetBaseName ['f', 'i', 'l', 'e', '.', 't', 'x', 't']
        = some ['f', 'i', 'l', 'e', '.', 't', 'x', 't']
      ∧ GetFileName ['f', 'i', 'l', 'e', '.', 't', 'x', 't']
        = some ['f', 'i', 'l', 'e', '.', 't', 'x', 't']
      ∧ GetBaseName ['d', '/', 'f', 'i', 'l', 'e', '.', 't', 'x', 't']
        = some ['f', 'i', 'l', 'e']
      ∧ GetFileName ['d', '/', 'f', 'i', 'l', 'e', '.', 't', 'x', 't']
        = some ['f', 'i', 'l', 'e', '.', 't', 'x', 't'] := by
  decide

end Path

namespace String

/-! ## Replacing all occurrences -/

theorem isPrefixOf_eq_true_iff (p l : List Char) : p.isPrefixOf l = true ↔ p <+: l :=
  List.isPrefixOf_iff_prefix

/-- The library call `find`: either `npos` is returned and `from_` stands nowhere, or the first
position at which `from_` stands is returned. -/
theorem findLoop_spec (from_ : List Char) (hne : from_ ≠ []) (l : List Char) :
    ∀ pos,
      (findLoop from_ l pos = npos ∧ ∀ j, ¬ from_ <+: l.drop j)
        ∨ ∃ k, findLoop from_ l pos = pos + k ∧ k < l.length ∧ from_ <+: l.drop k
            ∧ ∀ j, j < k → ¬ from_ <+: l.drop j := by
  induction l with
  | nil =>
    intro pos
    left
    refine ⟨by simp [findLoop, hne], fun j h => ?_⟩
    rw [List.drop_nil] at h
    exact hne (List.prefix_nil.1 h)
  | cons c rest ih =>
    intro pos
    by_cases hp : from_.isPrefixOf (c :: rest) = true
    · right
      refine ⟨0, by simp [findLoop, hp], by simp, ?_, fun j hj => absurd hj (Nat.not_lt_zero j)⟩
      exact (isPrefixOf_eq_true_iff _ _).1 hp
    · have hnp : ¬ from_ <+: c :: rest := fun h => hp ((isPrefixOf_eq_true_iff _ _).2 h)
      rcases ih (pos + 1) with ⟨h1, h2⟩ | ⟨k, h1, h2, h3, h4⟩
      · left
        refine ⟨by simp [findLoop, hp, h1], fun j => ?_⟩
        cases j with
        | zero => exact hnp
        | succ j => exact h2 j
      · right
        refine ⟨k + 1, by simp only [findLoop, hp, h1]; simp; omega, by simp [h2], h3, ?_⟩
        intro j hj
        cases j with
        | zero => exact hnp
        | succ j => exact h4 j (by omega)

/-- Where `from_` does not stand, the scan keeps the characters. -/
theorem replaceAllSpec_keep (from_ to_ : List Char) (l : List Char) :
    ∀ k, k ≤ l.length → (∀ j, j < k → ¬ from_ <+: l.drop j) →
      replaceAllSpec from_ to_ l 0 = l.take k ++ replaceAllSpec from_ to_ (l.drop k) 0 := by
  induction l with
  | nil => intro k _ _; simp
  | cons c rest ih =>
    intro k hk h
    cases k with
    | zero => simp
    | succ k =>
      have hnp : ¬ from_.isPrefixOf (c :: rest) = true :=
        fun hp => h 0 (Nat.succ_pos _) ((isPrefixOf_eq_true_iff _ _).1 hp)
      simp only [List.length_cons] at hk
      rw [replaceAllSpec, if_neg hnp, ih k (by omega) (fun j hj => h (j + 1) (by omega))]
      simp

/-- The characters counted by `skip` are passed. -/
theorem replaceAllSpec_skip (from_ to_ : List Char) (l : List Char) :
    ∀ k, replaceAllSpec from_ to_ l k = replaceAllSpec from_ to_ (l.drop k) 0 := by
  induction l with
  | nil => intro k; cases k <;> simp [replaceAllSpec]
  | cons c rest ih =>
    intro k
    cases k with
    | zero => simp
    | succ k => rw [replaceAllSpec, ih k, List.drop_succ_cons]

/-- Where `from_` stands, the scan puts `to_` and goes on behind the occurrence. -/
theorem replaceAllSpec_match (from_ to_ : List Char) (hne : from_ ≠ []) (l : List Char)
    (hp : from_ <+: l) :
    replaceAllSpec from_ to_ l 0 = to_ ++ replaceAllSpec from_ to_ (l.drop from_.length) 0 := by
  cases l with
  | nil => exact absurd (List.prefix_nil.1 hp) hne
  | cons c rest =>
    have hlen : 1 ≤ from_.length := by
      cases from_ with
      | nil => exact absurd rfl hne
      | cons _ _ => simp
    rw [replaceAllSpec, if_pos ((isPrefixOf_eq_true_iff _ _).2 hp), replaceAllSpec_skip]
    congr 2
    rw [show from_.length = (from_.length - 1) + 1 by omega, List.drop_succ_cons]
    simp

/-- The loop of `replace` returns the text of the scan from `start` on. -/
theorem replaceLoop_spec (s from_ to_ : List Char) (hne : from_ ≠ [])
    (hlen : s.length < 2 ^ 64) :
    ∀ fuel start, start ≤ s.length → s.length < fuel + start →
      replaceLoop s from_ to_ fuel start = some (replaceAllSpec from_ to_ (s.drop start) 0) := by
  intro fuel
  induction fuel with
  | zero => intro start h1 h2; omega
  | succ fuel ih =>
    intro start h1 h2
    have hfind : find s from_ start = findLoop from_ (s.drop start) start := by
      unfold find; rw [if_neg (by omega)]
    have hflen : 1 ≤ from_.length := by
      cases from_ with
      | nil => exact absurd rfl hne
      | cons _ _ => simp
    rw [replaceLoop, hfind]
    rcases findLoop_spec from_ hne (s.drop start) start with ⟨e1, e2⟩ | ⟨k, e1, e2, e3, e4⟩
    · rw [e1, if_neg (by simp), CommandLine.substr_of_le _ _ _ h1, CommandLine.wsub_of_le h1 hlen]
      have hk := replaceAllSpec_keep from_ to_ (s.drop start) (s.drop start).length
        (Nat.le_refl _) (fun j _ => e2 j)
      rw [hk, List.take_length, List.drop_length]
      simp [replaceAllSpec]
    · rw [List.length_drop] at e2
      have hpl := e3.length_le
      rw [List.length_drop, List.length_drop] at hpl
      have hnp : start + k ≠ npos := by unfold npos; omega
      rw [e1, if_pos hnp, CommandLine.substr_of_le _ _ _ h1, CommandLine.wsub_of_le (by omega) (by omega),
        ih (start + k + from_.length) (by omega) (by omega)]
      have hk := replaceAllSpec_keep from_ to_ (s.drop start) k
        (by rw [List.length_drop]; omega) e4
      rw [hk, replaceAllSpec_match from_ to_ hne _ e3, List.drop_drop, List.drop_drop]
      simp only [Option.map_some', Nat.add_sub_cancel_left]
      congr 5
      omega

/-- Putting `from_` for `from_` changes nothing. -/
theorem replaceAllSpec_self (from_ : List Char) (hne : from_ ≠ []) (l : List Char) :
    replaceAllSpec from_ from_ l 0 = l := by
  induction l using CommandLine.length_induction with
  | _ l ih =>
    cases l with
    | nil => simp [replaceAllSpec]
    | cons c rest =>
      by_cases hp : from_ <+: c :: rest
      · have hflen : 1 ≤ from_.length := by
          cases from_ with
          | nil => exact absurd rfl hne
          | cons _ _ => simp
        obtain ⟨t, ht⟩ := hp
        rw [replaceAllSpec_match from_ from_ hne _ ⟨t, ht⟩, ← ht, List.drop_left,
          ih t (by rw [← ht, List.length_append]; omega)]
      · rw [replaceAllSpec, if_neg (fun h => hp ((isPrefixOf_eq_true_iff _ _).1 h)),
          ih rest (by simp)]

/-- C25: `replace` replaces all occurrences of `from_` from `start` on. For a string `s` shorter
than `2 ^ 64`, a non-empty `from_`, every `to_` and every `start` inside `s` or at its end, the
result is the first `start` characters of `s` followed by the rest of `s` in which each
occurrence of `from_`, found from left to right without overlap, is replaced by `to_`; the
result is `s` when `to_` is `from_`, and when `from_` stands nowhere at or behind `start`. -/
theorem replace_all (s from_ to_ : List Char) (start : Nat) (hlen : s.length < 2 ^ 64)
    (hne : from_ ≠ []) (hstart : start ≤ s.length) :
    replace s from_ to_ start
        = some (s.take start ++ replaceAllSpec from_ to_ (s.drop start) 0)
      ∧ replace s from_ from_ start = some s
      ∧ ((∀ k, start ≤ k → ¬ from_ <+: s.drop k) → replace s from_ to_ start = some s) := by
  have hgen : ∀ t, replace s from_ t start
      = some (s.take start ++ replaceAllSpec from_ t (s.drop start) 0) := by
    intro t
    rw [replace, CommandLine.substr_of_le _ _ _ (Nat.zero_le _),
      replaceLoop_spec s from_ t hne hlen _ start hstart (by omega)]
    simp
  refine ⟨hgen to_, ?_, fun hno => ?_⟩
  · rw [hgen from_, replaceAllSpec_self from_ hne, List.take_append_drop]
  · have hk := replaceAllSpec_keep from_ to_ (s.drop start) (s.drop start).length
      (Nat.le_refl _) (fun j _ => by
        rw [List.drop_drop]
        exact hno _ (by omega))
    rw [hgen to_, hk, List.take_length, List.drop_length]
    simp [replaceAllSpec]

/-- Witness for C25: in `ababca` the occurrences of `ab` from position 1 on: the one at position
2 is replaced by `x`, the one at position 0 is not. -/
theorem replace_all_witness :
    replace ['a', 'b', 'a', 'b', 'c', 'a'] ['a', 'b'] ['x'] 1 = some ['a', 'b', 'x', 'c', 'a']
      ∧ replace ['a', 'b', 'a', 'b', 'c', 'a'] ['a', 'b'] ['x'] 1
        = some (List.take 1 ['a', 'b', 'a', 'b', 'c', 'a']
            ++ replaceAllSpec ['a', 'b'] ['x'] (List.drop 1 ['a', 'b', 'a', 'b', 'c', 'a']) 0)
      ∧ replace ['a', 'b', 'a', 'b', 'c', 'a'] ['a', 'b'] ['a', 'b'] 1
        = some ['a', 'b', 'a', 'b', 'c', 'a'] :=
  ⟨by decide,
    (replace_all ['a', 'b', 'a', 'b', 'c', 'a'] ['a', 'b'] ['x'] 1 (by decide) (by decide)
      (by decide)).1,
    (replace_all ['a', 'b', 'a', 'b', 'c', 'a'] ['a', 'b'] ['x'] 1 (by decide) (by decide)
      (by decide)).2.1⟩

end String

namespace CommandLine

/-! ## The iterations of `splitCommandLine` -/

/-- The loop of `splitCommandLine` is its iteration, repeated. -/
theorem splitLoop_eq_splitStep (s : List Char) (max fuel i nps : Nat) :
    splitLoop s max (fuel + 1) i nps =
      match splitStep s max i nps with
      | .done => some []
      | .thrown => none
      | .pushed a arg n => (splitLoop s max fuel (i + 1) n).map (fun l => (a, arg) :: l) := by
  rw [splitLoop_succ]
  unfold splitStep
  by_cases hg : max = 0 ∨ i < max
  swap
  · rw [if_neg hg, if_neg hg]
  rw [if_pos hg, if_pos hg]
  by_cases hout : nps > wsub s.length 1
  · rw [if_pos hout, if_pos hout]
  rw [if_neg hout, if_neg hout]
  by_cases hne : GetStartOfNextArgument s nps ≠ npos
  swap
  · rw [if_neg hne, if_neg hne]
  rw [if_pos hne, if_pos hne]
  by_cases hend : GetEndOfNextArgument s (GetStartOfNextArgument s nps) ≠ npos
  swap
  · rw [if_neg hend, if_neg hend]
  rw [if_pos hend, if_pos hend]
  by_cases hpush : max = 0 ∨ i ≠ max - 1
  · rw [if_pos hpush, if_pos hpush]
    generalize substr s _ _ = o
    cases o <;> rfl
  · rw [if_neg hpush, if_neg hpush]
    generalize substrFrom s _ = o
    cases o <;> rfl

/-- An iteration entered with `next_part_start` inside the string throws nothing; an argument it
pushes is cut inside the string; the new `next_part_start` is inside the string or at its end,
and it is larger than the old one unless the iteration is the last one that the counter
admits. -/
theorem splitStep_pushed (s : List Char) (max i nps : Nat) (hlen : s.length < 2 ^ 64)
    (hnps : nps ≤ s.length) :
    splitStep s max i nps ≠ .thrown
      ∧ ∀ a arg n, splitStep s max i nps = .pushed a arg n →
          a < s.length ∧ arg <+: s.drop a ∧ n ≤ s.length
            ∧ ((max = 0 ∨ i + 1 < max) → nps < n)
            ∧ (¬ (max = 0 ∨ i + 1 < max) → n = nps ∧ splitStep s max (i + 1) n = .done) := by
  unfold splitStep
  by_cases hg : max = 0 ∨ i < max
  swap
  · rw [if_neg hg]; simp
  rw [if_pos hg]
  by_cases hout : nps > wsub s.length 1
  · rw [if_pos hout]; simp
  rw [if_neg hout]
  by_cases hne : GetStartOfNextArgument s nps ≠ npos
  swap
  · rw [if_neg hne]; simp
  rw [if_pos hne]
  obtain ⟨hb1, hb2, hb3⟩ := splitLoop_argument_bounds s nps hlen hnps hne
  have hend : GetEndOfNextArgument s (GetStartOfNextArgument s nps) ≠ npos := by
    unfold npos; omega
  rw [if_pos hend]
  by_cases hpush : max = 0 ∨ i ≠ max - 1
  · rw [if_pos hpush, substr_of_le _ _ _ (by omega)]
    refine ⟨by simp, ?_⟩
    intro a arg n h
    simp only [SplitStep.pushed.injEq] at h
    obtain ⟨rfl, rfl, rfl⟩ := h
    refine ⟨by omega, List.take_prefix _ _, by omega, fun _ => by omega, fun hno => ?_⟩
    exact absurd (show max = 0 ∨ i + 1 < max by omega) hno
  · rw [if_neg hpush, substrFrom_of_le _ _ (by omega)]
    refine ⟨by simp, ?_⟩
    intro a arg n h
    simp only [SplitStep.pushed.injEq] at h
    obtain ⟨rfl, rfl, rfl⟩ := h
    refine ⟨by omega, List.prefix_refl _, hnps, fun hyes => ?_, fun _ => ⟨rfl, ?_⟩⟩
    · exact absurd (show max = 0 ∨ i ≠ max - 1 by omega) hpush
    · rw [if_neg (by omega)]

/-- C28 as stated fails in its reason: on the string `a` with a maximum of one, the first
iteration pushes the argument `a` and leaves `next_part_start` at 0. -/
theorem splitStep_remainder_keeps_start :
    splitStep ['a'] 1 0 0 = SplitStep.pushed 0 ['a'] 0 ∧ ¬ (0 < 0)
      ∧ splitStep ['a', ' ', 'b'] 0 0 0 = SplitStep.pushed 0 ['a'] 1 := by
  decide

/-- C28, amended: `splitCommandLine` is total. For every string shorter than `2 ^ 64` (the empty
string, whitespace only, unterminated quotes and a backslash at the end included) and every
maximum, 0 included, `splitCommandLine` returns a list. No iteration entered with
`next_part_start` inside the string throws, every argument is cut inside the string, and
`next_part_start` stays inside the string or at its end; it strictly increases in every
iteration that pushes an argument and is followed by another one, and the iteration that pushes
the rest of the string under a maximum leaves it unchanged and is the last one: the counter
ends the loop. -/
theorem splitCommandLine_total (s : List Char) (max : Nat) (hlen : s.length < 2 ^ 64) :
    (∃ l, splitCommandLine s max = some l)
      ∧ ∀ i nps, nps ≤ s.length →
          splitStep s max i nps ≠ .thrown
            ∧ ∀ a arg n, splitStep s max i nps = .pushed a arg n →
                a < s.length ∧ arg <+: s.drop a ∧ n ≤ s.length
                  ∧ ((max = 0 ∨ i + 1 < max) → nps < n)
                  ∧ (¬ (max = 0 ∨ i + 1 < max) →
                      n = nps ∧ splitStep s max (i + 1) n = .done) := by
  constructor
  · obtain ⟨l, hl⟩ := splitSpans_total s max hlen
    exact ⟨l.map Prod.snd, by rw [splitCommandLine, hl]; rfl⟩
  · intro i nps hnps
    exact splitStep_pushed s max i nps hlen hnps

/-- Witness for the amended C28: the string `"a \` with an open quote and a backslash at the
end, split without maximum, is the one argument `"a \`. -/
theorem splitCommandLine_total_witness :
    splitCommandLine [DQUOTE, 'a', ' ', BACKSLASH] 0 = some [[DQUOTE, 'a', ' ', BACKSLASH]]
      ∧ ∃ l, splitCommandLine [DQUOTE, 'a', ' ', BACKSLASH] 0 = some l :=
  ⟨by decide, (splitCommandLine_total [DQUOTE, 'a', ' ', BACKSLASH] 0 (by decide)).1⟩

/-! ## The quote flags of the two scanners -/

/-- The loop of `ToArgv` is its iteration, repeated. -/
theorem ToArgvLoop_eq_ToArgvStep (c : Char) (rest : List Char) (st : ArgvState) :
    ToArgvLoop (c :: rest) st = ToArgvLoop (ToArgvStep st c rest).2 (ToArgvStep st c rest).1 := by
  obtain ⟨argv, q, sq, ia, cur⟩ := st
  by_cases hc : c = BACKSLASH
  · subst hc
    cases rest with
    | nil =>
      rw [ToArgvLoop_backslash_nil]
      simp [ToArgvStep, isspace_BACKSLASH, Ne.symm SQUOTE_ne_BACKSLASH,
        Ne.symm DQUOTE_ne_BACKSLASH, ToArgvLoop]
    | cons d rest2 =>
      rw [ToArgvLoop_backslash_cons]
      simp [ToArgvStep, isspace_BACKSLASH, Ne.symm SQUOTE_ne_BACKSLASH,
        Ne.symm DQUOTE_ne_BACKSLASH]
  · rw [ToArgvLoop_cons_of_ne _ _ _ _ _ _ _ hc]
    simp only [ToArgvStep, if_neg hc]
    split_ifs <;> rfl

/-- After as many iterations as the input has characters, the loop of `ToArgv` is at its end. -/
theorem ToArgvRun_final (n : Nat) :
    ∀ (l : List Char) (st : ArgvState), l.length ≤ n →
      ToArgvRun n (st, l) = (ToArgvLoop l st, []) := by
  induction n with
  | zero =>
    intro l st h
    have : l = [] := List.length_eq_zero.1 (Nat.le_zero.1 h)
    subst this
    simp [ToArgvRun, ToArgvLoop]
  | succ n ih =>
    intro l st h
    cases l with
    | nil => simp [ToArgvRun, ToArgvLoop]
    | cons c rest =>
      have hlen : (ToArgvStep st c rest).2.length ≤ n := by
        obtain ⟨argv, q, sq, ia, cur⟩ := st
        simp only [List.length_cons] at h
        simp only [ToArgvStep]
        split_ifs
        all_goals first
          | (simp only; omega)
          | (cases rest with
              | nil => simp
              | cons d rest2 => simp only [List.length_cons] at h ⊢; omega)
      rw [ToArgvRun, ToArgvLoop_eq_ToArgvStep]
      exact ih _ _ hlen

/-- One iteration of `ToArgv` keeps: not both quote flags are set, and a quote flag is set only
inside an argument. -/
theorem ToArgvStep_flags (st : ArgvState) (c : Char) (rest : List Char)
    (h1 : ¬ (st.quote = true ∧ st.squote = true))
    (h2 : st.inside_arg = true ∨ (st.quote = false ∧ st.squote = false)) :
    ¬ ((ToArgvStep st c rest).1.quote = true ∧ (ToArgvStep st c rest).1.squote = true)
      ∧ ((ToArgvStep st c rest).1.inside_arg = true
        ∨ ((ToArgvStep st c rest).1.quote = false ∧ (ToArgvStep st c rest).1.squote = false)) := by
  obtain ⟨argv, q, sq, ia, cur⟩ := st
  dsimp only at h1 h2
  have hcases : (q = false ∧ sq = false) ∨ (q = true ∧ sq = false ∧ ia = true)
      ∨ (q = false ∧ sq = true ∧ ia = true) := by
    cases q <;> cases sq <;> cases ia <;> simp at h1 h2 ⊢
  rcases hcases with ⟨rfl, rfl⟩ | ⟨rfl, rfl, rfl⟩ | ⟨rfl, rfl, rfl⟩
  all_goals
    simp only [ToArgvStep]
    split_ifs
    all_goals (cases rest <;> simp_all)

theorem ToArgvRun_flags (n : Nat) :
    ∀ (p : ArgvState × List Char), ¬ (p.1.quote = true ∧ p.1.squote = true) →
      (p.1.inside_arg = true ∨ (p.1.quote = false ∧ p.1.squote = false)) →
      ¬ ((ToArgvRun n p).1.quote = true ∧ (ToArgvRun n p).1.squote = true)
        ∧ ((ToArgvRun n p).1.inside_arg = true
          ∨ ((ToArgvRun n p).1.quote = false ∧ (ToArgvRun n p).1.squote = false)) := by
  induction n with
  | zero => intro p h1 h2; exact ⟨h1, h2⟩
  | succ n ih =>
    intro p h1 h2
    obtain ⟨st, l⟩ := p
    cases l with
    | nil => exact ⟨h1, h2⟩
    | cons c rest =>
      rw [ToArgvRun]
      have h := ToArgvStep_flags st c rest h1 h2
      exact ih _ h.1 h.2

/-- The loop of `GetEndOfNextArgument` is its iteration, repeated. -/
theorem endLoop_eq_endStep (c : Char) (rest : List Char) (pos : Nat) (dq sq : Bool) :
    endLoop (c :: rest) pos dq sq =
      match (endStep ⟨pos, dq, sq⟩ c rest).2 with
      | none => (endStep ⟨pos, dq, sq⟩ c rest).1.pos
      | some l => endLoop l (endStep ⟨pos, dq, sq⟩ c rest).1.pos
          (endStep ⟨pos, dq, sq⟩ c rest).1.double_quote
          (endStep ⟨pos, dq, sq⟩ c rest).1.single_quote := by
  by_cases hc : c = BACKSLASH
  · subst hc
    cases rest with
    | nil => rw [endLoop_backslash_nil]; simp [endStep, endLoop]
    | cons d rest2 => rw [endLoop_backslash_cons]; simp [endStep]
  · rw [endLoop_cons_of_ne _ _ _ _ _ hc]
    simp only [endStep, if_neg hc]
    split_ifs <;> rfl

theorem endStep_flags (st : EndState) (c : Char) (rest : List Char)
    (h : ¬ (st.double_quote = true ∧ st.single_quote = true)) :
    ¬ ((endStep st c rest).1.double_quote = true ∧ (endStep st c rest).1.single_quote = true) := by
  obtain ⟨pos, dq, sq⟩ := st
  simp only [endStep]
  split_ifs <;> cases dq <;> cases sq <;> simp_all

theorem endRun_flags (n : Nat) :
    ∀ (p : EndState × Option (List Char)),
      ¬ (p.1.double_quote = true ∧ p.1.single_quote = true) →
      ¬ ((endRun n p).1.double_quote = true ∧ (endRun n p).1.single_quote = true) := by
  induction n with
  | zero => intro p h; unfold endRun; exact h
  | succ n ih =>
    intro p h
    obtain ⟨st, o⟩ := p
    cases o with
    | none => unfold endRun; exact h
    | some l =>
      cases l with
      | nil => unfold endRun; exact h
      | cons c rest =>
        rw [endRun]
        exact ih _ (endStep_flags st c rest h)

/-- C30: quote-state exclusivity. In the state of `ToArgv` after any number of iterations on any
input, `quote` and `squote` are not both set, and `inside_arg` is set or no quote flag is; in
the state of `GetEndOfNextArgument` after any number of iterations on any input from any start
position, `double_quote` and `single_quote` are not both set. -/
theorem quote_flags_exclusive :
    (∀ (s : List Char) (n : Nat),
        ¬ ((ToArgvRun n (argvInit, s)).1.quote = true
          ∧ (ToArgvRun n (argvInit, s)).1.squote = true)
        ∧ ((ToArgvRun n (argvInit, s)).1.inside_arg = true
          ∨ ((ToArgvRun n (argvInit, s)).1.quote = false
            ∧ (ToArgvRun n (argvInit, s)).1.squote = false)))
      ∧ ∀ (s : List Char) (start_at n : Nat),
        ¬ ((endRun n (⟨start_at, false, false⟩, some (s.drop start_at))).1.double_quote = true
          ∧ (endRun n (⟨start_at, false, false⟩, some (s.drop start_at))).1.single_quote
            = true) := by
  constructor
  · intro s n
    exact ToArgvRun_flags n (argvInit, s) (by simp [argvInit]) (by simp [argvInit])
  · intro s start_at n
    exact endRun_flags n _ (by simp)

end CommandLine

namespace Path

/-! ## The two platform flavours -/

/-- At a character other than `%` the choice of the bracket does not depend on `_WIN32`. -/
theorem selectBracket_of_ne_percent (c : Char) (rest : List Char) (hc : c ≠ '%') :
    selectBracket true c rest = selectBracket false c rest := by
  unfold selectBracket
  simp [hc]

/-- C33: the two platform flavours of `ExpandEnvVars` differ only in the treatment of `%`. For
every environment and every input without the character `%`, the result of the code compiled
with `_WIN32` is the result of the code compiled without it. -/
theorem ExpandEnvVars_platform (getenv : List Char → Option (List Char)) (s : List Char)
    (hs : '%' ∉ s) :
    ExpandEnvVars true getenv s = ExpandEnvVars false getenv s := by
  induction s using CommandLine.length_induction with
  | _ s ih =>
    cases s with
    | nil => rw [ExpandEnvVars_nil, ExpandEnvVars_nil]
    | cons c rest =>
      have hc : c ≠ '%' := fun h => hs (h ▸ List.mem_cons_self _ _)
      have hrest : '%' ∉ rest := fun h => hs (List.mem_cons_of_mem _ h)
      by_cases hd : c = '$'
      · have hlen := expandRef_selectBracket_length false getenv c rest
        have hsuf := (expandRef_suffix getenv c (selectBracket false c rest).1
          (selectBracket false c rest).2.1 (selectBracket false c rest).2.2).trans
          (selectBracket_suffix false c rest)
        rw [ExpandEnvVars_trigger true _ _ _ (Or.inl hd),
          ExpandEnvVars_trigger false _ _ _ (Or.inl hd), selectBracket_of_ne_percent c rest hc,
          ih _ (by simp only [List.length_cons]; omega) (fun h => hrest (hsuf.subset h))]
      · have hnt : ∀ win : Bool, ¬ (c = '$' ∨ (win = true ∧ c = '%')) := by
          intro win h
          rcases h with h | h
          · exact hd h
          · exact hc h.2
        by_cases hesc : c = BACKSLASH ∧ ∃ d rest2, rest = d :: rest2 ∧ (d = '%' ∨ d = '$')
        · obtain ⟨rfl, d, rest2, rfl, hdd⟩ := hesc
          rw [ExpandEnvVars_escape _ _ _ _ hdd, ExpandEnvVars_escape _ _ _ _ hdd,
            ih rest2 (by simp only [List.length_cons]; omega)
              (fun h => hrest (List.mem_cons_of_mem _ h))]
        · have hb : c = BACKSLASH → ∀ d ∈ rest.head?, ¬ (d = '%' ∨ d = '$') := by
            intro hbs d hdm hdd
            apply hesc
            cases rest with
            | nil => simp at hdm
            | cons e rest2 =>
              simp only [List.head?_cons, Option.mem_def, Option.some.injEq] at hdm
              subst hdm
              exact ⟨hbs, e, rest2, rfl, hdd⟩
          rw [ExpandEnvVars_copy _ _ _ _ (hnt true) hb, ExpandEnvVars_copy _ _ _ _ (hnt false) hb,
            ih rest (by simp) hrest]

/-- Witness for C33: on `$HOME/$(X)` and a backslash before `$` both flavours give the same. -/
theorem ExpandEnvVars_platform_witness :
    ExpandEnvVars true envHome ['$', 'H', 'O', 'M', 'E', '/', '$', '(', 'X', ')', BACKSLASH, '$']
      = ExpandEnvVars false envHome
          ['$', 'H', 'O', 'M', 'E', '/', '$', '(', 'X', ')', BACKSLASH, '$'] :=
  ExpandEnvVars_platform envHome
    ['$', 'H', 'O', 'M', 'E', '/', '$', '(', 'X', ')', BACKSLASH, '$'] (by decide)

end Path

namespace CommandLine

/-! ## The shape of the arguments of `splitCommandLine` -/

/-- An argument that an iteration pushes begins with a character that is not whitespace. -/
theorem splitStep_pushed_head (s : List Char) (max i nps : Nat) (hlen : s.length < 2 ^ 64)
    (hnps : nps ≤ s.length) :
    ∀ a arg n, splitStep s max i nps = .pushed a arg n →
      ∃ c rest, arg = c :: rest ∧ isspace c = false := by
  unfold splitStep
  by_cases hg : max = 0 ∨ i < max
  swap
  · rw [if_neg hg]; simp
  rw [if_pos hg]
  by_cases hout : nps > wsub s.length 1
  · rw [if_pos hout]; simp
  rw [if_neg hout]
  by_cases hne : GetStartOfNextArgument s nps ≠ npos
  swap
  · rw [if_neg hne]; simp
  rw [if_pos hne]
  obtain ⟨hb1, hb2, hb3⟩ := splitLoop_argument_bounds s nps hlen hnps hne
  obtain ⟨_, _, c, rest, hd, hsp⟩ := GetStartOfNextArgument_spec s nps hnps hne
  have hend : GetEndOfNextArgument s (GetStartOfNextArgument s nps) ≠ npos := by
    unfold npos; omega
  rw [if_pos hend]
  by_cases hpush : max = 0 ∨ i ≠ max - 1
  · rw [if_pos hpush, substr_of_le _ _ _ (by omega), wsub_of_le hb2 (by omega),
      Nat.mod_eq_of_lt (by omega), hd, List.take_succ_cons]
    intro a arg n h
    simp only [SplitStep.pushed.injEq] at h
    exact ⟨c, _, h.2.1.symm, hsp⟩
  · rw [if_neg hpush, substrFrom_of_le _ _ (by omega), hd]
    intro a arg n h
    simp only [SplitStep.pushed.injEq] at h
    exact ⟨c, _, h.2.1.symm, hsp⟩

/-- Every argument that the loop of `splitCommandLine` pushes begins with a character that is
not whitespace. -/
theorem splitLoop_heads (s : List Char) (max : Nat) (hlen : s.length < 2 ^ 64) :
    ∀ (fuel i nps : Nat) (l : List (Nat × List Char)),
      splitLoop s max fuel i nps = some l → nps ≤ s.length →
      ∀ p ∈ l, ∃ c rest, p.2 = c :: rest ∧ isspace c = false := by
  intro fuel
  induction fuel with
  | zero => intro i nps l h; simp [splitLoop] at h
  | succ fuel ih =>
    intro i nps l h hnps p hp
    rw [splitLoop_eq_splitStep] at h
    cases hstep : splitStep s max i nps with
    | done =>
      rw [hstep] at h
      simp only [Option.some.injEq] at h
      subst h
      simp at hp
    | thrown => rw [hstep] at h; simp at h
    | pushed a arg n =>
      rw [hstep] at h
      simp only at h
      cases hrec : splitLoop s max fuel (i + 1) n with
      | none => rw [hrec] at h; simp at h
      | some l2 =>
        rw [hrec] at h
        simp only [Option.map_some', Option.some.injEq] at h
        subst h
        rcases List.mem_cons.1 hp with rfl | hp
        · exact splitStep_pushed_head s max i nps hlen hnps a arg n hstep
        · exact ih (i + 1) n l2 hrec
            ((splitStep_pushed s max i nps hlen hnps).2 a arg n hstep).2.2.1 p hp

/-- C32: every argument that `splitCommandLine` returns, for every string shorter than `2 ^ 64`
and every maximum, 0 included, is not empty and begins with a character that is not whitespace;
`ToArgv` is different: for two adjacent double quotes it returns the empty argument. -/
theorem splitCommandLine_heads (s : List Char) (max : Nat) (hlen : s.length < 2 ^ 64) :
    (∃ l, splitCommandLine s max = some l
        ∧ ∀ t ∈ l, ∃ c rest, t = c :: rest ∧ isspace c = false)
      ∧ ToArgv [DQUOTE, DQUOTE] = [[]] := by
  refine ⟨?_, by decide⟩
  obtain ⟨sp, hsp⟩ := splitSpans_total s max hlen
  refine ⟨sp.map Prod.snd, by rw [splitCommandLine, hsp]; rfl, ?_⟩
  intro t ht
  obtain ⟨p, hp, rfl⟩ := List.mem_map.1 ht
  exact splitLoop_heads s max hlen _ 0 0 sp hsp (Nat.zero_le _) p hp

/-- Witness for C32: the string ` "" a` with a maximum of one: the one argument is `"" a`. -/
theorem splitCommandLine_heads_witness :
    splitCommandLine [' ', DQUOTE, DQUOTE, ' ', 'a'] 1 = some [[DQUOTE, DQUOTE, ' ', 'a']]
      ∧ ∃ l, splitCommandLine [' ', DQUOTE, DQUOTE, ' ', 'a'] 1 = some l
        ∧ ∀ t ∈ l, ∃ c rest, t = c :: rest ∧ isspace c = false :=
  ⟨by decide, (splitCommandLine_heads [' ', DQUOTE, DQUOTE, ' ', 'a'] 1 (by decide)).1⟩

/-! ## The two parsers on strings whose only whitespace is the space -/

/-- A whitespace character other than tab, newline, vertical tab, form feed and carriage return
is the space. -/
theorem eq_space_of_isspace {c : Char} (h : isspace c = true)
    (hc : c ≠ '\t' ∧ c ≠ '\n' ∧ c ≠ Char.ofNat 11 ∧ c ≠ Char.ofNat 12 ∧ c ≠ '\r') : c = ' ' := by
  unfold isspace at h
  simp only [Bool.or_eq_true, decide_eq_true_eq, Bool.and_eq_true] at h
  rcases h with h | ⟨h1, h2⟩
  · exact h
  · exfalso
    have hof : Char.ofNat c.toNat = c := Char.ofNat_toNat c
    obtain ⟨n, hn⟩ : ∃ n, c.toNat = n := ⟨_, rfl⟩
    rw [hn] at h1 h2 hof
    interval_cases n
    · exact hc.1 hof.symm
    · exact hc.2.1 hof.symm
    · exact hc.2.2.1 hof.symm
    · exact hc.2.2.2.1 hof.symm
    · exact hc.2.2.2.2 hof.symm

/-- Outside an argument `ToArgv` passes whitespace. -/
theorem ToArgvLoop_skip_space (ws l : List Char) (hws : ∀ c ∈ ws, isspace c = true) :
    ToArgvLoop (ws ++ l) argvInit = ToArgvLoop l argvInit := by
  induction ws with
  | nil => rfl
  | cons c ws ih =>
    have hc := hws c (List.mem_cons_self _ _)
    rw [List.cons_append, argvInit,
      ToArgvLoop_cons_of_ne _ _ _ _ _ _ _ (ne_BACKSLASH_of_isspace hc)]
    simp only [hc, ne_SQUOTE_of_isspace hc, ne_DQUOTE_of_isspace hc]
    simp only [Bool.false_eq_true, false_and, if_false, or_self]
    exact ih (fun d hd => hws d (List.mem_cons_of_mem _ hd))

theorem ToArgv_skip_space (ws l : List Char) (hws : ∀ c ∈ ws, isspace c = true) :
    ToArgv (ws ++ l) = ToArgv l := by
  rw [ToArgv, ToArgv, ToArgvLoop_skip_space ws l hws]

/-- One iteration of both loops at a character that is no backslash and does not end the
argument: `ToArgv` and `GetEndOfNextArgument` go to the next character with the same quote
flags, and `ToArgv` is inside an argument. -/
theorem scan_step (c : Char) (rest : List Char) (pos : Nat) (dq sq ia : Bool) (cur : List Char)
    (hb : c ≠ BACKSLASH) (hnb : ¬ (c = ' ' ∧ dq = false ∧ sq = false))
    (hws : isspace c = true → c = ' ') (hinv : ia = true ∨ (dq = false ∧ sq = false)) :
    ∃ dq1 sq1 cur1,
      (∀ rest2, ToArgvLoop (c :: rest2) ⟨[], dq, sq, ia, cur⟩
          = ToArgvLoop rest2 ⟨[], dq1, sq1, true, cur1⟩)
        ∧ endLoop (c :: rest) pos dq sq = endLoop rest (pos + 1) dq1 sq1 := by
  rw [endLoop_cons_of_ne _ _ _ _ _ hb, if_neg hnb]
  by_cases hd : c = DQUOTE
  · subst hd
    refine ⟨if sq = false then !dq else dq, sq, if sq = false then cur else cur ++ [DQUOTE],
      fun rest2 => ?_, by simp⟩
    rw [ToArgvLoop_cons_of_ne _ _ _ _ _ _ _ hb]
    cases dq <;> cases sq <;> cases ia <;>
      simp_all [isspace_DQUOTE, Ne.symm SQUOTE_ne_DQUOTE]
  · by_cases hs : c = SQUOTE
    · subst hs
      refine ⟨dq, if dq = false then !sq else sq, if dq = false then cur else cur ++ [SQUOTE],
        fun rest2 => ?_, by simp [SQUOTE_ne_DQUOTE]⟩
      rw [ToArgvLoop_cons_of_ne _ _ _ _ _ _ _ hb]
      cases dq <;> cases sq <;> cases ia <;>
        simp_all [isspace_SQUOTE, SQUOTE_ne_DQUOTE]
    · refine ⟨dq, sq, cur ++ [c], fun rest2 => ?_, by simp [hd, hs]⟩
      rw [ToArgvLoop_cons_of_ne _ _ _ _ _ _ _ hb]
      by_cases hsp : isspace c = true
      · have hc := hws hsp
        subst hc
        cases dq <;> cases sq <;> cases ia <;> simp_all
      · simp only [Bool.not_eq_true] at hsp
        cases dq <;> cases sq <;> cases ia <;> simp_all

/-- Both loops on one argument. From a state of `ToArgv` with nothing pushed, the same quote
flags as `GetEndOfNextArgument`, and an argument that is open or begins here: either both
loops end the argument at the same unquoted space, at index `k` of the input, `ToArgv` pushes
one argument `cur2` there and ends on the input before that space inside the argument
`cur2`; or both run to the end of the input, and `ToArgv` ends inside an argument. -/
theorem scan_sync (l : List Char) :
    ∀ (pos : Nat) (dq sq ia : Bool) (cur : List Char),
      (∀ c ∈ l, isspace c = true → c = ' ') →
      ((ia = true ∧ 1 ≤ pos) ∨ ∃ c rest, l = c :: rest ∧ c ≠ ' ') →
      (ia = true ∨ (dq = false ∧ sq = false)) →
      pos + l.length < 2 ^ 64 →
      (∃ k r cur2, l.drop k = ' ' :: r ∧ endLoop l pos dq sq + 1 = pos + k
          ∧ ToArgvLoop l ⟨[], dq, sq, ia, cur⟩ = ToArgvLoop r ⟨[cur2], false, false, false, []⟩
          ∧ ToArgvLoop (l.take k) ⟨[], dq, sq, ia, cur⟩ = ⟨[], false, false, true, cur2⟩)
        ∨ (pos + l.length ≤ endLoop l pos dq sq
          ∧ ∃ q2 s2 cur2, ToArgvLoop l ⟨[], dq, sq, ia, cur⟩ = ⟨[], q2, s2, true, cur2⟩) := by
  induction l using length_induction with
  | _ l ih =>
    intro pos dq sq ia cur honly hstart hinv hbound
    cases l with
    | nil =>
      right
      have hia : ia = true := by
        rcases hstart with h | ⟨c, rest, h, _⟩
        · exact h.1
        · exact absurd h (by simp)
      subst hia
      exact ⟨by simp [endLoop], dq, sq, cur, by simp [ToArgvLoop]⟩
    | cons c rest =>
      simp only [List.length_cons] at hbound
      have hrest : ∀ d ∈ rest, isspace d = true → d = ' ' :=
        fun d hd => honly d (List.mem_cons_of_mem _ hd)
      by_cases hb : c = BACKSLASH
      · subst hb
        cases rest with
        | nil =>
          right
          exact ⟨by rw [endLoop_backslash_nil]; simp, dq, sq, cur,
            by rw [ToArgvLoop_backslash_nil]⟩
        | cons d rest2 =>
          simp only [List.length_cons] at hbound
          have hrest2 : ∀ e ∈ rest2, isspace e = true → e = ' ' :=
            fun e he => hrest e (List.mem_cons_of_mem _ he)
          rcases ih rest2 (by simp only [List.length_cons]; omega) (pos + 2) dq sq true
              (cur ++ [d]) hrest2 (Or.inl ⟨rfl, by omega⟩) (Or.inl rfl) (by omega) with
            ⟨k, r, cur2, h1, h2, h3, h4⟩ | ⟨h1, q2, s2, cur2, h2⟩
          · left
            refine ⟨k + 2, r, cur2, by simpa using h1, ?_, ?_, ?_⟩
            · rw [endLoop_backslash_cons]; omega
            · rw [ToArgvLoop_backslash_cons]; exact h3
            · rw [List.take_succ_cons, List.take_succ_cons, ToArgvLoop_backslash_cons]
              exact h4
          · right
            refine ⟨?_, q2, s2, cur2, ?_⟩
            · rw [endLoop_backslash_cons]; simp only [List.length_cons]; omega
            · rw [ToArgvLoop_backslash_cons]; exact h2
      · by_cases hbr : c = ' ' ∧ dq = false ∧ sq = false
        · obtain ⟨rfl, rfl, rfl⟩ := hbr
          have hia : ia = true ∧ 1 ≤ pos := by
            rcases hstart with h | ⟨c, rest2, h, hc⟩
            · exact h
            · simp only [List.cons.injEq] at h
              exact absurd h.1.symm hc
          obtain ⟨rfl, hpos⟩ := hia
          left
          refine ⟨0, rest, cur, rfl, ?_, ?_, by simp [ToArgvLoop]⟩
          · rw [endLoop_cons_of_ne _ _ _ _ _ hb, if_pos ⟨rfl, rfl, rfl⟩,
              wsub_one hpos (by omega)]
            omega
          · exact ToArgvLoop_space_close ' ' isspace_space rest [] cur
        · obtain ⟨dq1, sq1, cur1, hT, hE⟩ := scan_step c rest pos dq sq ia cur hb hbr
            (honly c (List.mem_cons_self _ _)) hinv
          rcases ih rest (by simp) (pos + 1) dq1 sq1 true cur1 hrest
              (Or.inl ⟨rfl, by omega⟩) (Or.inl rfl) (by omega) with
            ⟨k, r, cur2, h1, h2, h3, h4⟩ | ⟨h1, q2, s2, cur2, h2⟩
          · left
            refine ⟨k + 1, r, cur2, by simpa using h1, ?_, ?_, ?_⟩
            · rw [hE]; omega
            · rw [hT]; exact h3
            · rw [List.take_succ_cons, hT]; exact h4
          · right
            refine ⟨?_, q2, s2, cur2, ?_⟩
            · rw [hE]; simp only [List.length_cons]; omega
            · rw [hT]; exact h2

/-- From every `next_part_start` on, `ToArgv` applied to the arguments of the unbounded loop
gives, one by one, the arguments of `ToArgv` on the rest of the string. -/
theorem splitLoop_ToArgv (s : List Char) (hlen : s.length < 2 ^ 64)
    (honly : ∀ c ∈ s, isspace c = true → c = ' ') :
    ∀ (fuel i nps : Nat) (lu : List (Nat × List Char)),
      splitLoop s 0 fuel i nps = some lu → nps ≤ s.length →
      lu.map (fun p => ToArgv p.2) = (ToArgv (s.drop nps)).map (fun t => [t]) := by
  intro fuel
  induction fuel with
  | zero => intro i nps lu h; simp [splitLoop] at h
  | succ fuel ih =>
    intro i nps lu h hnps
    rcases splitLoop_unbounded_cases s fuel i nps lu h with ⟨rfl, _⟩ | ⟨arg, lu2, rfl, hout, hne, hend, hsub, hrec⟩
    · have hws := splitLoop_unbounded_nil s fuel i nps hlen hnps h
      have := ToArgv_skip_space (s.drop nps) [] hws
      rw [List.append_nil] at this
      rw [this]
      rfl
    · obtain ⟨hb1, hb2, hb3⟩ := splitLoop_argument_bounds s nps hlen hnps hne
      obtain ⟨_, _, c, rest, hd, hsp⟩ := GetStartOfNextArgument_spec s nps hnps hne
      have hc : c ≠ ' ' := by
        rintro rfl; simp [isspace_space] at hsp
      -- the whitespace before the argument
      have hsk := GetStartOfNextArgument_eq_skipSpaces s nps hne
      have hws := skipSpaces_take (s.drop nps) nps
      rw [← hsk] at hws
      have e1 : s.drop nps = (s.drop nps).take (GetStartOfNextArgument s nps - nps)
          ++ s.drop (GetStartOfNextArgument s nps) := by
        conv_lhs => rw [← List.take_append_drop (GetStartOfNextArgument s nps - nps) (s.drop nps)]
        rw [List.drop_drop]
        congr 2
        omega
      have hskip : ToArgv (s.drop nps) = ToArgv (s.drop (GetStartOfNextArgument s nps)) := by
        conv_lhs => rw [e1]
        exact ToArgv_skip_space _ _ hws
      -- the argument
      have harg := (le_length_of_substr hsub).2
      rw [wsub_of_le hb2 (by omega), Nat.mod_eq_of_lt (by omega)] at harg
      have hldrop : (s.drop (GetStartOfNextArgument s nps)).length
          = s.length - GetStartOfNextArgument s nps := List.length_drop _ _
      have hgE : GetEndOfNextArgument s (GetStartOfNextArgument s nps)
          = if endLoop (s.drop (GetStartOfNextArgument s nps)) (GetStartOfNextArgument s nps)
                false false > s.length - 1 then s.length - 1
            else endLoop (s.drop (GetStartOfNextArgument s nps)) (GetStartOfNextArgument s nps)
                false false := by
        unfold GetEndOfNextArgument
        simp only
        rw [wsub_one (by omega) hlen]
      rcases scan_sync (s.drop (GetStartOfNextArgument s nps)) (GetStartOfNextArgument s nps)
          false false false []
          (fun d hdm => honly d (List.mem_of_mem_drop hdm))
          (Or.inr ⟨c, rest, hd, hc⟩) (Or.inr ⟨rfl, rfl⟩) (by rw [hldrop]; omega) with
        ⟨k, r, cur2, h1, h2, h3, h4⟩ | ⟨h1, q2, s2, cur2, h2⟩
      · -- both loops end the argument at the space at index `k`
        have hk0 : k ≠ 0 := by
          rintro rfl
          rw [List.drop_zero, hd] at h1
          simp only [List.cons.injEq] at h1
          exact hc h1.1
        have hklen : k < s.length - GetStartOfNextArgument s nps := by
          by_contra hcon
          rw [List.drop_of_length_le (by rw [hldrop]; omega)] at h1
          exact absurd h1 (by simp)
        have hE : GetEndOfNextArgument s (GetStartOfNextArgument s nps) + 1
            = GetStartOfNextArgument s nps + k := by
          rw [hgE, if_neg (by omega)]
          exact h2
        have hargk : arg = (s.drop (GetStartOfNextArgument s nps)).take k := by
          rw [harg]
          congr 1
          omega
        have hnext : s.drop (GetEndOfNextArgument s (GetStartOfNextArgument s nps) + 1)
            = ' ' :: r := by
          rw [hE, ← h1, List.drop_drop]
        have hih := ih (i + 1) _ lu2 hrec (by omega)
        rw [hnext] at hih
        have hsp1 : ToArgv (' ' :: r) = ToArgv r :=
          ToArgv_skip_space [' '] r (by simp [isspace_space])
        rw [hsp1] at hih
        have hA : ToArgv arg = [cur2] := by
          rw [hargk, ToArgv, argvInit, h4]
          simp [argvFinish]
        have hB : ToArgv (s.drop (GetStartOfNextArgument s nps)) = cur2 :: ToArgv r := by
          rw [ToArgv, argvInit, h3]
          exact argvFinish_after_close r cur2
        rw [hskip, hB, List.map_cons, List.map_cons, hih, hA]
      · -- both loops run to the end of the string
        have hE : GetEndOfNextArgument s (GetStartOfNextArgument s nps) = s.length - 1 := by
          rw [hgE, if_pos (by rw [hldrop] at h1; omega)]
        have hargl : arg = s.drop (GetStartOfNextArgument s nps) := by
          rw [harg, hE]
          exact List.take_of_length_le (by rw [hldrop]; omega)
        have hih := ih (i + 1) _ lu2 hrec (by omega)
        rw [hE, List.drop_of_length_le (by omega)] at hih
        have hnil : lu2 = [] := by
          have : ToArgv [] = [] := by decide
          rw [this] at hih
          simpa using hih
        have hB : ToArgv (s.drop (GetStartOfNextArgument s nps)) = [cur2] := by
          rw [ToArgv, argvInit, h2]
          simp [argvFinish]
        rw [hskip, hnil, List.map_cons, hargl, hB]
        rfl

/-- C31: the two parsers agree on the arguments when the only whitespace is the space. For a
string `s` shorter than `2 ^ 64` without tab, newline, vertical tab, form feed and carriage
return, the unbounded `splitCommandLine` returns as many arguments as `ToArgv`, and the `i`-th
argument of `ToArgv` is what `ToArgv` makes of the `i`-th argument of `splitCommandLine` alone,
its content without quotes and escapes. -/
theorem splitCommandLine_ToArgv (s : List Char) (hlen : s.length < 2 ^ 64)
    (hs : ∀ c ∈ s, c ≠ '\t' ∧ c ≠ '\n' ∧ c ≠ Char.ofNat 11 ∧ c ≠ Char.ofNat 12 ∧ c ≠ '\r') :
    ∃ l, splitCommandLine s 0 = some l ∧ l.length = (ToArgv s).length
      ∧ l.map ToArgv = (ToArgv s).map (fun t => [t]) := by
  obtain ⟨sp, hsp⟩ := splitSpans_total s 0 hlen
  have h := splitLoop_ToArgv s hlen (fun c hc hw => eq_space_of_isspace hw (hs c hc))
    _ 0 0 sp hsp (Nat.zero_le _)
  rw [List.drop_zero] at h
  have hmap : (sp.map Prod.snd).map ToArgv = (ToArgv s).map (fun t => [t]) := by
    rw [List.map_map]
    exact h
  refine ⟨sp.map Prod.snd, by rw [splitCommandLine, hsp]; rfl, ?_, hmap⟩
  have := congrArg List.length hmap
  simpa using this

/-- Witness for C31: the string `"a b" c\ d 'e"'` gives three arguments in both parsers. -/
theorem splitCommandLine_ToArgv_witness :
    splitCommandLine
        [DQUOTE, 'a', ' ', 'b', DQUOTE, ' ', 'c', BACKSLASH, ' ', 'd', ' ', SQUOTE, 'e', DQUOTE,
          SQUOTE] 0
        = some [[DQUOTE, 'a', ' ', 'b', DQUOTE], ['c', BACKSLASH, ' ', 'd'],
            [SQUOTE, 'e', DQUOTE, SQUOTE]]
      ∧ ToArgv
        [DQUOTE, 'a', ' ', 'b', DQUOTE, ' ', 'c', BACKSLASH, ' ', 'd', ' ', SQUOTE, 'e', DQUOTE,
          SQUOTE]
        = [['a', ' ', 'b'], ['c', ' ', 'd'], ['e', DQUOTE]]
      ∧ ∃ l, splitCommandLine
          [DQUOTE, 'a', ' ', 'b', DQUOTE, ' ', 'c', BACKSLASH, ' ', 'd', ' ', SQUOTE, 'e', DQUOTE,
            SQUOTE] 0 = some l
        ∧ l.length = (ToArgv
          [DQUOTE, 'a', ' ', 'b', DQUOTE, ' ', 'c', BACKSLASH, ' ', 'd', ' ', SQUOTE, 'e', DQUOTE,
            SQUOTE]).length
        ∧ l.map ToArgv = (ToArgv
          [DQUOTE, 'a', ' ', 'b', DQUOTE, ' ', 'c', BACKSLASH, ' ', 'd', ' ', SQUOTE, 'e', DQUOTE,
            SQUOTE]).map (fun t => [t]) :=
  ⟨by decide, by decide, splitCommandLine_ToArgv _ (by decide) (by decide)⟩

end CommandLine

end EcalUtils
